import Mathlib

/-!
# Alertmanager → Discord webhook bridge: a verification development

Shallow embedding of `main.go`.

* A Go `string` is an immutable sequence of bytes; it is modelled as a list of
  byte values (`GoString`).  `len(s)` is the number of bytes, `s[:n]` keeps the
  first `n` bytes.
* A Go `map[string]string` (`KV`) is modelled as the list of its entries in the
  order in which `range` enumerates them; the keys of a map are pairwise
  distinct, which theorems that depend on it assume as `KV.WellFormed`.
* Loops with `return`/`break`/`continue` are modelled as recursive functions
  over the remaining elements with the loop variables as accumulators.
* Logging has no effect on results and is omitted.
-/

namespace Discord

/-! ## Strings -/

/-- A Go string: a sequence of bytes (each value is in `0..255`). -/
abbrev GoString := List Nat

/-- The bytes of an ASCII string literal (for ASCII text the UTF-8 encoding is
one byte per character, the character code). -/
def ascii (s : String) : GoString := s.data.map Char.toNat

/-- One-byte encodings of the code points accepted by `unicode.IsSpace`:
`\t`, `\n`, `\v`, `\f`, `\r` and the space. -/
def isSpace1 (a : Nat) : Bool :=
  a == 0x09 || a == 0x0A || a == 0x0B || a == 0x0C || a == 0x0D || a == 0x20

/-- Two-byte UTF-8 encodings of the code points accepted by `unicode.IsSpace`:
U+0085 (`C2 85`) and U+00A0 (`C2 A0`). -/
def isSpace2 (a b : Nat) : Bool :=
  a == 0xC2 && (b == 0x85 || b == 0xA0)

/-- Three-byte UTF-8 encodings of the code points accepted by
`unicode.IsSpace`: U+1680 (`E1 9A 80`), U+2000..U+200A (`E2 80 80..8A`),
U+2028, U+2029, U+202F (`E2 80 A8/A9/AF`), U+205F (`E2 81 9F`) and
U+3000 (`E3 80 80`). -/
def isSpace3 (a b c : Nat) : Bool :=
  (a == 0xE1 && b == 0x9A && c == 0x80) ||
  (a == 0xE2 && b == 0x80 &&
    ((0x80 ≤ c && c ≤ 0x8A) || c == 0xA8 || c == 0xA9 || c == 0xAF)) ||
  (a == 0xE2 && b == 0x81 && c == 0x9F) ||
  (a == 0xE3 && b == 0x80 && c == 0x80)

/-- The function `strings.TrimLeftFunc(s, unicode.IsSpace)`: the rune at the
front is decoded and dropped while it is white space.  A byte sequence that is
not the encoding of a white-space rune (a different rune, or invalid UTF-8,
which decodes to U+FFFD) stops the scan. -/
def trimLeftSpace : GoString → GoString
  | [] => []
  | a :: r =>
    if isSpace1 a then trimLeftSpace r else
    match r with
    | [] => a :: r
    | b :: r2 =>
      if isSpace2 a b then trimLeftSpace r2 else
      match r2 with
      | [] => a :: r
      | c :: r3 => if isSpace3 a b c then trimLeftSpace r3 else a :: r

/-- The scan of `strings.TrimRightFunc(s, unicode.IsSpace)` on the reversed
string: the last rune is decoded and dropped while it is white space. -/
def trimRevSpace : GoString → GoString
  | [] => []
  | a :: r =>
    if isSpace1 a then trimRevSpace r else
    match r with
    | [] => a :: r
    | b :: r2 =>
      if isSpace2 b a then trimRevSpace r2 else
      match r2 with
      | [] => a :: r
      | c :: r3 => if isSpace3 c b a then trimRevSpace r3 else a :: r

/-- The function `strings.TrimSpace`: leading white space is removed, then
trailing white space. -/
def TrimSpace (s : GoString) : GoString :=
  (trimRevSpace (trimLeftSpace s).reverse).reverse

/-- The string `"..."`. -/
def ellipsis : GoString := ascii "..."

/-- The Go function `truncateString`.  The slice expression `s[:maxLen-3]`
panics when `maxLen-3` is negative (the other bound, `maxLen-3 ≤ len(s)`,
holds on that branch); a panic is `none`. -/
def truncateString (s : GoString) (maxLen : Int) : Option GoString :=
  if (s.length : Int) ≤ maxLen then some s
  else if maxLen - 3 < 0 then none
  else some (s.take (maxLen - 3).toNat ++ ellipsis)

/-! ## Discord message structures -/

/-- The Go type `DiscordEmbedField`. -/
structure DiscordEmbedField where
  Name : GoString
  Value : GoString
  Inline : Bool
deriving DecidableEq, Repr

/-- The Go type `DiscordEmbed`; footer and timestamp are not read by any
function modelled here and are left out. -/
structure DiscordEmbed where
  Title : GoString
  Description : GoString
  URL : GoString
  Color : Nat
  Fields : List DiscordEmbedField
deriving DecidableEq, Repr

/-- The Go type `DiscordMessage`. -/
structure DiscordMessage where
  Content : GoString
  Username : GoString
  AvatarURL : GoString
  Embeds : List DiscordEmbed
deriving DecidableEq, Repr

/-! ## The message validator -/

/-- The inner loop of `validateDiscordMessage` over the fields of one embed;
`embedSize` is the accumulator, `none` is `return false`. -/
def validateFields : List DiscordEmbedField → Nat → Option Nat
  | [], embedSize => some embedSize
  | field :: rest, embedSize =>
    let fieldName := TrimSpace field.Name
    let fieldValue := TrimSpace field.Value
    if fieldName = [] then none
    else if fieldValue = [] then none
    else if fieldName.length > 256 then none
    else if fieldValue.length > 1024 then none
    else validateFields rest (embedSize + fieldName.length + fieldValue.length)

/-- The outer loop of `validateDiscordMessage` over the embeds; `totalSize` is
the accumulator, `none` is `return false`.  A URL that does not parse is only
logged, so the URL check has no branch here. -/
def validateEmbeds : List DiscordEmbed → Nat → Option Nat
  | [], totalSize => some totalSize
  | embed :: rest, totalSize =>
    let hasContent :=
      embed.Title ≠ [] || embed.Description ≠ [] || embed.Fields.length > 0
    if !hasContent then none
    else if embed.Title.length > 256 then none
    else if embed.Description.length > 4096 then none
    else if embed.Fields.length > 25 then none
    else
      match validateFields embed.Fields
          (embed.Title.length + embed.Description.length) with
      | none => none
      | some embedSize => validateEmbeds rest (totalSize + embedSize)

/-- The Go function `validateDiscordMessage`. -/
def validateDiscordMessage (message : DiscordMessage) : Bool :=
  if message.Content = [] && message.Embeds.length = 0 then false
  else if message.Embeds.length > 10 then false
  else
    match validateEmbeds message.Embeds 0 with
    | none => false
    | some totalSize => if totalSize > 5000 then false else true

/-! ## The validator's acceptance condition, as the specification words it -/

/-- A field is acceptable: name and value are non-empty after trimming, the
trimmed name is at most 256 long and the trimmed value at most 1024. -/
def FieldAcceptable (f : DiscordEmbedField) : Prop :=
  TrimSpace f.Name ≠ [] ∧ TrimSpace f.Value ≠ [] ∧
  (TrimSpace f.Name).length ≤ 256 ∧ (TrimSpace f.Value).length ≤ 1024

/-- An embed is acceptable: it has a title, a description or a field; the
title is at most 256 long, the description at most 4096; there are at most 25
fields and each is acceptable. -/
def EmbedAcceptable (e : DiscordEmbed) : Prop :=
  (e.Title ≠ [] ∨ e.Description ≠ [] ∨ e.Fields ≠ []) ∧
  e.Title.length ≤ 256 ∧ e.Description.length ≤ 4096 ∧
  e.Fields.length ≤ 25 ∧ ∀ f ∈ e.Fields, FieldAcceptable f

/-- Summed lengths of the trimmed names and trimmed values of fields. -/
def trimmedFieldsSize (fs : List DiscordEmbedField) : Nat :=
  (fs.map fun f => (TrimSpace f.Name).length + (TrimSpace f.Value).length).sum

/-- Title length, description length and trimmed field lengths of an embed. -/
def trimmedEmbedSize (e : DiscordEmbed) : Nat :=
  e.Title.length + e.Description.length + trimmedFieldsSize e.Fields

/-- The size the validator measures: the sum of `trimmedEmbedSize`. -/
def trimmedMessageSize (m : DiscordMessage) : Nat :=
  (m.Embeds.map trimmedEmbedSize).sum

/-- Summed lengths of the names and values of fields as they are stored. -/
def storedFieldsSize (fs : List DiscordEmbedField) : Nat :=
  (fs.map fun f => f.Name.length + f.Value.length).sum

/-- The size of the text that is serialized: titles, descriptions, field names
and field values as they are stored in the message. -/
def storedMessageSize (m : DiscordMessage) : Nat :=
  (m.Embeds.map fun e =>
    e.Title.length + e.Description.length + storedFieldsSize e.Fields).sum

/-- The acceptance condition of the message validator. -/
def MessageAcceptable (m : DiscordMessage) : Prop :=
  (m.Content ≠ [] ∨ m.Embeds ≠ []) ∧
  m.Embeds.length ≤ 10 ∧
  (∀ e ∈ m.Embeds, EmbedAcceptable e) ∧
  trimmedMessageSize m ≤ 5000

/-! ## Key/value maps and the sorted-pairs view -/

/-- The Go type `KV` (`map[string]string`): the entries of the map, in the
order in which `range` enumerates them. -/
abbrev KV := List (GoString × GoString)

/-- The keys of a Go map are pairwise distinct. -/
def KV.WellFormed (kv : KV) : Prop := (kv.map Prod.fst).Nodup

/-- The index expression `kv[key]`: the value stored under `key`, or the empty
string when the key is absent. -/
def KV.get : KV → GoString → GoString
  | [], _ => []
  | (k, v) :: rest, key => if k = key then v else KV.get rest key

/-- The Go type `Pair`. -/
structure Pair where
  Name : GoString
  Value : GoString
deriving DecidableEq, Repr

/-- The constant `AlertNameLabel`. -/
def AlertNameLabel : GoString := ascii "alertname"

/-- Go's `a < b` on strings: bytewise lexicographic order. -/
def strLess : GoString → GoString → Bool
  | [], [] => false
  | [], _ :: _ => true
  | _ :: _, [] => false
  | a :: as, b :: bs => decide (a < b) || (a == b && strLess as bs)

/-- Go's `a <= b` on strings. -/
def strLessEq (a b : GoString) : Prop := strLess b a = false

instance : DecidableRel strLessEq := fun a b =>
  inferInstanceAs (Decidable (strLess b a = false))

/-- The library function `sort.Strings`: the strings in increasing order. -/
def sortStrings (l : List GoString) : List GoString :=
  l.insertionSort strLessEq

/-- The first loop of `SortedPairs`, over the entries of the map: the key
`alertname` is put in front of `keys` and sets `sortStart` to 1, any other key
is appended. -/
def collectKeys : KV → List GoString → Nat → List GoString × Nat
  | [], keys, sortStart => (keys, sortStart)
  | (k, _) :: rest, keys, sortStart =>
    if k = AlertNameLabel then collectKeys rest ([k] ++ keys) 1
    else collectKeys rest (keys ++ [k]) sortStart

/-- The Go method `KV.SortedPairs`: `keys[sortStart:]` is sorted in place and
every key is paired with its value. -/
def KV.SortedPairs (kv : KV) : List Pair :=
  let collected := collectKeys kv [] 0
  let keys := collected.1.take collected.2 ++ sortStrings (collected.1.drop collected.2)
  keys.map fun k => { Name := k, Value := kv.get k }

/-! ## The label formatter -/

/-- The bullet `•` (U+2022) followed by a space: the bytes `E2 80 A2 20`. -/
def bulletSpace : GoString := [0xE2, 0x80, 0xA2, 0x20]

/-- The string `"• ...and more"`. -/
def andMoreMarker : GoString := bulletSpace ++ ascii "...and more"

/-- The loop of `getFormattedLabels` over the sorted pairs, with the loop
variables `count` and `builder`; `maxLabels` is 3.  `break` returns the
builder, `continue` goes on with the remaining pairs. -/
def formatLabelsLoop : List Pair → Nat → GoString → GoString
  | [], _, builder => builder
  | pair :: rest, count, builder =>
    if count ≥ 3 then builder ++ andMoreMarker
    else
      let value := TrimSpace pair.Value
      if value = [] ∨ value = ascii "map[]" ∨ value = ascii "(instance)" ∨
          value = ascii "(instance )" ∨ value = ascii "undefined" ∨
          value = ascii "null" then
        formatLabelsLoop rest count builder
      else if pair.Name = ascii "instance" ∧ (value = [] ∨ value = ascii " ") then
        formatLabelsLoop rest count builder
      else
        let value := if value.length > 25 then value.take 22 ++ ascii "..." else value
        formatLabelsLoop rest (count + 1)
          (builder ++ (bulletSpace ++ pair.Name ++ ascii ": " ++ value ++ [0x0A]))

/-- The Go function `getFormattedLabels`. -/
def getFormattedLabels (labels : KV) : GoString :=
  let result := TrimSpace (formatLabelsLoop labels.SortedPairs 0 [])
  if result = [] ∨ result = andMoreMarker then [] else result

/-! ## The label formatter's output, as the specification words it -/

/-- A value that the formatter skips: empty, or one of the placeholder tokens
`map[]`, `(instance)`, `(instance )`, `undefined`, `null`. -/
def IsPlaceholder (value : GoString) : Prop :=
  value = [] ∨ value = ascii "map[]" ∨ value = ascii "(instance)" ∨
  value = ascii "(instance )" ∨ value = ascii "undefined" ∨ value = ascii "null"

instance (value : GoString) : Decidable (IsPlaceholder value) := by
  unfold IsPlaceholder; exact inferInstance

/-- A pair is renderable when its trimmed value is not a placeholder. -/
def renderable (p : Pair) : Bool := decide (¬ IsPlaceholder (TrimSpace p.Value))

/-- The value as a line shows it: the trimmed value when it is at most 25
long, otherwise its first 22 positions followed by `"..."`. -/
def shownValue (p : Pair) : GoString :=
  if (TrimSpace p.Value).length ≤ 25 then TrimSpace p.Value
  else (TrimSpace p.Value).take 22 ++ ascii "..."

/-- The line of a pair: `"• " + name + ": " + value`. -/
def pairLine (p : Pair) : GoString :=
  bulletSpace ++ p.Name ++ ascii ": " ++ shownValue p

/-- The pairs that get a line: the first three renderable pairs. -/
def shownPairs (ps : List Pair) : List Pair := (ps.filter renderable).take 3

/-- Some pair, renderable or not, has at least three renderable pairs before
it: the third rendered pair is not the last pair of the list. -/
def PairsRemain (ps : List Pair) : Prop :=
  ∃ pre p rest, ps = pre ++ p :: rest ∧ 3 ≤ (pre.filter renderable).length

/-- Lines joined by single newlines, without a trailing newline
(`strings.Join(lines, "\n")`). -/
def joinLines : List GoString → GoString
  | [] => []
  | [l] => l
  | l :: m :: rest => l ++ 0x0A :: joinLines (m :: rest)

/-- Splitting at newlines, with `cur` the reversed current line
(`strings.Split(s, "\n")` for `cur = []`). -/
def splitAtNewlines : GoString → GoString → List GoString
  | [], cur => [cur.reverse]
  | c :: r, cur =>
    if c = 0x0A then cur.reverse :: splitAtNewlines r []
    else splitAtNewlines r (c :: cur)

/-- The lines of a text; the empty text has no line. -/
def outputLines (s : GoString) : List GoString :=
  if s = [] then [] else splitAtNewlines s []

/-- The text the loop builds for a list of lines: every line followed by a
newline. -/
def linesBlock : List GoString → GoString
  | [] => []
  | l :: rest => l ++ 0x0A :: linesBlock rest

/-- Whether the loop of `getFormattedLabels`, entered with `count`, reaches
its `count >= maxLabels` branch and writes the marker. -/
def markerDue : List Pair → Nat → Bool
  | [], _ => false
  | p :: rest, count =>
    if count ≥ 3 then true
    else markerDue rest (if renderable p then count + 1 else count)

/-- A reversed string that the right scan of `TrimSpace` leaves unchanged: its
first bytes are not the reversed encoding of a white-space rune. -/
def RevStable : GoString → Prop
  | [] => True
  | [a] => isSpace1 a = false
  | [a, b] => isSpace1 a = false ∧ isSpace2 b a = false
  | a :: b :: c :: _ =>
    isSpace1 a = false ∧ isSpace2 b a = false ∧ isSpace3 c b a = false

/-- A string that the left scan of `TrimSpace` leaves unchanged: its first
bytes are not the encoding of a white-space rune. -/
def LeftStable : GoString → Prop
  | [] => True
  | [a] => isSpace1 a = false
  | [a, b] => isSpace1 a = false ∧ isSpace2 a b = false
  | a :: b :: c :: _ =>
    isSpace1 a = false ∧ isSpace2 a b = false ∧ isSpace3 a b c = false

/-! ## Concrete label sets used as examples -/

/-- The label set `severity: critical, alertname: DiskSpace, instance: host1`,
enumerated in this order. -/
def exampleLabels : KV :=
  [(ascii "severity", ascii "critical"), (ascii "alertname", ascii "DiskSpace"),
   (ascii "instance", ascii "host1")]

/-- The label set `k: "x\ny"`, whose value has a newline inside. -/
def newlineLabels : KV := [(ascii "k", ascii "x\ny")]

/-- The label set `a: 1, b: 2, c: 3, d: ""`: three renderable pairs followed
by a pair with an empty value. -/
def threeAndEmptyLabels : KV :=
  [(ascii "a", ascii "1"), (ascii "b", ascii "2"), (ascii "c", ascii "3"),
   (ascii "d", [])]

/-- The keys other than `alertname`. -/
def otherKeys (kv : KV) : List GoString :=
  (kv.map Prod.fst).filter (· ≠ AlertNameLabel)

/-! ## Concrete messages used as examples -/

/-- An embed that has only a title, of `n` bytes (`n` times the letter `A`). -/
def titleOnlyEmbed (n : Nat) : DiscordEmbed :=
  { Title := List.replicate n 0x41, Description := [], URL := [], Color := 0,
    Fields := [] }

/-- A message whose only embed is `titleOnlyEmbed n`. -/
def titleOnlyMessage (n : Nat) : DiscordMessage :=
  { Content := [], Username := [], AvatarURL := [],
    Embeds := [titleOnlyEmbed n] }

/-- A message with one embed titled `a` and one field named `n` whose value
is the letter `v` followed by `k` spaces. -/
def paddedMessage (k : Nat) : DiscordMessage :=
  { Content := [], Username := [], AvatarURL := [],
    Embeds := [{ Title := ascii "a", Description := [], URL := [], Color := 0,
                 Fields := [{ Name := ascii "n",
                              Value := 0x76 :: List.replicate k 0x20,
                              Inline := false }] }] }

/-- A message with two embeds, each with a description of `k` bytes. -/
def twoLongDescriptions (k : Nat) : DiscordMessage :=
  { Content := [], Username := [], AvatarURL := [],
    Embeds := [{ Title := [], Description := List.replicate k 0x41,
                 URL := [], Color := 0, Fields := [] },
               { Title := [], Description := List.replicate k 0x41,
                 URL := [], Color := 0, Fields := [] }] }

/-! ## Substring functions of the `strings` package -/

/-- The scan of `strings.ReplaceAll(s, old, "")` for a non-empty `old`: at an
occurrence of `old` its bytes are skipped (`skip` counts the bytes of the
occurrence still to skip), any other byte is kept; occurrences are found from
left to right and do not overlap. -/
def removeScan (old : GoString) : Nat → GoString → GoString
  | _, [] => []
  | skip + 1, _ :: r => removeScan old skip r
  | 0, c :: r =>
    if old.isPrefixOf (c :: r) then removeScan old (old.length - 1) r
    else c :: removeScan old 0 r

/-- The call `strings.ReplaceAll(s, old, "")`; with an empty `old` the string
is returned unchanged. -/
def removeAll (s old : GoString) : GoString :=
  if old = [] then s else removeScan old 0 s

/-- The function `strings.Contains(s, substr)`. -/
def Contains : GoString → GoString → Bool
  | [], substr => substr.isPrefixOf []
  | c :: r, substr => substr.isPrefixOf (c :: r) || Contains r substr

/-! ## Alerts -/

/-- The Go type `AlertManagerAlert`; the two time stamps are not read by any
function modelled here and are left out. -/
structure AlertManagerAlert where
  Status : GoString
  Labels : KV
  Annotations : KV
  GeneratorURL : GoString
  Fingerprint : GoString
deriving DecidableEq, Repr

/-- The Go type `AlertManagerData`. -/
structure AlertManagerData where
  Receiver : GoString
  Status : GoString
  Alerts : List AlertManagerAlert
  GroupLabels : KV
  CommonLabels : KV
  CommonAnnotations : KV
  ExternalURL : GoString
  GroupKey : GoString
  Version : GoString
deriving DecidableEq, Repr

/-- The constant `ColorRed`. -/
def ColorRed : Nat := 0xd00000

/-- The constant `ColorGreen`. -/
def ColorGreen : Nat := 0x36A64F

/-- The constant `ColorGrey`. -/
def ColorGrey : Nat := 0x95A5A6

/-- The Go function `findColor`. -/
def findColor (status : GoString) : Nat :=
  if status = ascii "firing" then ColorRed
  else if status = ascii "resolved" then ColorGreen
  else ColorGrey

/-- The Go function `getAlertTitle`; `builder` is the `strings.Builder`. -/
def getAlertTitle (alertManagerAlert : AlertManagerAlert) : GoString :=
  let builder : GoString :=
    if alertManagerAlert.Annotations.get (ascii "summary") ≠ [] then
      let summary := TrimSpace (alertManagerAlert.Annotations.get (ascii "summary"))
      if summary ≠ [] then summary else []
    else if alertManagerAlert.Labels.get (ascii "alertname") ≠ [] then
      let alertname := TrimSpace (alertManagerAlert.Labels.get (ascii "alertname"))
      if alertname ≠ [] then alertname else []
    else ascii "Alert Notification"
  let builder : GoString :=
    if alertManagerAlert.Labels.get (ascii "severity") ≠ [] then
      let severity := TrimSpace (alertManagerAlert.Labels.get (ascii "severity"))
      if severity ≠ [] then builder ++ (ascii " [" ++ severity ++ ascii "]")
      else builder
    else builder
  let result := TrimSpace builder
  if result = [] then ascii "Alert Notification" else result

/-! ## The message assembler -/

/-- The title of the embed in `sendWebhook` (lines 188-195): the alert title
with both `(instance …)` tokens removed, truncated to 250, and replaced by
`"Alert Notification"` when it is empty or blank. -/
def embedTitle (alert : AlertManagerAlert) : Option GoString := do
  let alertTitle := getAlertTitle alert
  let alertTitle := TrimSpace (removeAll alertTitle (ascii "(instance )"))
  let alertTitle := TrimSpace (removeAll alertTitle (ascii "(instance)"))
  let alertTitle ← truncateString alertTitle 250
  if alertTitle = [] ∨ TrimSpace alertTitle = [] then
    pure (ascii "Alert Notification")
  else pure alertTitle

/-- The description of the embed in `sendWebhook` (lines 203-220); the empty
string is the unset description. -/
def embedDescription (alert : AlertManagerAlert) : Option GoString := do
  let desc : GoString :=
    if alert.Annotations.get (ascii "summary") ≠ [] then
      TrimSpace (alert.Annotations.get (ascii "summary"))
    else if alert.Annotations.get (ascii "description") ≠ [] then
      TrimSpace (alert.Annotations.get (ascii "description"))
    else []
  if desc ≠ [] then
    let desc := TrimSpace (removeAll desc (ascii "map[]"))
    let desc := TrimSpace (removeAll desc (ascii "(instance )"))
    let desc := TrimSpace (removeAll desc (ascii "(instance)"))
    if TrimSpace desc ≠ [] then truncateString desc 1000 else pure []
  else pure []

/-- The `Message` field of `sendWebhook` (lines 222-235): the fields that the
block appends. -/
def messageField (alert : AlertManagerAlert) : Option (List DiscordEmbedField) := do
  let msg := TrimSpace (alert.Annotations.get (ascii "message"))
  if msg ≠ [] ∧ msg ≠ alert.Annotations.get (ascii "summary") then
    let msg := TrimSpace (removeAll msg (ascii "map[]"))
    let msg := TrimSpace (removeAll msg (ascii "(instance )"))
    if msg ≠ [] then
      let msg ← truncateString msg 800
      pure [{ Name := ascii "Message", Value := msg, Inline := false }]
    else pure []
  else pure []

/-- The `Description` field of `sendWebhook` (lines 237-250); `description`
is the description already set on the embed. -/
def descriptionField (alert : AlertManagerAlert) (description : GoString) :
    Option (List DiscordEmbedField) := do
  let desc := TrimSpace (alert.Annotations.get (ascii "description"))
  if desc ≠ [] ∧ desc ≠ description then
    let desc := TrimSpace (removeAll desc (ascii "map[]"))
    let desc := TrimSpace (removeAll desc (ascii "(instance )"))
    if desc ≠ [] ∧ desc.length > 10 then
      let desc ← truncateString desc 800
      pure [{ Name := ascii "Description", Value := desc, Inline := false }]
    else pure []
  else pure []

/-- The `Details` field of `sendWebhook` (lines 252-259). -/
def detailsField (alert : AlertManagerAlert) : List DiscordEmbedField :=
  let details := getFormattedLabels alert.Labels
  if details ≠ [] then [{ Name := ascii "Details", Value := details, Inline := false }]
  else []

/-- The embed that `sendWebhook` assembles for one alert (lines 186-267);
`none` is a panic of a slice expression. -/
def assembleEmbed (alert : AlertManagerAlert) (color : Nat) : Option DiscordEmbed := do
  let alertTitle ← embedTitle alert
  let description ← embedDescription alert
  let fields1 ← messageField alert
  let fields2 ← descriptionField alert description
  pure { Title := alertTitle, Description := description, URL := [],
         Color := color, Fields := fields1 ++ fields2 ++ detailsField alert }

/-- The test of `sendWebhook` for meaningful content (lines 270-271). -/
def hasMeaningfulContent (embed : DiscordEmbed) : Bool :=
  decide ((TrimSpace embed.Title).length > 3) &&
    (decide ((TrimSpace embed.Description).length > 3) ||
      decide (embed.Fields.length > 0))

/-- One call of `postMessageToDiscord`: the status, the colour and the
embeds handed over. -/
structure DispatchCall where
  status : GoString
  color : Nat
  embeds : List DiscordEmbed
deriving DecidableEq, Repr

/-- The statement `groupedAlerts[alert.Status] = append(groupedAlerts[alert.Status], alert)`
on the entries of the map `groupedAlerts`. -/
def appendToGroup : List (GoString × List AlertManagerAlert) → AlertManagerAlert →
    List (GoString × List AlertManagerAlert)
  | [], alert => [(alert.Status, [alert])]
  | (status, alerts) :: rest, alert =>
    if status = alert.Status then (status, alerts ++ [alert]) :: rest
    else (status, alerts) :: appendToGroup rest alert

/-- The first loop of `sendWebhook`: the entries of the map `groupedAlerts`. -/
def groupAlerts (alerts : List AlertManagerAlert) :
    List (GoString × List AlertManagerAlert) :=
  alerts.foldl appendToGroup []

/-- The inner loop of `sendWebhook` over the alerts of one status: the calls
of `postMessageToDiscord` it makes, in order. -/
def sendAlerts (status : GoString) (color : Nat) :
    List AlertManagerAlert → Option (List DispatchCall)
  | [] => some []
  | alert :: rest => do
    let embedAlertMessage ← assembleEmbed alert color
    let embeds := if hasMeaningfulContent embedAlertMessage then [embedAlertMessage] else []
    let calls := if embeds.length > 0 then
        [{ status := status, color := color, embeds := embeds : DispatchCall }]
      else []
    let later ← sendAlerts status color rest
    pure (calls ++ later)

/-- The outer loop of `sendWebhook` over the entries of `groupedAlerts`, in the
order `groups` in which `range` enumerates them. -/
def sendGroups : List (GoString × List AlertManagerAlert) → Option (List DispatchCall)
  | [] => some []
  | (status, alerts) :: rest => do
    let calls ← sendAlerts status (findColor status) alerts
    let later ← sendGroups rest
    pure (calls ++ later)

/-- The Go function `sendWebhook`: the calls of `postMessageToDiscord` it
makes, in order.  `enumerate` is the order in which `range` visits the entries
of the map `groupedAlerts` (some permutation of them). -/
def sendWebhook (alertManagerData : AlertManagerData)
    (enumerate : List (GoString × List AlertManagerAlert) →
      List (GoString × List AlertManagerAlert)) : Option (List DispatchCall) :=
  sendGroups (enumerate (groupAlerts alertManagerData.Alerts))

/-- What `sendWebhook` hands to `postMessageToDiscord` for one alert: one call
with the alert's embed when the embed has a trimmed title longer than 3 and a
trimmed description longer than 3 or a field, and nothing otherwise. -/
def callsFor (alert : AlertManagerAlert) : List DispatchCall :=
  match assembleEmbed alert (findColor alert.Status) with
  | some embed =>
    if (TrimSpace embed.Title).length > 3 ∧
        ((TrimSpace embed.Description).length > 3 ∨ embed.Fields.length > 0) then
      [{ status := alert.Status, color := findColor alert.Status, embeds := [embed] }]
    else []
  | none => []

/-! ## The dispatcher -/

/-- The flags read by the dispatcher. -/
structure Config where
  webhookURL : GoString
  additionalWebhookURLs : List GoString
  username : GoString
  avatarURL : GoString
deriving DecidableEq, Repr

/-- What `http.Post` and the reading of the response body yield for one
request. -/
inductive PostOutcome where
  | postError
  | readError (statusCode : Int)
  | answered (statusCode : Int) (body : GoString)
deriving DecidableEq, Repr

/-- What `sendToWebhook` writes to the log for one request. -/
inductive LogLine where
  | httpError
  | readFailed
  | apiError (statusCode : Int)
  | success (statusCode : Int)
deriving DecidableEq, Repr

/-- The dispatcher's view of the world: the requests made so far, each with
the URL and the body, and the log. -/
structure Outbox where
  posts : List (GoString × GoString)
  log : List LogLine
deriving DecidableEq, Repr

/-- The Go function `sendToWebhook`; `outcome n` is what the `n`-th request
of the run yields. -/
def sendToWebhook (outcome : Nat → PostOutcome) (webHook : GoString)
    (discordMessageBytes : GoString) (box : Outbox) : Outbox :=
  let posted := box.posts ++ [(webHook, discordMessageBytes)]
  match outcome box.posts.length with
  | .postError => { posts := posted, log := box.log ++ [.httpError] }
  | .readError _ => { posts := posted, log := box.log ++ [.readFailed] }
  | .answered statusCode _ =>
    let statusOK := decide (statusCode ≥ 200) && decide (statusCode < 300)
    if !statusOK then { posts := posted, log := box.log ++ [.apiError statusCode] }
    else { posts := posted, log := box.log ++ [.success statusCode] }

/-- The Go function `addOverrideFields`, applied to the empty message. -/
def addOverrideFields (cfg : Config) (discordMessage : DiscordMessage) : DiscordMessage :=
  let discordMessage :=
    if cfg.username ≠ [] then { discordMessage with Username := cfg.username }
    else discordMessage
  if cfg.avatarURL ≠ [] then { discordMessage with AvatarURL := cfg.avatarURL }
  else discordMessage

/-- The message that `postMessageToDiscord` builds from the embeds. -/
def dispatchedMessage (cfg : Config) (embeds : List DiscordEmbed) : DiscordMessage :=
  { addOverrideFields cfg
      { Content := [], Username := [], AvatarURL := [], Embeds := [] } with
    Embeds := embeds }

/-- The loop of `postMessageToDiscord` over the additional URLs. -/
def sendToAdditional (outcome : Nat → PostOutcome) (discordMessageBytes : GoString) :
    List GoString → Outbox → Outbox
  | [], box => box
  | webhook :: rest, box =>
    sendToAdditional outcome discordMessageBytes rest
      (sendToWebhook outcome webhook discordMessageBytes box)

/-- The Go function `postMessageToDiscord`.  `marshal` is `json.Marshal` on
the message (`none` is its error). -/
def postMessageToDiscord (cfg : Config) (marshal : DiscordMessage → Option GoString)
    (outcome : Nat → PostOutcome) (embeds : List DiscordEmbed) (box : Outbox) : Outbox :=
  let discordMessage := dispatchedMessage cfg embeds
  if !validateDiscordMessage discordMessage then box
  else
    match marshal discordMessage with
    | none => box
    | some discordMessageBytes =>
      sendToAdditional outcome discordMessageBytes cfg.additionalWebhookURLs
        (sendToWebhook outcome cfg.webhookURL discordMessageBytes box)

/-! ## The field check -/

/-- The list `invalidContents` of `isValidField`. -/
def invalidContents : List GoString :=
  [ascii "-", ascii "...", ascii "No details available", ascii "map[]",
   ascii "(instance )", ascii "(instance)", ascii "undefined", ascii "null"]

/-- The loop of `isValidField` over `invalidContents`: `true` when the loop
returns `false` from the function. -/
def hitsInvalid (name value : GoString) : List GoString → Bool
  | [] => false
  | invalid :: rest =>
    if name = invalid ∨ value = invalid then true else hitsInvalid name value rest

/-- The Go function `isValidField`. -/
def isValidField (name value : GoString) : Bool :=
  let name := TrimSpace name
  let value := TrimSpace value
  if name = [] ∨ value = [] then false
  else if hitsInvalid name value invalidContents then false
  else
    let value := TrimSpace (removeAll value (ascii "map[]"))
    let value := TrimSpace (removeAll value (ascii "(instance )"))
    let value := TrimSpace (removeAll value (ascii "(instance)"))
    decide (name.length > 0) && decide (value.length > 0) &&
      !Contains value (ascii "undefined") && !Contains value (ascii "null")

/-! ## Concrete alerts used as examples -/

/-- The annotations `summary: Disk full, severity: critical`. -/
def diskAnnotations : KV :=
  [(ascii "summary", ascii "Disk full"), (ascii "severity", ascii "critical")]

/-- The firing alert with `diskAnnotations` and the labels
`alertname: DiskSpace, instance: host1, severity: critical`. -/
def diskAlert : AlertManagerAlert :=
  { Status := ascii "firing", Labels := exampleLabels, Annotations := diskAnnotations,
    GeneratorURL := [], Fingerprint := [] }

/-- The embed expected for `diskAlert`. -/
def diskEmbed : DiscordEmbed :=
  { Title := ascii "Disk full [critical]", Description := ascii "Disk full",
    URL := [], Color := ColorRed,
    Fields := [{ Name := ascii "Details",
                 Value := bulletSpace ++ ascii "alertname: DiskSpace\n" ++
                   bulletSpace ++ ascii "instance: host1\n" ++
                   bulletSpace ++ ascii "severity: critical",
                 Inline := false }] }

/-- An alert with the given annotations and labels, status `firing`. -/
def firingAlert (annotations labels : KV) : AlertManagerAlert :=
  { Status := ascii "firing", Labels := labels, Annotations := annotations,
    GeneratorURL := [], Fingerprint := [] }

/-- A notification that carries the given alerts. -/
def notificationOf (alerts : List AlertManagerAlert) : AlertManagerData :=
  { Receiver := [], Status := ascii "firing", Alerts := alerts, GroupLabels := [],
    CommonLabels := [], CommonAnnotations := [], ExternalURL := [], GroupKey := [],
    Version := [] }

/-- The title as C12 words it: the trimmed concatenation of the untrimmed
base (summary annotation, else `alertname` label, else the literal) and the
suffix built from the untrimmed `severity` label. -/
def statedTitle (alert : AlertManagerAlert) : GoString :=
  let base :=
    if alert.Annotations.get (ascii "summary") ≠ [] then
      alert.Annotations.get (ascii "summary")
    else if alert.Labels.get (ascii "alertname") ≠ [] then
      alert.Labels.get (ascii "alertname")
    else ascii "Alert Notification"
  let suffix :=
    if alert.Labels.get (ascii "severity") ≠ [] then
      ascii " [" ++ alert.Labels.get (ascii "severity") ++ ascii "]"
    else []
  if TrimSpace (base ++ suffix) = [] then ascii "Alert Notification"
  else TrimSpace (base ++ suffix)

/-- An alert whose summary has a trailing space and whose severity label is
`critical`. -/
def trailingSpaceAlert : AlertManagerAlert :=
  firingAlert [(ascii "summary", ascii "Disk full ")] [(ascii "severity", ascii "critical")]

/-- An alert whose summary is `Disk full` and whose severity label is a single
space. -/
def blankSeverityAlert : AlertManagerAlert :=
  firingAlert [(ascii "summary", ascii "Disk full")] [(ascii "severity", ascii " ")]

/-- An alert whose summary is `(instance(instance) )`: the token `(instance)`
inside the pieces of the token `(instance )`. -/
def nestedTokenAlert : AlertManagerAlert :=
  firingAlert [(ascii "summary", ascii "(instance(instance) )")] []

/-- An alert whose summary is `Disk full` with a trailing space and whose
message is `Disk full`. -/
def repeatedMessageAlert : AlertManagerAlert :=
  firingAlert [(ascii "summary", ascii "Disk full "), (ascii "message", ascii "Disk full")] []

/-- An alert whose summary and message are the same string, `Disk full` with
a trailing space. -/
def sameMessageAlert : AlertManagerAlert :=
  firingAlert [(ascii "summary", ascii "Disk full "), (ascii "message", ascii "Disk full ")] []

/-- An alert without summary whose description is `Disk usage is high` with a
trailing space. -/
def trailingDescriptionAlert : AlertManagerAlert :=
  firingAlert [(ascii "description", ascii "Disk usage is high ")] []

/-- An alert whose summary is `Disk full` and whose message is
`Root volume at 95%`. -/
def messageAlert : AlertManagerAlert :=
  firingAlert [(ascii "summary", ascii "Disk full"),
    (ascii "message", ascii "Root volume at 95%")] []

/-- An alert whose summary is `Disk full` and whose message is the
placeholder `undefined`. -/
def undefinedMessageAlert : AlertManagerAlert :=
  firingAlert [(ascii "summary", ascii "Disk full"), (ascii "message", ascii "undefined")] []

/-- A configuration with a primary and one additional URL. -/
def twoUrlConfig : Config :=
  { webhookURL := ascii "https://discord.com/api/webhooks/1/a",
    additionalWebhookURLs := [ascii "https://discord.com/api/webhooks/2/b"],
    username := ascii "alerts", avatarURL := [] }

/-- The first request is answered with status 500, every later one with 200. -/
def firstFails (n : Nat) : PostOutcome :=
  if n = 0 then .answered 500 [] else .answered 200 []

/-! ## The check of the webhook URL -/

/-- The number of bytes of the rune that `utf8.DecodeRune` reads at the front
of a non-empty string: the length of a valid UTF-8 encoding, and 1 for a byte
that starts none (it is read as U+FFFD). -/
def runeWidth : GoString → Nat
  | [] => 0
  | a :: r =>
    if a < 0x80 then 1
    else if a < 0xC2 then 1
    else if a < 0xE0 then
      match r with
      | b :: _ => if 0x80 ≤ b ∧ b ≤ 0xBF then 2 else 1
      | [] => 1
    else if a < 0xF0 then
      match r with
      | b :: c :: _ =>
        let lo := if a = 0xE0 then 0xA0 else 0x80
        let hi := if a = 0xED then 0x9F else 0xBF
        if lo ≤ b ∧ b ≤ hi ∧ 0x80 ≤ c ∧ c ≤ 0xBF then 3 else 1
      | _ => 1
    else if a < 0xF5 then
      match r with
      | b :: c :: d :: _ =>
        let lo := if a = 0xF0 then 0x90 else 0x80
        let hi := if a = 0xF4 then 0x8F else 0xBF
        if lo ≤ b ∧ b ≤ hi ∧ 0x80 ≤ c ∧ c ≤ 0xBF ∧ 0x80 ≤ d ∧ d ≤ 0xBF then 4 else 1
      | _ => 1
    else 1

/-- The class `[0-9]`. -/
def isDigitByte (c : Nat) : Bool := decide (0x30 ≤ c) && decide (c ≤ 0x39)

/-- The class `[a-zA-Z0-9_-]`. -/
def isTokenByte (c : Nat) : Bool :=
  (decide (0x61 ≤ c) && decide (c ≤ 0x7A)) || (decide (0x41 ≤ c) && decide (c ≤ 0x5A)) ||
  isDigitByte c || c == 0x5F || c == 0x2D

/-- The string after `n` bytes of the class `[0-9]`, when it starts with
them. -/
def dropDigits : Nat → GoString → Option GoString
  | 0, s => some s
  | _ + 1, [] => none
  | n + 1, c :: r => if isDigitByte c then dropDigits n r else none

/-- A match of `/[a-zA-Z0-9_-]+` at the front of the string. -/
def matchSlashToken : GoString → Bool
  | 0x2F :: c :: _ => isTokenByte c
  | _ => false

/-- A match of `[0-9]{18,19}/[a-zA-Z0-9_-]+` at the front of the string. -/
def matchIdToken (s : GoString) : Bool :=
  match dropDigits 18 s with
  | none => false
  | some r =>
    matchSlashToken r ||
      (match r with
       | c :: r' => isDigitByte c && matchSlashToken r'
       | [] => false)

/-- A match of `.com/api/webhooks/[0-9]{18,19}/[a-zA-Z0-9_-]+` at the front
of the string; the `.` of the pattern is any one rune other than a
newline. -/
def matchDotCom (s : GoString) : Bool :=
  match s with
  | [] => false
  | c :: _ =>
    if c = 0x0A then false
    else
      let rest := s.drop (runeWidth s)
      if (ascii "com/api/webhooks/").isPrefixOf rest then
        matchIdToken (rest.drop (ascii "com/api/webhooks/").length)
      else false

/-- A match of the whole pattern
`https://discord(?:app)?.com/api/webhooks/[0-9]{18,19}/[a-zA-Z0-9_-]+` at the
front of the string. -/
def matchHere (s : GoString) : Bool :=
  if (ascii "https://discord").isPrefixOf s then
    let rest := s.drop (ascii "https://discord").length
    matchDotCom rest ||
      ((ascii "app").isPrefixOf rest && matchDotCom (rest.drop (ascii "app").length))
  else false

/-- The call `re.Match` for the pattern of `checkWebhookURL`: the pattern is
not anchored, so a match may start at any position. -/
def webhookPatternMatches : GoString → Bool
  | [] => matchHere []
  | c :: r => matchHere (c :: r) || webhookPatternMatches r

/-- The Go function `checkWebhookURL`.  `urlParses` says whether `url.Parse`
accepts the string; `none` is the end of the process in `log.Fatalf`. -/
def checkWebhookURL (urlParses : GoString → Bool) (webhookURL : GoString) : Option Bool :=
  if webhookURL = [] then none
  else if !urlParses webhookURL then none
  else if !webhookPatternMatches webhookURL then some false
  else some true

/-- A webhook URL with the given host part (`discord` or `discordapp`), id and
token. -/
def webhookUrlOf (host id token : GoString) : GoString :=
  ascii "https://" ++ host ++ ascii ".com/api/webhooks/" ++ id ++ ascii "/" ++ token

/-! ## The display name of an alert group -/

/-- The expression `strings.Split(s, "\n")[0]`: the bytes before the first
newline. -/
def firstLine : GoString → GoString
  | [] => []
  | c :: r => if c = 0x0A then [] else c :: firstLine r

/-- The string `"🔥 "`. -/
def iconFire : GoString := [0xF0, 0x9F, 0x94, 0xA5, 0x20]

/-- The string `"⚠️ "`. -/
def iconWarning : GoString := [0xE2, 0x9A, 0xA0, 0xEF, 0xB8, 0x8F, 0x20]

/-- The string `"ℹ️ "`. -/
def iconInfo : GoString := [0xE2, 0x84, 0xB9, 0xEF, 0xB8, 0x8F, 0x20]

/-- The string `"💚 "`. -/
def iconGreen : GoString := [0xF0, 0x9F, 0x92, 0x9A, 0x20]

/-- The icon that `getAlertName` selects from the group status and the
common `severity` label. -/
def statusIcon (alertManagerData : AlertManagerData) : GoString :=
  if alertManagerData.Status = ascii "firing" then
    if alertManagerData.CommonLabels.get (ascii "severity") = ascii "critical" then iconFire
    else if alertManagerData.CommonLabels.get (ascii "severity") = ascii "warning" then
      iconWarning
    else iconInfo
  else iconGreen

/-- The Go function `getAlertName`. -/
def getAlertName (alertManagerData : AlertManagerData) : GoString :=
  let icon := statusIcon alertManagerData
  if alertManagerData.CommonAnnotations.get (ascii "summary") ≠ [] then
    icon ++ alertManagerData.CommonAnnotations.get (ascii "summary")
  else if alertManagerData.CommonAnnotations.get (ascii "message") ≠ [] then
    icon ++ alertManagerData.CommonAnnotations.get (ascii "message")
  else if alertManagerData.CommonAnnotations.get (ascii "description") ≠ [] then
    let desc := alertManagerData.CommonAnnotations.get (ascii "description")
    let desc :=
      if desc.length > 50 then
        let desc := firstLine desc
        if desc.length > 50 then desc.take 47 ++ ascii "..." else desc
      else desc
    icon ++ desc
  else if alertManagerData.CommonLabels.get (ascii "alertname") ≠ [] then
    icon ++ alertManagerData.CommonLabels.get (ascii "alertname")
  else
    match alertManagerData.Alerts with
    | firstAlert :: _ =>
      if firstAlert.Annotations.get (ascii "summary") ≠ [] then
        icon ++ firstAlert.Annotations.get (ascii "summary")
      else if firstAlert.Labels.get (ascii "alertname") ≠ [] then
        icon ++ firstAlert.Labels.get (ascii "alertname")
      else icon ++ ascii "Multiple Alerts"
    | [] => icon ++ ascii "Multiple Alerts"

/-- A notification with the given status and common annotations, and nothing
else. -/
def groupOf (status : GoString) (commonAnnotations : KV) : AlertManagerData :=
  { Receiver := [], Status := status, Alerts := [], GroupLabels := [],
    CommonLabels := [], CommonAnnotations := commonAnnotations, ExternalURL := [],
    GroupKey := [], Version := [] }

/-- The URL `https://discord.com/api/webhooks/12345678901234567/abc`, whose id
has 17 digits. -/
def seventeenDigitUrl : GoString :=
  webhookUrlOf (ascii "discord") (ascii "12345678901234567") (ascii "abc")

/-- The URL `https://discordapp.com/api/webhooks/123456789012345678/aB_-9`,
whose id has 18 digits. -/
def eighteenDigitUrl : GoString :=
  webhookUrlOf (ascii "discordapp") (ascii "123456789012345678") (ascii "aB_-9")

/-- A firing group whose only common annotation is the two-line description
`a`, `b`. -/
def shortTwoLineGroup : AlertManagerData :=
  groupOf (ascii "firing") [(ascii "description", ascii "a\nb")]

/-- A resolved group whose description has a first line of 61 bytes and a
second line. -/
def longTwoLineGroup : AlertManagerData :=
  groupOf (ascii "resolved")
    [(ascii "description",
      ascii "0123456789012345678901234567890123456789012345678901234567890\nb")]

/-! ## The characters of a title, as the specification counts them -/

/-- The scan behind `charCount`: `skip` is the number of bytes of the current
character still to pass; at the start of a character one is counted and the
bytes of its encoding (`runeWidth`) are passed. -/
def charCountFrom : Nat → GoString → Nat
  | _, [] => 0
  | skip + 1, _ :: r => charCountFrom skip r
  | 0, c :: r => 1 + charCountFrom (runeWidth (c :: r) - 1) r

/-- The number of characters of a string, the unit in which the specification
states the title limit: one for every UTF-8 encoded character and one for
every byte that belongs to no encoding, as `utf8.RuneCountInString` counts.
The validator itself does not call it; it measures `len`, the number of
bytes. -/
def charCount (s : GoString) : Nat := charCountFrom 0 s

/-- The string of `k` times the letter `é` (U+00E9, two bytes each). -/
def accentedTitle : Nat → GoString
  | 0 => []
  | k + 1 => 0xC3 :: 0xA9 :: accentedTitle k

/-- An embed that has only a title, `k` times the letter `é`. -/
def accentedTitleEmbed (k : Nat) : DiscordEmbed :=
  { Title := accentedTitle k, Description := [], URL := [], Color := 0,
    Fields := [] }

/-- A message whose only embed is `accentedTitleEmbed k`. -/
def accentedTitleMessage (k : Nat) : DiscordMessage :=
  { Content := [], Username := [], AvatarURL := [],
    Embeds := [accentedTitleEmbed k] }

/-! ## The cleaned field value, as the specification words it -/

/-- Whether one of the three tokens that `isValidField` removes occurs in the
string. -/
def hasPlaceholderToken (s : GoString) : Bool :=
  Contains s (ascii "map[]") || Contains s (ascii "(instance )") ||
    Contains s (ascii "(instance)")

/-- The value after removing every occurrence of `map[]`, `(instance )` and
`(instance)`: the removals are repeated until none of the tokens occurs any
more.  Every round that finds a token shortens the string, so `fuel` rounds
are enough when `fuel` is at least the length of the string. -/
def removeEveryToken : Nat → GoString → GoString
  | 0, s => s
  | fuel + 1, s =>
    if hasPlaceholderToken s then
      removeEveryToken fuel
        (removeAll (removeAll (removeAll s (ascii "map[]")) (ascii "(instance )"))
          (ascii "(instance)"))
    else s

/-- The cleaned value in the words of the specification: the trimmed value
after removing every occurrence of the three tokens, trimmed again. -/
def specCleanedValue (value : GoString) : GoString :=
  TrimSpace (removeEveryToken (TrimSpace value).length (TrimSpace value))

/-- The cleaned value that `isValidField` computes: one `ReplaceAll` for each
token in turn, each followed by `TrimSpace`. -/
def codeCleanedValue (value : GoString) : GoString :=
  TrimSpace (removeAll (TrimSpace (removeAll (TrimSpace (removeAll
    (TrimSpace value) (ascii "map[]"))) (ascii "(instance )"))) (ascii "(instance)"))

/-! # Theorems -/

/-! ## Proofs: strings -/

theorem trimRevSpace_spaces (n : Nat) (t : GoString) :
    trimRevSpace (List.replicate n 0x20 ++ t) = trimRevSpace t := by
  induction n with
  | zero => simp
  | succ k ih =>
    rw [List.replicate_succ, List.cons_append, trimRevSpace.eq_def]
    simp [isSpace1, ih]

/-- A byte below `0x80` that is not white space stops the left scan. -/
theorem trimLeftSpace_cons_ascii (c : Nat) (r : GoString)
    (h1 : isSpace1 c = false) (h2 : c < 0x80) :
    trimLeftSpace (c :: r) = c :: r := by
  have hC2 : c ≠ 0xC2 := by omega
  have hE1 : c ≠ 0xE1 := by omega
  have hE2 : c ≠ 0xE2 := by omega
  have hE3 : c ≠ 0xE3 := by omega
  rw [trimLeftSpace.eq_def]
  simp only [h1, Bool.false_eq_true, if_false]
  cases r with
  | nil => rfl
  | cons b r2 =>
    have hs2 : isSpace2 c b = false := by simp [isSpace2, hC2]
    simp only [hs2, Bool.false_eq_true, if_false]
    cases r2 with
    | nil => rfl
    | cons d r3 =>
      have hs3 : isSpace3 c b d = false := by simp [isSpace3, hE1, hE2, hE3]
      simp only [hs3, Bool.false_eq_true, if_false]

/-- A byte below `0x80` that is not white space stops the right scan. -/
theorem trimRevSpace_cons_ascii (c : Nat) (r : GoString)
    (h1 : isSpace1 c = false) (h2 : c < 0x80) :
    trimRevSpace (c :: r) = c :: r := by
  have h85 : c ≠ 0x85 := by omega
  have hA0 : c ≠ 0xA0 := by omega
  rw [trimRevSpace.eq_def]
  simp only [h1, Bool.false_eq_true, if_false]
  cases r with
  | nil => rfl
  | cons b r2 =>
    have hs2 : isSpace2 b c = false := by simp [isSpace2, h85, hA0]
    simp only [hs2, Bool.false_eq_true, if_false]
    cases r2 with
    | nil => rfl
    | cons d r3 =>
      have hs3 : isSpace3 d b c = false := by
        cases h : isSpace3 d b c with
        | false => rfl
        | true =>
          exfalso
          simp only [isSpace3, beq_iff_eq, Bool.or_eq_true, Bool.and_eq_true,
            decide_eq_true_eq] at h
          omega
      simp only [hs3, Bool.false_eq_true, if_false]

/-- A letter that is not white space, followed by spaces, trims to the
letter. -/
theorem TrimSpace_letter_spaces (c n : Nat) (h1 : isSpace1 c = false)
    (h2 : c < 0x80) : TrimSpace (c :: List.replicate n 0x20) = [c] := by
  unfold TrimSpace
  rw [trimLeftSpace_cons_ascii c _ h1 h2, List.reverse_cons,
    List.reverse_replicate, trimRevSpace_spaces,
    trimRevSpace_cons_ascii c _ h1 h2]
  rfl

theorem titleOnlyEmbed_length (n : Nat) : (titleOnlyEmbed n).Title.length = n :=
  List.length_replicate _ _

theorem truncated_length (s : GoString) (max : Int) (h3 : 3 ≤ max)
    (hlt : max < (s.length : Int)) :
    ((s.take (max - 3).toNat ++ ascii "...").length : Int) = max := by
  have h1 : (ascii "...").length = 3 := rfl
  rw [List.length_append, List.length_take, h1]
  have : (max - 3).toNat ≤ s.length := by omega
  rw [Nat.min_eq_left this]
  omega

theorem trimRevSpace_revStable (t : GoString) : RevStable (trimRevSpace t) := by
  induction t using trimRevSpace.induct with
  | case1 => simp [trimRevSpace, RevStable]
  | case2 a r h ih => rw [trimRevSpace.eq_def]; simpa [h] using ih
  | case3 a h =>
    rw [trimRevSpace.eq_def]
    simp only [Bool.not_eq_true] at h
    simp [RevStable, h]
  | case4 a h1 b r2 h2 ih =>
    rw [trimRevSpace.eq_def]; simpa [h1, h2] using ih
  | case5 a h1 b h2 =>
    rw [trimRevSpace.eq_def]
    simp only [Bool.not_eq_true] at h1 h2
    simp [RevStable, h1, h2]
  | case6 a h1 b h2 c r3 h3 ih =>
    rw [trimRevSpace.eq_def]; simpa [h1, h2, h3] using ih
  | case7 a h1 b h2 c r3 h3 =>
    rw [trimRevSpace.eq_def]
    simp only [Bool.not_eq_true] at h1 h2 h3
    simp [RevStable, h1, h2, h3]

theorem trimRevSpace_of_revStable (w : GoString) (h : RevStable w) :
    trimRevSpace w = w := by
  rw [trimRevSpace.eq_def]
  match w, h with
  | [], _ => rfl
  | [a], h => simp only [RevStable] at h; simp [h]
  | [a, b], h => simp only [RevStable] at h; simp [h.1, h.2]
  | a :: b :: c :: r, h =>
    simp only [RevStable] at h; simp [h.1, h.2.1, h.2.2]

/-- A stable, non-empty reversed string stays stable in front of a space. -/
theorem revStable_append_space (w rest : GoString) (h : RevStable w)
    (hne : w ≠ []) : RevStable (w ++ 0x20 :: rest) := by
  match w, h, hne with
  | [a], h, _ =>
    simp only [RevStable] at h
    cases rest with
    | nil => simp [RevStable, h, isSpace2]
    | cons c r => simp [RevStable, h, isSpace2, isSpace3]
  | [a, b], h, _ =>
    simp only [RevStable] at h
    simp [RevStable, h.1, h.2, isSpace3]
  | a :: b :: c :: r, h, _ =>
    simp only [RevStable] at h
    simp [RevStable, h.1, h.2.1, h.2.2]

theorem trimLeftSpace_bullet (r : GoString) :
    trimLeftSpace (bulletSpace ++ r) = bulletSpace ++ r := by
  rw [trimLeftSpace.eq_def]
  simp [bulletSpace, isSpace1, isSpace2, isSpace3]

/-- The right scan of `TrimSpace` never leaves a single space. -/
theorem TrimSpace_ne_space (s : GoString) : TrimSpace s ≠ ascii " " := by
  intro h
  have hst := trimRevSpace_revStable (trimLeftSpace s).reverse
  unfold TrimSpace at h
  have h' : trimRevSpace (trimLeftSpace s).reverse = [0x20] := by
    have := congrArg List.reverse h
    rw [List.reverse_reverse] at this
    rw [this]; rfl
  rw [h'] at hst
  simp [RevStable, isSpace1] at hst

theorem revStable_TrimSpace_reverse (s : GoString) :
    RevStable (TrimSpace s).reverse := by
  unfold TrimSpace
  rw [List.reverse_reverse]
  exact trimRevSpace_revStable _

theorem trimLeftSpace_leftStable (s : GoString) : LeftStable (trimLeftSpace s) := by
  induction s using trimLeftSpace.induct with
  | case1 => simp [trimLeftSpace, LeftStable]
  | case2 a r h ih => rw [trimLeftSpace.eq_def]; simpa [h] using ih
  | case3 a h =>
    rw [trimLeftSpace.eq_def]
    simp only [Bool.not_eq_true] at h
    simp [LeftStable, h]
  | case4 a h1 b r2 h2 ih =>
    rw [trimLeftSpace.eq_def]; simpa [h1, h2] using ih
  | case5 a h1 b h2 =>
    rw [trimLeftSpace.eq_def]
    simp only [Bool.not_eq_true] at h1 h2
    simp [LeftStable, h1, h2]
  | case6 a h1 b h2 c r3 h3 ih =>
    rw [trimLeftSpace.eq_def]; simpa [h1, h2, h3] using ih
  | case7 a h1 b h2 c r3 h3 =>
    rw [trimLeftSpace.eq_def]
    simp only [Bool.not_eq_true] at h1 h2 h3
    simp [LeftStable, h1, h2, h3]

theorem trimLeftSpace_of_leftStable (w : GoString) (h : LeftStable w) :
    trimLeftSpace w = w := by
  rw [trimLeftSpace.eq_def]
  match w, h with
  | [], _ => rfl
  | [a], h => simp only [LeftStable] at h; simp [h]
  | [a, b], h => simp only [LeftStable] at h; simp [h.1, h.2]
  | a :: b :: c :: r, h =>
    simp only [LeftStable] at h; simp [h.1, h.2.1, h.2.2]

theorem trimRevSpace_suffix (t : GoString) : trimRevSpace t <:+ t := by
  induction t using trimRevSpace.induct with
  | case1 => simp [trimRevSpace]
  | case2 a r h ih =>
    rw [trimRevSpace.eq_def]; simp only [h, if_true]
    exact ih.trans (List.suffix_cons a r)
  | case3 a h =>
    rw [trimRevSpace.eq_def]; simp [h]
  | case4 a h1 b r2 h2 ih =>
    rw [trimRevSpace.eq_def]; simp only [h1, h2, if_true, if_false]
    exact ih.trans ((List.suffix_cons b r2).trans (List.suffix_cons a _))
  | case5 a h1 b h2 =>
    rw [trimRevSpace.eq_def]; simp [h1, h2]
  | case6 a h1 b h2 c r3 h3 ih =>
    rw [trimRevSpace.eq_def]; simp only [h1, h2, h3, if_true, if_false]
    exact ih.trans ((List.suffix_cons c r3).trans
      ((List.suffix_cons b _).trans (List.suffix_cons a _)))
  | case7 a h1 b h2 c r3 h3 =>
    rw [trimRevSpace.eq_def]; simp [h1, h2, h3]

theorem trimLeftSpace_suffix (s : GoString) : trimLeftSpace s <:+ s := by
  induction s using trimLeftSpace.induct with
  | case1 => simp [trimLeftSpace]
  | case2 a r h ih =>
    rw [trimLeftSpace.eq_def]; simp only [h, if_true]
    exact ih.trans (List.suffix_cons a r)
  | case3 a h =>
    rw [trimLeftSpace.eq_def]; simp [h]
  | case4 a h1 b r2 h2 ih =>
    rw [trimLeftSpace.eq_def]; simp only [h1, h2, if_true, if_false]
    exact ih.trans ((List.suffix_cons b r2).trans (List.suffix_cons a _))
  | case5 a h1 b h2 =>
    rw [trimLeftSpace.eq_def]; simp [h1, h2]
  | case6 a h1 b h2 c r3 h3 ih =>
    rw [trimLeftSpace.eq_def]; simp only [h1, h2, h3, if_true, if_false]
    exact ih.trans ((List.suffix_cons c r3).trans
      ((List.suffix_cons b _).trans (List.suffix_cons a _)))
  | case7 a h1 b h2 c r3 h3 =>
    rw [trimLeftSpace.eq_def]; simp [h1, h2, h3]

theorem leftStable_append (p t : GoString) (h : LeftStable (p ++ t)) : LeftStable p := by
  match p, t, h with
  | [], _, _ => simp [LeftStable]
  | [a], [], h => exact h
  | [a], [x], h => simp only [List.singleton_append, LeftStable] at h ⊢; exact h.1
  | [a], x :: y :: _, h => simp only [List.singleton_append, LeftStable] at h ⊢; exact h.1
  | [a, b], [], h => exact h
  | [a, b], x :: _, h =>
    simp only [List.cons_append, List.nil_append, LeftStable] at h ⊢; exact ⟨h.1, h.2.1⟩
  | a :: b :: c :: r, t, h =>
    simp only [List.cons_append, LeftStable] at h ⊢; exact h

/-- The result of `TrimSpace` is a prefix of the left-trimmed string. -/
theorem TrimSpace_initial (s : GoString) : TrimSpace s <+: trimLeftSpace s := by
  unfold TrimSpace
  have := trimRevSpace_suffix (trimLeftSpace s).reverse
  have h2 := List.reverse_prefix.mpr this
  rwa [List.reverse_reverse] at h2

theorem leftStable_TrimSpace (s : GoString) : LeftStable (TrimSpace s) := by
  obtain ⟨t, ht⟩ := TrimSpace_initial s
  have := trimLeftSpace_leftStable s
  rw [← ht] at this
  exact leftStable_append _ _ this

/-- Trimming twice is trimming once. -/
theorem TrimSpace_idem (s : GoString) : TrimSpace (TrimSpace s) = TrimSpace s := by
  have h1 : trimLeftSpace (TrimSpace s) = TrimSpace s :=
    trimLeftSpace_of_leftStable _ (leftStable_TrimSpace s)
  have h2 := trimRevSpace_of_revStable _ (revStable_TrimSpace_reverse s)
  conv_lhs => rw [TrimSpace, h1, h2, List.reverse_reverse]

theorem TrimSpace_length_le (s : GoString) : (TrimSpace s).length ≤ s.length :=
  (TrimSpace_initial s).length_le.trans (trimLeftSpace_suffix s).length_le

/-- The string `m[:n] + "..."` of a trimmed string `m` longer than `n ≥ 3`
is left unchanged by `TrimSpace`. -/
theorem TrimSpace_take_ellipsis (m : GoString) (n : Nat) (hm : LeftStable m)
    (hn : 3 ≤ n) (hl : n < m.length) :
    TrimSpace (m.take n ++ ascii "...") = m.take n ++ ascii "..." := by
  have hleft : LeftStable (m.take n ++ ascii "...") := by
    match m, hm, hl with
    | a :: b :: c :: r, hm, _ =>
      obtain ⟨k, rfl⟩ : ∃ k, n = k + 3 := ⟨n - 3, by omega⟩
      simp only [List.take_succ_cons, List.cons_append, LeftStable] at hm ⊢
      exact hm
    | [], _, hl => simp at hl
    | [a], _, hl => simp at hl; omega
    | [a, b], _, hl => simp at hl; omega
  have hrev : (m.take n ++ ascii "...").reverse = 0x2E :: (0x2E :: 0x2E :: (m.take n).reverse) := by
    rw [List.reverse_append]; rfl
  unfold TrimSpace
  rw [trimLeftSpace_of_leftStable _ hleft, hrev,
    trimRevSpace_cons_ascii 0x2E _ (by decide) (by decide), ← hrev,
    List.reverse_reverse]

/-! ## Proofs: the validator -/

theorem validateFields_eq_some (fs : List DiscordEmbedField) (acc n : Nat) :
    validateFields fs acc = some n ↔
      (∀ f ∈ fs, FieldAcceptable f) ∧ n = acc + trimmedFieldsSize fs := by
  induction fs generalizing acc with
  | nil => simp [validateFields, trimmedFieldsSize, eq_comm]
  | cons f rest ih =>
    simp only [validateFields, List.forall_mem_cons]
    by_cases h1 : TrimSpace f.Name = []
    · simp [h1, FieldAcceptable]
    by_cases h2 : TrimSpace f.Value = []
    · simp [h2, FieldAcceptable]
    by_cases h3 : (TrimSpace f.Name).length > 256
    · simp only [h1, h2, h3, if_true, if_false, FieldAcceptable]
      constructor
      · intro h; cases h
      · rintro ⟨⟨⟨_, _, h, _⟩, _⟩, _⟩; omega
    by_cases h4 : (TrimSpace f.Value).length > 1024
    · simp only [h1, h2, h3, h4, if_true, if_false, FieldAcceptable]
      constructor
      · intro h; cases h
      · rintro ⟨⟨⟨_, _, _, h⟩, _⟩, _⟩; omega
    simp only [h1, h2, h3, h4, if_false, ih, FieldAcceptable]
    have hs : trimmedFieldsSize (f :: rest) =
        (TrimSpace f.Name).length + (TrimSpace f.Value).length +
          trimmedFieldsSize rest := by
      simp [trimmedFieldsSize]
    rw [hs]
    constructor
    · rintro ⟨hall, hn⟩
      exact ⟨⟨⟨h1, h2, by omega, by omega⟩, hall⟩, by omega⟩
    · rintro ⟨⟨_, hall⟩, hn⟩
      exact ⟨hall, by omega⟩

theorem hasContent_iff (e : DiscordEmbed) :
    (decide (e.Title ≠ []) || decide (e.Description ≠ []) ||
        decide (e.Fields.length > 0)) = true ↔
      (e.Title ≠ [] ∨ e.Description ≠ [] ∨ e.Fields ≠ []) := by
  simp [List.length_pos, or_assoc]

theorem validateEmbeds_eq_some (es : List DiscordEmbed) (acc n : Nat) :
    validateEmbeds es acc = some n ↔
      (∀ e ∈ es, EmbedAcceptable e) ∧
        n = acc + (es.map trimmedEmbedSize).sum := by
  induction es generalizing acc with
  | nil => simp [validateEmbeds, eq_comm]
  | cons e rest ih =>
    simp only [validateEmbeds, List.forall_mem_cons, List.map_cons,
      List.sum_cons]
    have hc := hasContent_iff e
    cases hb : (decide (e.Title ≠ []) || decide (e.Description ≠ []) ||
        decide (e.Fields.length > 0)) with
    | false =>
      rw [hb] at hc
      simp only [Bool.not_false, if_true, false_iff, reduceCtorEq, EmbedAcceptable]
      rintro ⟨⟨⟨h, _⟩, _⟩, _⟩
      exact absurd (hc.mpr h) (by simp)
    | true =>
    rw [hb] at hc
    have h0 := hc.mp rfl
    simp only [Bool.not_true, Bool.false_eq_true, if_false]
    by_cases h1 : e.Title.length > 256
    · simp only [h1, if_true, EmbedAcceptable]
      constructor
      · intro h; cases h
      · rintro ⟨⟨⟨_, h, _⟩, _⟩, _⟩; omega
    by_cases h2 : e.Description.length > 4096
    · simp only [h1, h2, if_true, if_false, EmbedAcceptable]
      constructor
      · intro h; cases h
      · rintro ⟨⟨⟨_, _, h, _⟩, _⟩, _⟩; omega
    by_cases h3 : e.Fields.length > 25
    · simp only [h1, h2, h3, if_true, if_false, EmbedAcceptable]
      constructor
      · intro h; cases h
      · rintro ⟨⟨⟨_, _, _, h, _⟩, _⟩, _⟩; omega
    simp only [h1, h2, h3, if_false]
    cases hv : validateFields e.Fields (e.Title.length + e.Description.length) with
    | none =>
      simp only [false_iff, reduceCtorEq]
      rintro ⟨⟨⟨_, _, _, _, hf⟩, _⟩, _⟩
      have := (validateFields_eq_some e.Fields
        (e.Title.length + e.Description.length)
        (e.Title.length + e.Description.length + trimmedFieldsSize e.Fields)).mpr
        ⟨hf, rfl⟩
      rw [hv] at this; cases this
    | some sz =>
      obtain ⟨hf, hsz⟩ := (validateFields_eq_some _ _ _).mp hv
      simp only [ih, trimmedEmbedSize]
      constructor
      · rintro ⟨hall, hn⟩
        exact ⟨⟨⟨h0, by omega, by omega, by omega, hf⟩, hall⟩, by omega⟩
      · rintro ⟨⟨_, hall⟩, hn⟩
        exact ⟨hall, by omega⟩

theorem validateDiscordMessage_iff (m : DiscordMessage) :
    validateDiscordMessage m = true ↔ MessageAcceptable m := by
  unfold validateDiscordMessage MessageAcceptable trimmedMessageSize
  by_cases h0 : m.Content = [] ∧ m.Embeds = []
  · have : (decide (m.Content = []) && decide (m.Embeds.length = 0)) = true := by
      simp [h0.1, h0.2]
    simp only [this, if_true, Bool.false_eq_true, false_iff]
    rintro ⟨h, _⟩
    rcases h with h | h
    · exact h h0.1
    · exact h h0.2
  have h0' : (decide (m.Content = []) && decide (m.Embeds.length = 0)) = false := by
    by_cases hc : m.Content = []
    · have : m.Embeds ≠ [] := fun h => h0 ⟨hc, h⟩
      simp [hc, this]
    · simp [hc]
  have h0'' : m.Content ≠ [] ∨ m.Embeds ≠ [] := by
    by_cases hc : m.Content = []
    · exact Or.inr (fun h => h0 ⟨hc, h⟩)
    · exact Or.inl hc
  simp only [h0', Bool.false_eq_true, if_false]
  by_cases h1 : m.Embeds.length > 10
  · simp only [h1, if_true, Bool.false_eq_true, false_iff]
    rintro ⟨_, h, _⟩; omega
  simp only [h1, if_false]
  cases hv : validateEmbeds m.Embeds 0 with
  | none =>
    simp only [Bool.false_eq_true, false_iff]
    rintro ⟨_, _, hall, _⟩
    have := (validateEmbeds_eq_some m.Embeds 0 _).mpr ⟨hall, rfl⟩
    rw [hv] at this; cases this
  | some total =>
    obtain ⟨hall, ht⟩ := (validateEmbeds_eq_some _ _ _).mp hv
    simp only [Nat.zero_add] at ht
    by_cases h5 : total > 5000
    · simp only [h5, if_true, Bool.false_eq_true, false_iff]
      rintro ⟨_, _, _, h⟩; omega
    · simp only [h5, if_false, true_iff]
      exact ⟨h0'', by omega, hall, by omega⟩

theorem paddedMessage_accepted (k : Nat) :
    validateDiscordMessage (paddedMessage k) = true := by
  have hv : TrimSpace (0x76 :: List.replicate k 0x20) = [0x76] :=
    TrimSpace_letter_spaces 0x76 k (by decide) (by decide)
  have hn : TrimSpace (ascii "n") = ascii "n" := by decide
  rw [validateDiscordMessage_iff]
  refine ⟨Or.inr (by simp [paddedMessage]), by simp [paddedMessage], ?_, ?_⟩
  · intro e he
    simp only [paddedMessage, List.mem_singleton] at he
    subst he
    refine ⟨Or.inl ?_, ?_, ?_, ?_, ?_⟩
    · show ascii "a" ≠ []; decide
    · show (ascii "a").length ≤ 256; decide
    · show ([] : GoString).length ≤ 4096; decide
    · show (1 : Nat) ≤ 25; decide
    intro f hf
    simp only [List.mem_singleton] at hf
    subst hf
    simp only [FieldAcceptable, hv, hn]
    decide
  · simp only [trimmedMessageSize, trimmedEmbedSize, trimmedFieldsSize,
      paddedMessage, List.map_cons, List.map_nil, hv, hn]
    decide

theorem paddedMessage_storedSize (k : Nat) :
    storedMessageSize (paddedMessage k) = k + 3 := by
  simp [storedMessageSize, storedFieldsSize, paddedMessage, ascii]
  omega

theorem twoLongDescriptions_trimmedSize (k : Nat) :
    trimmedMessageSize (twoLongDescriptions k) = k + k := by
  simp [trimmedMessageSize, trimmedEmbedSize, trimmedFieldsSize,
    twoLongDescriptions]

/-- A message with an embed whose title is longer than 256 bytes is
rejected. -/
theorem title_too_long_rejected (m : DiscordMessage) (e : DiscordEmbed)
    (he : e ∈ m.Embeds) (hlen : 256 < e.Title.length) :
    validateDiscordMessage m = false := by
  cases hv : validateDiscordMessage m with
  | false => rfl
  | true =>
    obtain ⟨_, _, hall, _⟩ := (validateDiscordMessage_iff m).mp hv
    have := (hall e he).2.1
    omega

theorem charCountFrom_le (skip : Nat) (s : GoString) :
    charCountFrom skip s ≤ s.length := by
  induction s generalizing skip with
  | nil => cases skip <;> simp [charCountFrom]
  | cons c r ih =>
    cases skip with
    | zero =>
      have := ih (runeWidth (c :: r) - 1)
      simp only [charCountFrom, List.length_cons]; omega
    | succ k =>
      have := ih k
      simp only [charCountFrom, List.length_cons]; omega

/-- A string has at most as many characters as bytes. -/
theorem charCount_le_length (s : GoString) : charCount s ≤ s.length :=
  charCountFrom_le 0 s

/-- A string of ASCII bytes has as many characters as bytes. -/
theorem charCount_of_ascii (s : GoString) (h : ∀ c ∈ s, c < 0x80) :
    charCount s = s.length := by
  unfold charCount
  induction s with
  | nil => rfl
  | cons c r ih =>
    have hc : c < 0x80 := h c (List.mem_cons_self c r)
    have hw : runeWidth (c :: r) = 1 := by simp [runeWidth, hc]
    simp only [charCountFrom, hw, Nat.sub_self, List.length_cons]
    rw [ih fun d hd => h d (List.mem_cons_of_mem c hd)]
    omega

theorem accentedTitle_length (k : Nat) : (accentedTitle k).length = 2 * k := by
  induction k with
  | zero => rfl
  | succ k ih => simp only [accentedTitle, List.length_cons, ih]; omega

theorem accentedTitle_charCount (k : Nat) : charCount (accentedTitle k) = k := by
  unfold charCount
  induction k with
  | zero => rfl
  | succ k ih =>
    have hw : runeWidth (0xC3 :: 0xA9 :: accentedTitle k) = 2 := by
      simp [runeWidth]
    simp only [accentedTitle, charCountFrom, hw, ih]
    omega

/-! ## Proofs: string order and the sorted-pairs view -/

theorem strLess_irrefl (a : GoString) : strLess a a = false := by
  induction a with
  | nil => rfl
  | cons x xs ih => simp [strLess, ih]

theorem strLess_trichotomy (a b : GoString) :
    strLess a b = true ∨ a = b ∨ strLess b a = true := by
  induction a generalizing b with
  | nil => cases b <;> simp [strLess]
  | cons x xs ih =>
    cases b with
    | nil => simp [strLess]
    | cons y ys =>
      simp only [strLess, Bool.or_eq_true, decide_eq_true_eq, Bool.and_eq_true,
        beq_iff_eq, List.cons.injEq]
      rcases Nat.lt_trichotomy x y with h | h | h
      · exact Or.inl (Or.inl h)
      · rcases ih ys with h' | h' | h'
        · exact Or.inl (Or.inr ⟨h, h'⟩)
        · exact Or.inr (Or.inl ⟨h, h'⟩)
        · exact Or.inr (Or.inr (Or.inr ⟨h.symm, h'⟩))
      · exact Or.inr (Or.inr (Or.inl h))

theorem strLess_trans (a b c : GoString) (h1 : strLess a b = true)
    (h2 : strLess b c = true) : strLess a c = true := by
  induction a generalizing b c with
  | nil =>
    cases b with
    | nil => simp [strLess] at h1
    | cons y ys =>
      cases c with
      | nil => simp [strLess] at h2
      | cons z zs => simp [strLess]
  | cons x xs ih =>
    cases b with
    | nil => simp [strLess] at h1
    | cons y ys =>
      cases c with
      | nil => simp [strLess] at h2
      | cons z zs =>
        simp only [strLess, Bool.or_eq_true, decide_eq_true_eq,
          Bool.and_eq_true, beq_iff_eq] at h1 h2 ⊢
        rcases h1 with h1 | ⟨h1, h1'⟩ <;> rcases h2 with h2 | ⟨h2, h2'⟩
        · exact Or.inl (by omega)
        · exact Or.inl (by omega)
        · exact Or.inl (by omega)
        · exact Or.inr ⟨by omega, ih ys zs h1' h2'⟩

theorem strLess_asymm (a b : GoString) (h1 : strLess a b = true) :
    strLess b a = false := by
  cases h : strLess b a with
  | false => rfl
  | true =>
    have := strLess_trans a b a h1 h
    rw [strLess_irrefl] at this
    cases this

instance : IsTotal GoString strLessEq where
  total a b := by
    unfold strLessEq
    cases h : strLess b a with
    | false => exact Or.inl rfl
    | true => exact Or.inr (strLess_asymm b a h)

instance : IsTrans GoString strLessEq where
  trans a b c hab hbc := by
    unfold strLessEq at *
    cases h : strLess c a with
    | false => rfl
    | true =>
      rcases strLess_trichotomy a b with h' | h' | h'
      · rw [strLess_trans c a b h h'] at hbc; cases hbc
      · subst h'; rw [h] at hbc; cases hbc
      · rw [h'] at hab; cases hab

instance : IsAntisymm GoString strLessEq where
  antisymm a b hab hba := by
    unfold strLessEq at *
    rcases strLess_trichotomy a b with h | h | h
    · rw [h] at hba; cases hba
    · exact h
    · rw [h] at hab; cases hab

theorem sortStrings_perm (l : List GoString) : (sortStrings l).Perm l :=
  List.perm_insertionSort _ l

theorem sortStrings_sorted (l : List GoString) :
    (sortStrings l).Sorted strLessEq :=
  List.sorted_insertionSort _ l

theorem sortStrings_congr {l₁ l₂ : List GoString} (h : l₁.Perm l₂) :
    sortStrings l₁ = sortStrings l₂ :=
  List.eq_of_perm_of_sorted
    (((sortStrings_perm l₁).trans h).trans (sortStrings_perm l₂).symm)
    (sortStrings_sorted l₁) (sortStrings_sorted l₂)

/-- Sorted strings without repetition are strictly increasing. -/
theorem sortStrings_strict (l : List GoString) (h : l.Nodup) :
    (sortStrings l).Pairwise (fun a b => strLess a b = true) := by
  have hs : (sortStrings l).Pairwise strLessEq := sortStrings_sorted l
  have hn : (sortStrings l).Pairwise (· ≠ ·) :=
    ((sortStrings_perm l).nodup_iff).mpr h
  refine (hs.and hn).imp ?_
  rintro a b ⟨hle, hne⟩
  rcases strLess_trichotomy a b with h' | h' | h'
  · exact h'
  · exact absurd h' hne
  · unfold strLessEq at hle; rw [h'] at hle; cases hle

theorem filter_eq_singleton (l : List GoString) (a : GoString) (hnd : l.Nodup)
    (hm : a ∈ l) : l.filter (fun x => decide (x = a)) = [a] := by
  induction l with
  | nil => cases hm
  | cons x xs ih =>
    have hx : x ∉ xs ∧ xs.Nodup := List.nodup_cons.mp hnd
    by_cases hxa : x = a
    · subst hxa
      rw [List.filter_cons_of_pos (by simp)]
      congr 1
      rw [List.filter_eq_nil_iff]
      intro y hy
      simp only [decide_eq_true_eq]
      intro h'; subst h'; exact hx.1 hy
    · rw [List.filter_cons_of_neg (by simpa using hxa)]
      rcases List.mem_cons.mp hm with h' | h'
      · exact absurd h'.symm hxa
      · exact ih hx.2 h'

/-- What the first loop of `SortedPairs` leaves in `keys` and `sortStart`. -/
theorem collectKeys_eq (kv : KV) (keys : List GoString) (sortStart : Nat)
    (h : kv.WellFormed) :
    collectKeys kv keys sortStart =
      if AlertNameLabel ∈ kv.map Prod.fst then
        (AlertNameLabel :: (keys ++ (kv.map Prod.fst).filter (· ≠ AlertNameLabel)), 1)
      else (keys ++ kv.map Prod.fst, sortStart) := by
  induction kv generalizing keys sortStart with
  | nil => simp [collectKeys]
  | cons e rest ih =>
    obtain ⟨k, v⟩ := e
    have hnd : k ∉ rest.map Prod.fst ∧ (rest.map Prod.fst).Nodup := by
      simpa [KV.WellFormed] using h
    have ih' := fun keys sortStart => ih keys sortStart hnd.2
    simp only [collectKeys]
    by_cases hk : k = AlertNameLabel
    · subst hk
      have hnot : AlertNameLabel ∉ rest.map Prod.fst := hnd.1
      have hfil : (rest.map Prod.fst).filter (· ≠ AlertNameLabel) =
          rest.map Prod.fst := by
        rw [List.filter_eq_self]
        intro a ha
        simp only [ne_eq, decide_eq_true_eq]
        intro h'; subst h'; exact hnot ha
      rw [if_pos rfl, ih', if_neg hnot]
      have hm' : AlertNameLabel ∈ ((AlertNameLabel, v) :: rest).map Prod.fst := by
        simp
      rw [if_pos hm', List.map_cons, List.filter_cons_of_neg (by simp), hfil]
      simp
    · rw [if_neg hk, ih']
      have hk' : AlertNameLabel ≠ k := fun h' => hk h'.symm
      by_cases hm : AlertNameLabel ∈ rest.map Prod.fst
      · have hm' : AlertNameLabel ∈ ((k, v) :: rest).map Prod.fst := by
          simp only [List.map_cons, List.mem_cons]; exact Or.inr hm
        rw [if_pos hm, if_pos hm']
        simp [hk]
      · have hm' : AlertNameLabel ∉ ((k, v) :: rest).map Prod.fst := by
          simp only [List.map_cons, List.mem_cons, not_or]; exact ⟨hk', hm⟩
        rw [if_neg hm, if_neg hm']
        simp

/-- The names of the sorted pairs: `alertname` first when it is a key, then
the other keys in increasing order. -/
theorem SortedPairs_eq (kv : KV) (h : kv.WellFormed) :
    kv.SortedPairs =
      ((if AlertNameLabel ∈ kv.map Prod.fst then [AlertNameLabel] else []) ++
        sortStrings (otherKeys kv)).map
        fun k => { Name := k, Value := kv.get k } := by
  unfold KV.SortedPairs otherKeys
  rw [collectKeys_eq kv [] 0 h]
  by_cases hm : AlertNameLabel ∈ kv.map Prod.fst
  · simp only [if_pos hm, List.nil_append, List.take_succ_cons, List.take_zero,
      List.drop_succ_cons, List.drop_zero]
  · have hfil : (kv.map Prod.fst).filter (· ≠ AlertNameLabel) =
        kv.map Prod.fst := by
      rw [List.filter_eq_self]
      intro a ha
      simp only [ne_eq, decide_eq_true_eq]
      intro h'; subst h'; exact hm ha
    simp only [if_neg hm, List.nil_append, List.take_zero, List.drop_zero, hfil]

theorem KV.get_of_mem (kv : KV) (h : kv.WellFormed) (k v : GoString)
    (hm : (k, v) ∈ kv) : kv.get k = v := by
  induction kv with
  | nil => cases hm
  | cons e rest ih =>
    obtain ⟨k', v'⟩ := e
    have hnd : k' ∉ rest.map Prod.fst ∧ (rest.map Prod.fst).Nodup := by
      simpa [KV.WellFormed] using h
    simp only [KV.get]
    rcases List.mem_cons.mp hm with heq | hin
    · cases heq; simp
    · have hne : k' ≠ k := by
        intro h'; subst h'
        exact hnd.1 (List.mem_map.mpr ⟨(k', v), hin, rfl⟩)
      rw [if_neg hne]
      exact ih hnd.2 hin

theorem KV.get_of_not_mem (kv : KV) (k : GoString)
    (hm : k ∉ kv.map Prod.fst) : kv.get k = [] := by
  induction kv with
  | nil => rfl
  | cons e rest ih =>
    obtain ⟨k', v'⟩ := e
    simp only [List.map_cons, List.mem_cons, not_or] at hm
    simp only [KV.get]
    rw [if_neg (fun h' => hm.1 h'.symm)]
    exact ih hm.2

theorem KV.get_perm (kv kv' : KV) (h : kv.WellFormed) (hp : kv'.Perm kv)
    (k : GoString) : kv'.get k = kv.get k := by
  have h' : kv'.WellFormed := ((hp.map Prod.fst).nodup_iff).mpr h
  by_cases hm : k ∈ kv.map Prod.fst
  · obtain ⟨⟨k₀, v⟩, hin, hk⟩ := List.mem_map.mp hm
    simp only at hk; subst hk
    rw [KV.get_of_mem kv h k₀ v hin,
      KV.get_of_mem kv' h' k₀ v (hp.mem_iff.mpr hin)]
  · have hm' : k ∉ kv'.map Prod.fst := fun hc =>
      hm ((hp.map Prod.fst).mem_iff.mp hc)
    rw [KV.get_of_not_mem kv k hm, KV.get_of_not_mem kv' k hm']

theorem SortedPairs_perm_invariant (kv kv' : KV) (h : kv.WellFormed)
    (hp : kv'.Perm kv) : kv'.SortedPairs = kv.SortedPairs := by
  have h' : kv'.WellFormed := ((hp.map Prod.fst).nodup_iff).mpr h
  have hkeys : (kv'.map Prod.fst).Perm (kv.map Prod.fst) := hp.map Prod.fst
  rw [SortedPairs_eq kv h, SortedPairs_eq kv' h']
  have hmem : AlertNameLabel ∈ kv'.map Prod.fst ↔
      AlertNameLabel ∈ kv.map Prod.fst := hkeys.mem_iff
  have hsort : sortStrings (otherKeys kv') = sortStrings (otherKeys kv) :=
    sortStrings_congr (hkeys.filter _)
  have hget : (fun k => ({ Name := k, Value := kv'.get k } : Pair)) =
      fun k => { Name := k, Value := kv.get k } := by
    funext k; rw [KV.get_perm kv kv' h hp k]
  rw [hsort, hget]
  by_cases hm : AlertNameLabel ∈ kv.map Prod.fst
  · rw [if_pos hm, if_pos (hmem.mpr hm)]
  · rw [if_neg hm, if_neg (fun hc => hm (hmem.mp hc))]

theorem SortedPairs_names (kv : KV) (h : kv.WellFormed) :
    kv.SortedPairs.map Pair.Name =
      (if AlertNameLabel ∈ kv.map Prod.fst then [AlertNameLabel] else []) ++
        sortStrings (otherKeys kv) := by
  rw [SortedPairs_eq kv h, List.map_map]
  exact List.map_id _

theorem SortedPairs_names_perm (kv : KV) (h : kv.WellFormed) :
    (kv.SortedPairs.map Pair.Name).Perm (kv.map Prod.fst) := by
  rw [SortedPairs_names kv h]
  have hso : (sortStrings (otherKeys kv)).Perm (otherKeys kv) :=
    sortStrings_perm _
  by_cases hm : AlertNameLabel ∈ kv.map Prod.fst
  · rw [if_pos hm]
    have h1 : (kv.map Prod.fst).Perm
        ((kv.map Prod.fst).filter (· = AlertNameLabel) ++ otherKeys kv) := by
      have := List.filter_append_perm (fun x => decide (x = AlertNameLabel))
        (kv.map Prod.fst)
      refine this.symm.trans ?_
      unfold otherKeys
      refine List.Perm.append_left _ ?_
      apply List.Perm.of_eq
      apply List.filter_congr
      intro x _; simp
    have h2 : (kv.map Prod.fst).filter (· = AlertNameLabel) = [AlertNameLabel] :=
      filter_eq_singleton _ _ h hm
    rw [h2] at h1
    exact (List.Perm.append_left _ hso).trans h1.symm
  · rw [if_neg hm, List.nil_append]
    refine hso.trans ?_
    unfold otherKeys
    apply List.Perm.of_eq
    rw [List.filter_eq_self]
    intro a ha
    simp only [ne_eq, decide_eq_true_eq]
    intro h'; subst h'; exact hm ha

theorem SortedPairs_entries_perm (kv : KV) (h : kv.WellFormed) :
    (kv.SortedPairs.map fun p => (p.Name, p.Value)).Perm kv := by
  have hval : ∀ p ∈ kv.SortedPairs, p.Value = kv.get p.Name := by
    intro p hp
    rw [SortedPairs_eq kv h] at hp
    obtain ⟨k, _, rfl⟩ := List.mem_map.mp hp
    rfl
  have h1 : (kv.SortedPairs.map fun p => (p.Name, p.Value)) =
      (kv.SortedPairs.map Pair.Name).map fun k => (k, kv.get k) := by
    rw [List.map_map]
    apply List.map_congr_left
    intro p hp
    simp [hval p hp]
  have h2 : (kv.map Prod.fst).map (fun k => (k, kv.get k)) = kv := by
    rw [List.map_map]
    conv_rhs => rw [← List.map_id kv]
    apply List.map_congr_left
    rintro ⟨k, v⟩ hin
    simp [KV.get_of_mem kv h k v hin]
  rw [h1]
  exact ((SortedPairs_names_perm kv h).map _).trans (List.Perm.of_eq h2)

/-! ## Proofs: the label formatter -/

theorem TrimSpace_bullet_newline (r : GoString) :
    TrimSpace (bulletSpace ++ r ++ [0x0A]) = TrimSpace (bulletSpace ++ r) := by
  unfold TrimSpace
  rw [List.append_assoc, trimLeftSpace_bullet, trimLeftSpace_bullet,
    ← List.append_assoc, List.reverse_append, List.reverse_singleton,
    List.singleton_append, trimRevSpace.eq_def]
  simp [isSpace1]

theorem TrimSpace_bullet_stable (r : GoString)
    (h : RevStable (bulletSpace ++ r).reverse) :
    TrimSpace (bulletSpace ++ r) = bulletSpace ++ r := by
  unfold TrimSpace
  rw [trimLeftSpace_bullet, trimRevSpace_of_revStable _ h, List.reverse_reverse]

theorem renderable_iff (p : Pair) :
    renderable p = true ↔ ¬ IsPlaceholder (TrimSpace p.Value) := by
  simp [renderable]

theorem revStable_shownValue (p : Pair) (h : renderable p = true)
    (rest : GoString) : RevStable ((shownValue p).reverse ++ 0x20 :: rest) := by
  unfold shownValue
  by_cases hl : (TrimSpace p.Value).length ≤ 25
  · rw [if_pos hl]
    apply revStable_append_space _ _ (revStable_TrimSpace_reverse _)
    intro hnil
    have hv : TrimSpace p.Value = [] := List.reverse_eq_nil_iff.mp hnil
    exact (renderable_iff p).mp h (Or.inl hv)
  · rw [if_neg hl]
    have : (ascii "...").reverse = [0x2E, 0x2E, 0x2E] := by decide
    rw [List.reverse_append, this]
    simp [RevStable, isSpace1, isSpace2, isSpace3]

theorem pairLine_reverse (p : Pair) :
    (pairLine p).reverse =
      (shownValue p).reverse ++ 0x20 :: 0x3A :: (p.Name.reverse ++ bulletSpace.reverse) := by
  have : ascii ": " = [0x3A, 0x20] := by decide
  simp [pairLine, this]

theorem linesBlock_append (ls : List GoString) (l : GoString) :
    linesBlock (ls ++ [l]) = linesBlock ls ++ (l ++ [0x0A]) := by
  induction ls with
  | nil => simp [linesBlock]
  | cons x xs ih => simp [linesBlock, ih]

theorem joinLines_append_singleton (ls : List GoString) (l : GoString) :
    joinLines (ls ++ [l]) = linesBlock ls ++ l := by
  induction ls with
  | nil => simp [joinLines, linesBlock]
  | cons x xs ih =>
    cases xs with
    | nil => simp [joinLines, linesBlock]
    | cons y ys =>
      have : joinLines (x :: y :: ys ++ [l]) =
          x ++ 0x0A :: joinLines (y :: ys ++ [l]) := by
        simp [joinLines]
      rw [this, ih]
      simp [linesBlock]

/-- A text that is empty or begins with the bullet. -/
theorem linesBlock_bullet (ps : List Pair) (t : GoString)
    (ht : ∃ r, t = bulletSpace ++ r) :
    ∃ r, linesBlock (ps.map pairLine) ++ t = bulletSpace ++ r := by
  cases ps with
  | nil => simpa [linesBlock] using ht
  | cons p rest =>
    refine ⟨p.Name ++ ascii ": " ++ shownValue p ++
      0x0A :: linesBlock (rest.map pairLine) ++ t, ?_⟩
    simp [linesBlock, pairLine]

/-- Trimming the text built for renderable pairs removes the final newline. -/
theorem TrimSpace_linesBlock (ps : List Pair)
    (h : ∀ p ∈ ps, renderable p = true) :
    TrimSpace (linesBlock (ps.map pairLine)) = joinLines (ps.map pairLine) := by
  rcases List.eq_nil_or_concat ps with hnil | ⟨qs, p, hqs⟩
  · subst hnil; decide
  · rw [List.concat_eq_append] at hqs
    subst hqs
    have hp : renderable p = true := h p (by simp)
    rw [List.map_append, List.map_singleton, linesBlock_append,
      joinLines_append_singleton, ← List.append_assoc]
    obtain ⟨r, hr⟩ := linesBlock_bullet qs (pairLine p) ⟨_, by
      simp only [pairLine, List.append_assoc]; rfl⟩
    rw [hr, TrimSpace_bullet_newline]
    apply TrimSpace_bullet_stable
    rw [← hr, List.reverse_append, pairLine_reverse, List.append_assoc,
      List.cons_append]
    exact revStable_shownValue p hp _

/-- Trimming the text that ends with the marker changes nothing. -/
theorem TrimSpace_linesBlock_marker (ps : List Pair) :
    TrimSpace (linesBlock (ps.map pairLine) ++ andMoreMarker) =
      joinLines (ps.map pairLine ++ [andMoreMarker]) := by
  rw [joinLines_append_singleton]
  obtain ⟨r, hr⟩ := linesBlock_bullet ps andMoreMarker ⟨ascii "...and more", rfl⟩
  rw [hr]
  apply TrimSpace_bullet_stable
  rw [← hr, List.reverse_append]
  have : andMoreMarker.reverse =
      0x65 :: 0x72 :: 0x6F :: (bulletSpace ++ ascii "...and m").reverse := by
    decide
  rw [this]
  simp [RevStable, isSpace1, isSpace2, isSpace3]

theorem formatLabelsLoop_eq (ps : List Pair) (count : Nat) (builder : GoString) :
    formatLabelsLoop ps count builder =
      builder ++ linesBlock (((ps.filter renderable).take (3 - count)).map pairLine) ++
        (if markerDue ps count = true then andMoreMarker else []) := by
  induction ps generalizing count builder with
  | nil => simp [formatLabelsLoop, markerDue, linesBlock]
  | cons p rest ih =>
    simp only [formatLabelsLoop, markerDue]
    by_cases hc : count ≥ 3
    · have h0 : 3 - count = 0 := by omega
      simp [hc, h0, linesBlock]
    · simp only [hc, ↓reduceIte]
      by_cases hr : renderable p = true
      · have hnp : ¬ IsPlaceholder (TrimSpace p.Value) := (renderable_iff p).mp hr
        have hinst : ¬ (p.Name = ascii "instance" ∧
            (TrimSpace p.Value = [] ∨ TrimSpace p.Value = ascii " ")) := by
          rintro ⟨_, h | h⟩
          · exact hnp (Or.inl h)
          · exact TrimSpace_ne_space _ h
        have hval : (if (TrimSpace p.Value).length > 25 then
            (TrimSpace p.Value).take 22 ++ ascii "..." else TrimSpace p.Value) =
            shownValue p := by
          unfold shownValue
          by_cases hl : (TrimSpace p.Value).length ≤ 25
          · rw [if_pos hl, if_neg (by omega)]
          · rw [if_neg hl, if_pos (by omega)]
        unfold IsPlaceholder at hnp
        rw [if_neg hnp, if_neg hinst, hval, ih, if_pos hr]
        have h3 : 3 - count = (3 - (count + 1)) + 1 := by omega
        rw [List.filter_cons_of_pos hr, h3, List.take_succ_cons, List.map_cons]
        simp [linesBlock, pairLine]
      · have hp : IsPlaceholder (TrimSpace p.Value) := by
          by_contra hcon
          exact hr ((renderable_iff p).mpr hcon)
        unfold IsPlaceholder at hp
        rw [if_pos hp, ih, if_neg hr, List.filter_cons_of_neg hr]

theorem markerDue_iff (ps : List Pair) (count : Nat) :
    markerDue ps count = true ↔
      ∃ pre p rest, ps = pre ++ p :: rest ∧
        3 ≤ count + (pre.filter renderable).length := by
  induction ps generalizing count with
  | nil => simp [markerDue]
  | cons q qs ih =>
    simp only [markerDue]
    by_cases hc : count ≥ 3
    · simp only [hc, if_true, true_iff]
      exact ⟨[], q, qs, rfl, by simpa using hc⟩
    · rw [if_neg hc, ih]
      constructor
      · rintro ⟨pre, p, rest, hqs, hlen⟩
        refine ⟨q :: pre, p, rest, by simp [hqs], ?_⟩
        by_cases hr : renderable q = true
        · rw [if_pos hr] at hlen
          rw [List.filter_cons_of_pos hr, List.length_cons]; omega
        · rw [if_neg hr] at hlen
          rw [List.filter_cons_of_neg hr]; exact hlen
      · rintro ⟨pre, p, rest, hqs, hlen⟩
        cases pre with
        | nil => simp at hlen; omega
        | cons q' pre' =>
          simp only [List.cons_append, List.cons.injEq] at hqs
          obtain ⟨hq, hqs⟩ := hqs
          subst hq
          refine ⟨pre', p, rest, hqs, ?_⟩
          by_cases hr : renderable q = true
          · rw [if_pos hr]
            rw [List.filter_cons_of_pos hr, List.length_cons] at hlen; omega
          · rw [if_neg hr]
            rw [List.filter_cons_of_neg hr] at hlen; exact hlen

theorem markerDue_zero_iff (ps : List Pair) :
    markerDue ps 0 = true ↔ PairsRemain ps := by
  rw [markerDue_iff]
  unfold PairsRemain
  simp

theorem colon_mem_pairLine (p : Pair) : 0x3A ∈ pairLine p := by
  have : ascii ": " = [0x3A, 0x20] := by decide
  simp [pairLine, this]

theorem mem_joinLines_head (x : Nat) (l : GoString) (ls : List GoString)
    (h : x ∈ l) : x ∈ joinLines (l :: ls) := by
  cases ls with
  | nil => simpa [joinLines] using h
  | cons m rest => simp [joinLines, h]

theorem linesBlock_eq_joinLines (ls : List GoString) (h : ls ≠ []) :
    linesBlock ls = joinLines ls ++ [0x0A] := by
  rcases List.eq_nil_or_concat ls with hnil | ⟨qs, l, hqs⟩
  · exact absurd hnil h
  · rw [List.concat_eq_append] at hqs
    subst hqs
    rw [linesBlock_append, joinLines_append_singleton, List.append_assoc]

theorem shownPairs_renderable (ps : List Pair) :
    ∀ p ∈ shownPairs ps, renderable p = true := by
  intro p hp
  have := List.mem_of_mem_take hp
  exact (List.mem_filter.mp this).2

theorem shownPairs_ne_nil_of_markerDue (ps : List Pair)
    (h : markerDue ps 0 = true) : shownPairs ps ≠ [] := by
  obtain ⟨pre, p, rest, hps, hlen⟩ := (markerDue_iff ps 0).mp h
  intro hnil
  have hl : (shownPairs ps).length = 0 := by rw [hnil]; rfl
  unfold shownPairs at hl
  rw [List.length_take, hps, List.filter_append, List.length_append] at hl
  omega

/-- The output of `getFormattedLabels`: the lines of the first three
renderable pairs, then the marker when the loop wrote it, joined by
newlines. -/
theorem getFormattedLabels_eq (kv : KV) :
    getFormattedLabels kv =
      joinLines ((shownPairs kv.SortedPairs).map pairLine ++
        (if markerDue kv.SortedPairs 0 = true then [andMoreMarker] else [])) := by
  have hloop := formatLabelsLoop_eq kv.SortedPairs 0 []
  simp only [List.nil_append, Nat.sub_zero] at hloop
  have hmk : (0x3A : Nat) ∉ andMoreMarker := by decide
  have hT : TrimSpace (formatLabelsLoop kv.SortedPairs 0 []) =
      joinLines ((shownPairs kv.SortedPairs).map pairLine ++
        (if markerDue kv.SortedPairs 0 = true then [andMoreMarker] else [])) := by
    rw [hloop]
    by_cases hm : markerDue kv.SortedPairs 0 = true
    · rw [if_pos hm, if_pos hm]
      exact TrimSpace_linesBlock_marker _
    · rw [if_neg hm, if_neg hm, List.append_nil, List.append_nil]
      exact TrimSpace_linesBlock _ (shownPairs_renderable _)
  have hunfold : getFormattedLabels kv =
      if TrimSpace (formatLabelsLoop kv.SortedPairs 0 []) = [] ∨
          TrimSpace (formatLabelsLoop kv.SortedPairs 0 []) = andMoreMarker
        then [] else TrimSpace (formatLabelsLoop kv.SortedPairs 0 []) := rfl
  rw [hunfold, hT]
  cases hsp : shownPairs kv.SortedPairs with
  | nil =>
    have hm : ¬ markerDue kv.SortedPairs 0 = true := fun hm =>
      shownPairs_ne_nil_of_markerDue _ hm hsp
    simp [hm, joinLines]
  | cons p rest =>
    have hcolon : (0x3A : Nat) ∈ joinLines ((p :: rest).map pairLine ++
        (if markerDue kv.SortedPairs 0 = true then [andMoreMarker] else [])) := by
      rw [List.map_cons, List.cons_append]
      exact mem_joinLines_head _ _ _ (colon_mem_pairLine p)
    have hcond : ¬ (joinLines ((p :: rest).map pairLine ++
        (if markerDue kv.SortedPairs 0 = true then [andMoreMarker] else [])) = [] ∨
        joinLines ((p :: rest).map pairLine ++
        (if markerDue kv.SortedPairs 0 = true then [andMoreMarker] else [])) =
          andMoreMarker) := by
      rintro (h | h)
      · rw [h] at hcolon; cases hcolon
      · rw [h] at hcolon; exact hmk hcolon
    rw [if_neg hcond]

/-- The output is empty when no pair is shown, and contains a colon
otherwise. -/
theorem getFormattedLabels_cases (kv : KV) :
    (shownPairs kv.SortedPairs = [] ∧ getFormattedLabels kv = []) ∨
    (shownPairs kv.SortedPairs ≠ [] ∧ 0x3A ∈ getFormattedLabels kv) := by
  rw [getFormattedLabels_eq]
  cases hsp : shownPairs kv.SortedPairs with
  | nil =>
    left
    have hm : ¬ markerDue kv.SortedPairs 0 = true := fun hm =>
      shownPairs_ne_nil_of_markerDue _ hm hsp
    simp [hm, joinLines]
  | cons p rest =>
    right
    refine ⟨by simp, ?_⟩
    rw [List.map_cons, List.cons_append]
    exact mem_joinLines_head _ _ _ (colon_mem_pairLine p)

theorem shownPairs_eq_nil_iff (ps : List Pair) :
    shownPairs ps = [] ↔ ∀ p ∈ ps, renderable p = false := by
  unfold shownPairs
  constructor
  · intro h p hp
    cases hr : renderable p with
    | false => rfl
    | true =>
      have hmem : p ∈ ps.filter renderable := List.mem_filter.mpr ⟨hp, hr⟩
      obtain ⟨q, qs, hq⟩ := List.exists_cons_of_ne_nil (List.ne_nil_of_mem hmem)
      rw [hq] at h
      simp at h
  · intro h
    have : ps.filter renderable = [] := by
      rw [List.filter_eq_nil_iff]
      intro p hp
      rw [h p hp]; simp
    rw [this]; rfl

/-- The sorted pairs are the entries of the map. -/
theorem mem_SortedPairs_iff (kv : KV) (h : kv.WellFormed) (p : Pair) :
    p ∈ kv.SortedPairs ↔ (p.Name, p.Value) ∈ kv := by
  have hperm := SortedPairs_entries_perm kv h
  constructor
  · intro hp
    exact hperm.mem_iff.mp (List.mem_map.mpr ⟨p, hp, rfl⟩)
  · intro hp
    obtain ⟨q, hq, hqe⟩ := List.mem_map.mp (hperm.mem_iff.mpr hp)
    have : q = p := by
      cases q; cases p; simp only [Prod.mk.injEq] at hqe
      obtain ⟨h1, h2⟩ := hqe
      subst h1; subst h2; rfl
    rw [← this]; exact hq

theorem splitAtNewlines_append (l rest cur : GoString) (h : 0x0A ∉ l) :
    splitAtNewlines (l ++ rest) cur = splitAtNewlines rest (l.reverse ++ cur) := by
  induction l generalizing cur with
  | nil => rfl
  | cons c r ih =>
    have hc : c ≠ 0x0A := fun hc => h (by simp [hc])
    have hr : 0x0A ∉ r := fun hr => h (List.mem_cons_of_mem _ hr)
    rw [List.cons_append, splitAtNewlines, if_neg hc, ih _ hr]
    simp

theorem splitAtNewlines_joinLines (ls : List GoString) (hne : ls ≠ [])
    (h : ∀ l ∈ ls, 0x0A ∉ l) : splitAtNewlines (joinLines ls) [] = ls := by
  induction ls with
  | nil => exact absurd rfl hne
  | cons l rest ih =>
    cases rest with
    | nil =>
      have := splitAtNewlines_append l [] [] (h l (by simp))
      simp only [List.append_nil] at this
      simp [joinLines, this, splitAtNewlines]
    | cons m rest' =>
      have hl : 0x0A ∉ l := h l (by simp)
      have ih' := ih (by simp) (fun x hx => h x (List.mem_cons_of_mem _ hx))
      rw [joinLines, splitAtNewlines_append l _ [] hl, splitAtNewlines, if_pos rfl,
        ih']
      simp

theorem outputLines_joinLines (ls : List GoString)
    (h : ∀ l ∈ ls, 0x0A ∉ l ∧ l ≠ []) : outputLines (joinLines ls) = ls := by
  unfold outputLines
  cases ls with
  | nil => simp [joinLines]
  | cons l rest =>
    have hne : joinLines (l :: rest) ≠ [] := by
      obtain ⟨x, xs, hx⟩ := List.exists_cons_of_ne_nil (h l (by simp)).2
      have : x ∈ joinLines (l :: rest) := mem_joinLines_head x l rest (by simp [hx])
      exact List.ne_nil_of_mem this
    rw [if_neg hne]
    exact splitAtNewlines_joinLines _ (by simp) (fun x hx => (h x hx).1)

theorem pairLine_no_newline (p : Pair) (hn : 0x0A ∉ p.Name)
    (hv : 0x0A ∉ TrimSpace p.Value) : 0x0A ∉ pairLine p := by
  have h1 : (0x0A : Nat) ∉ bulletSpace := by decide
  have h2 : (0x0A : Nat) ∉ ascii ": " := by decide
  have h3 : (0x0A : Nat) ∉ ascii "..." := by decide
  have h4 : (0x0A : Nat) ∉ shownValue p := by
    unfold shownValue
    split
    · exact hv
    · intro hc
      rcases List.mem_append.mp hc with hc | hc
      · exact hv (List.mem_of_mem_take hc)
      · exact h3 hc
  unfold pairLine
  simp only [List.mem_append, not_or]
  exact ⟨⟨⟨h1, hn⟩, h2⟩, h4⟩

theorem pairLine_ne_nil (p : Pair) : pairLine p ≠ [] :=
  List.ne_nil_of_mem (colon_mem_pairLine p)

/-! ## Proofs: the message assembler -/

/-- With a bound of at least 3, `truncateString` returns a string within the
bound, non-empty when its argument is. -/
theorem truncateString_some (s : GoString) (n : Int) (h : 3 ≤ n) :
    ∃ r, truncateString s n = some r ∧ (r.length : Int) ≤ n ∧
      (s ≠ [] → r ≠ []) := by
  by_cases hle : (s.length : Int) ≤ n
  · exact ⟨s, by simp [truncateString, hle], hle, fun h => h⟩
  · have h3 : ¬ (n - 3 < 0) := by omega
    refine ⟨s.take (n - 3).toNat ++ ascii "...", ?_, ?_, ?_⟩
    · simp [truncateString, hle, h3, ellipsis]
    · have := truncated_length s n h (by omega)
      omega
    · intro _ hnil
      have := congrArg List.length hnil
      simp [ascii] at this

theorem TrimSpace_nil : TrimSpace [] = [] := by decide

theorem embedTitle_spec (alert : AlertManagerAlert) :
    ∃ t, embedTitle alert = some t ∧ TrimSpace t ≠ [] ∧ t.length ≤ 250 := by
  obtain ⟨r, hr, hlen, _⟩ := truncateString_some
    (TrimSpace (removeAll (TrimSpace (removeAll (getAlertTitle alert)
      (ascii "(instance )"))) (ascii "(instance)"))) 250 (by decide)
  by_cases hb : r = [] ∨ TrimSpace r = []
  · refine ⟨ascii "Alert Notification", ?_, by decide, by decide⟩
    simp only [embedTitle, hr, Option.bind_eq_bind, Option.some_bind]
    rw [if_pos hb]; rfl
  · refine ⟨r, ?_, fun h => hb (Or.inr h), by omega⟩
    simp only [embedTitle, hr, Option.bind_eq_bind, Option.some_bind]
    rw [if_neg hb]; rfl

theorem truncateString_bounded (s : GoString) (n : Int) (m : Nat) (h : 3 ≤ n)
    (hm : n ≤ (m : Int)) : ∃ d, truncateString s n = some d ∧ d.length ≤ m := by
  obtain ⟨r, hr, hlen, _⟩ := truncateString_some s n h
  exact ⟨r, hr, by omega⟩

theorem embedDescription_spec (alert : AlertManagerAlert) :
    ∃ d, embedDescription alert = some d ∧ d.length ≤ 1000 := by
  unfold embedDescription
  simp only [Option.bind_eq_bind, Option.pure_def]
  split_ifs <;>
    first
    | exact truncateString_bounded _ 1000 1000 (by decide) (by decide)
    | exact ⟨[], rfl, Nat.zero_le _⟩

theorem field_of_truncated (s name : GoString) (h : s ≠ []) :
    ∃ v, (truncateString s 800).bind
        (fun m => some [({ Name := name, Value := m, Inline := false } : DiscordEmbedField)]) =
        some [{ Name := name, Value := v, Inline := false }] ∧
      v ≠ [] ∧ v.length ≤ 800 := by
  obtain ⟨r, hr, hlen, hne⟩ := truncateString_some s 800 (by decide)
  exact ⟨r, by rw [hr, Option.some_bind], hne h, by omega⟩

theorem messageField_spec (alert : AlertManagerAlert) :
    ∃ fs, messageField alert = some fs ∧
      (fs = [] ∨ ∃ v, fs = [{ Name := ascii "Message", Value := v, Inline := false }] ∧
        v ≠ [] ∧ v.length ≤ 800 ∧
        TrimSpace (alert.Annotations.get (ascii "message")) ≠
          alert.Annotations.get (ascii "summary")) := by
  unfold messageField
  simp only [Option.bind_eq_bind, Option.pure_def]
  split_ifs with h1 h2
  · obtain ⟨v, hv, hne, hlen⟩ := field_of_truncated _ (ascii "Message") h2
    exact ⟨_, hv, Or.inr ⟨v, rfl, hne, hlen, h1.2⟩⟩
  · exact ⟨[], rfl, Or.inl rfl⟩
  · exact ⟨[], rfl, Or.inl rfl⟩

theorem descriptionField_spec (alert : AlertManagerAlert) (description : GoString) :
    ∃ fs, descriptionField alert description = some fs ∧
      (fs = [] ∨ ∃ v, fs = [{ Name := ascii "Description", Value := v, Inline := false }] ∧
        v ≠ [] ∧ v.length ≤ 800) := by
  unfold descriptionField
  simp only [Option.bind_eq_bind, Option.pure_def]
  split_ifs with h1 h2
  · obtain ⟨v, hv, hne, hlen⟩ := field_of_truncated _ (ascii "Description") h2.1
    exact ⟨_, hv, Or.inr ⟨v, rfl, hne, hlen⟩⟩
  · exact ⟨[], rfl, Or.inl rfl⟩
  · exact ⟨[], rfl, Or.inl rfl⟩

/-- The embed of an alert is always assembled, from its four parts. -/
theorem assembleEmbed_spec (alert : AlertManagerAlert) (color : Nat) :
    ∃ t d f1 f2, embedTitle alert = some t ∧ embedDescription alert = some d ∧
      messageField alert = some f1 ∧ descriptionField alert d = some f2 ∧
      assembleEmbed alert color = some
        { Title := t, Description := d, URL := [], Color := color,
          Fields := f1 ++ f2 ++ detailsField alert } := by
  obtain ⟨t, ht, _⟩ := embedTitle_spec alert
  obtain ⟨d, hd, _⟩ := embedDescription_spec alert
  obtain ⟨f1, hf1, _⟩ := messageField_spec alert
  obtain ⟨f2, hf2, _⟩ := descriptionField_spec alert d
  refine ⟨t, d, f1, f2, ht, hd, hf1, hf2, ?_⟩
  simp only [assembleEmbed, ht, hd, hf1, hf2, Option.bind_eq_bind, Option.some_bind,
    Option.pure_def]

theorem assembleEmbed_isSome (alert : AlertManagerAlert) (color : Nat) :
    ∃ e, assembleEmbed alert color = some e ∧ e.Color = color := by
  obtain ⟨t, d, f1, f2, _, _, _, _, h⟩ := assembleEmbed_spec alert color
  exact ⟨_, h, rfl⟩

theorem hasMeaningfulContent_iff (embed : DiscordEmbed) :
    hasMeaningfulContent embed = true ↔
      (TrimSpace embed.Title).length > 3 ∧
        ((TrimSpace embed.Description).length > 3 ∨ embed.Fields.length > 0) := by
  simp [hasMeaningfulContent]

theorem sendAlerts_eq (status : GoString) (alerts : List AlertManagerAlert)
    (h : ∀ a ∈ alerts, a.Status = status) :
    sendAlerts status (findColor status) alerts = some (alerts.flatMap callsFor) := by
  induction alerts with
  | nil => rfl
  | cons a rest ih =>
    have ha : a.Status = status := h a (by simp)
    have ih' := ih (fun x hx => h x (List.mem_cons_of_mem _ hx))
    obtain ⟨e, he, _⟩ := assembleEmbed_isSome a (findColor status)
    have hcalls : callsFor a =
        if hasMeaningfulContent e = true then
          [{ status := status, color := findColor status, embeds := [e] }]
        else [] := by
      unfold callsFor
      rw [ha, he]
      dsimp only
      by_cases hg : hasMeaningfulContent e = true
      · rw [if_pos hg, if_pos ((hasMeaningfulContent_iff e).mp hg)]
      · rw [if_neg hg, if_neg (fun hc => hg ((hasMeaningfulContent_iff e).mpr hc))]
    simp only [sendAlerts, he, ih', Option.bind_eq_bind, Option.some_bind,
      Option.pure_def, List.flatMap_cons, hcalls]
    by_cases hg : hasMeaningfulContent e = true
    · simp [hg]
    · simp [hg]

theorem sendGroups_eq (groups : List (GoString × List AlertManagerAlert))
    (h : ∀ g ∈ groups, ∀ a ∈ g.2, a.Status = g.1) :
    sendGroups groups = some ((groups.flatMap Prod.snd).flatMap callsFor) := by
  induction groups with
  | nil => rfl
  | cons g rest ih =>
    obtain ⟨status, alerts⟩ := g
    have h1 := sendAlerts_eq status alerts (h (status, alerts) (by simp))
    have ih' := ih (fun x hx => h x (List.mem_cons_of_mem _ hx))
    simp only [sendGroups, h1, ih', Option.bind_eq_bind, Option.some_bind,
      Option.pure_def, List.flatMap_cons, List.flatMap_append]

theorem appendToGroup_status (groups : List (GoString × List AlertManagerAlert))
    (alert : AlertManagerAlert) (h : ∀ g ∈ groups, ∀ a ∈ g.2, a.Status = g.1) :
    ∀ g ∈ appendToGroup groups alert, ∀ a ∈ g.2, a.Status = g.1 := by
  induction groups with
  | nil =>
    intro g hg a ha
    simp only [appendToGroup, List.mem_singleton] at hg
    subst hg
    simp only [List.mem_singleton] at ha
    subst ha; rfl
  | cons g₀ rest ih =>
    obtain ⟨status, alerts⟩ := g₀
    have hrest : ∀ g ∈ rest, ∀ a ∈ g.2, a.Status = g.1 :=
      fun x hx => h x (List.mem_cons_of_mem _ hx)
    have h0 : ∀ a ∈ alerts, a.Status = status := h (status, alerts) (by simp)
    intro g hg a ha
    simp only [appendToGroup] at hg
    by_cases hs : status = alert.Status
    · rw [if_pos hs] at hg
      rcases List.mem_cons.mp hg with hg | hg
      · subst hg
        rcases List.mem_append.mp ha with ha | ha
        · exact h0 a ha
        · simp only [List.mem_singleton] at ha
          subst ha; exact hs.symm
      · exact hrest g hg a ha
    · rw [if_neg hs] at hg
      rcases List.mem_cons.mp hg with hg | hg
      · subst hg; exact h0 a ha
      · exact ih hrest g hg a ha

theorem appendToGroup_alerts (groups : List (GoString × List AlertManagerAlert))
    (alert : AlertManagerAlert) :
    ((appendToGroup groups alert).flatMap Prod.snd).Perm
      (groups.flatMap Prod.snd ++ [alert]) := by
  induction groups with
  | nil => simp [appendToGroup]
  | cons g₀ rest ih =>
    obtain ⟨status, alerts⟩ := g₀
    simp only [appendToGroup]
    by_cases hs : status = alert.Status
    · rw [if_pos hs]
      simp only [List.flatMap_cons, List.append_assoc]
      exact List.Perm.append_left _ List.perm_append_comm
    · rw [if_neg hs]
      simp only [List.flatMap_cons, List.append_assoc]
      exact List.Perm.append_left _ ih

theorem foldl_appendToGroup (alerts : List AlertManagerAlert)
    (groups : List (GoString × List AlertManagerAlert))
    (h : ∀ g ∈ groups, ∀ a ∈ g.2, a.Status = g.1) :
    (∀ g ∈ alerts.foldl appendToGroup groups, ∀ a ∈ g.2, a.Status = g.1) ∧
    ((alerts.foldl appendToGroup groups).flatMap Prod.snd).Perm
      (groups.flatMap Prod.snd ++ alerts) := by
  induction alerts generalizing groups with
  | nil => simpa using h
  | cons a rest ih =>
    obtain ⟨h1, h2⟩ := ih (appendToGroup groups a) (appendToGroup_status groups a h)
    refine ⟨h1, ?_⟩
    rw [List.foldl_cons]
    refine h2.trans ?_
    have := (appendToGroup_alerts groups a).append_right rest
    simpa [List.append_assoc] using this

/-- Grouping keeps every alert once, under its own status. -/
theorem groupAlerts_spec (alerts : List AlertManagerAlert) :
    (∀ g ∈ groupAlerts alerts, ∀ a ∈ g.2, a.Status = g.1) ∧
    ((groupAlerts alerts).flatMap Prod.snd).Perm alerts := by
  have := foldl_appendToGroup alerts [] (by simp)
  simpa [groupAlerts] using this

/-- The calls of `sendWebhook` are, up to the order of the groups, the calls
for the single alerts. -/
theorem sendWebhook_calls (data : AlertManagerData)
    (enumerate : List (GoString × List AlertManagerAlert) →
      List (GoString × List AlertManagerAlert))
    (h : ∀ l, (enumerate l).Perm l) :
    ∃ calls, sendWebhook data enumerate = some calls ∧
      calls.Perm (data.Alerts.flatMap callsFor) := by
  obtain ⟨hst, hperm⟩ := groupAlerts_spec data.Alerts
  have hp := h (groupAlerts data.Alerts)
  have hst' : ∀ g ∈ enumerate (groupAlerts data.Alerts), ∀ a ∈ g.2, a.Status = g.1 :=
    fun g hg => hst g (hp.mem_iff.mp hg)
  refine ⟨_, sendGroups_eq _ hst', ?_⟩
  exact List.Perm.flatMap_right _ ((hp.flatMap_right _).trans hperm)

theorem callsFor_eq (alert : AlertManagerAlert) :
    ∃ e, assembleEmbed alert (findColor alert.Status) = some e ∧
      e.Color = findColor alert.Status ∧
      callsFor alert =
        if (TrimSpace e.Title).length > 3 ∧
            ((TrimSpace e.Description).length > 3 ∨ e.Fields.length > 0) then
          [{ status := alert.Status, color := findColor alert.Status, embeds := [e] }]
        else [] := by
  obtain ⟨e, he, hc⟩ := assembleEmbed_isSome alert (findColor alert.Status)
  refine ⟨e, he, hc, ?_⟩
  unfold callsFor
  rw [he]

theorem getFormattedLabels_congr (l₁ l₂ : KV) (h : l₁.SortedPairs = l₂.SortedPairs) :
    getFormattedLabels l₁ = getFormattedLabels l₂ := by
  unfold getFormattedLabels
  rw [h]

/-- The embed depends on the alert's maps only through their lookups and the
sorted pairs of the labels. -/
theorem assembleEmbed_congr (a b : AlertManagerAlert) (color : Nat)
    (hA : ∀ k, a.Annotations.get k = b.Annotations.get k)
    (hL : ∀ k, a.Labels.get k = b.Labels.get k)
    (hS : a.Labels.SortedPairs = b.Labels.SortedPairs) :
    assembleEmbed a color = assembleEmbed b color := by
  have hd : detailsField a = detailsField b := by
    unfold detailsField
    rw [getFormattedLabels_congr _ _ hS]
  have ht : embedTitle a = embedTitle b := by
    unfold embedTitle getAlertTitle
    simp only [hA, hL]
  have hde : embedDescription a = embedDescription b := by
    unfold embedDescription
    simp only [hA]
  have hm : messageField a = messageField b := by
    unfold messageField
    simp only [hA]
  have hdf : ∀ d, descriptionField a d = descriptionField b d := by
    intro d
    unfold descriptionField
    simp only [hA]
  unfold assembleEmbed
  simp only [hd, ht, hde, hm, hdf]

/-! ## Proofs: every assembled embed passes the validator -/

theorem truncated_trimmed (x : GoString) (hx : TrimSpace x ≠ []) :
    ∃ v, truncateString (TrimSpace x) 800 = some v ∧ TrimSpace v ≠ [] ∧
      v.length ≤ 800 := by
  by_cases hle : ((TrimSpace x).length : Int) ≤ 800
  · refine ⟨TrimSpace x, by simp [truncateString, hle], ?_, by omega⟩
    rw [TrimSpace_idem]; exact hx
  · have h797 : ((800 : Int) - 3).toNat = 797 := by decide
    refine ⟨(TrimSpace x).take 797 ++ ascii "...", ?_, ?_, ?_⟩
    · simp [truncateString, hle, ellipsis, h797]
    · rw [TrimSpace_take_ellipsis _ 797 (leftStable_TrimSpace x) (by decide) (by omega)]
      intro h
      have := congrArg List.length h
      simp [ascii] at this
    · have h3 : (ascii "...").length = 3 := rfl
      rw [List.length_append, List.length_take, h3]
      omega

theorem field_of_truncated_trimmed (x name : GoString) (hx : TrimSpace x ≠ []) :
    ∃ v, (truncateString (TrimSpace x) 800).bind
        (fun m => some [({ Name := name, Value := m, Inline := false } : DiscordEmbedField)]) =
        some [{ Name := name, Value := v, Inline := false }] ∧
      TrimSpace v ≠ [] ∧ v.length ≤ 800 := by
  obtain ⟨v, hv, hne, hlen⟩ := truncated_trimmed x hx
  exact ⟨v, by rw [hv, Option.some_bind], hne, hlen⟩

theorem messageField_fields (alert : AlertManagerAlert) :
    ∃ fs, messageField alert = some fs ∧ fs.length ≤ 1 ∧
      ∀ f ∈ fs, f.Name = ascii "Message" ∧ TrimSpace f.Value ≠ [] ∧
        f.Value.length ≤ 800 := by
  unfold messageField
  simp only [Option.bind_eq_bind, Option.pure_def]
  split_ifs with h1 h2
  · obtain ⟨v, hv, hne, hlen⟩ := field_of_truncated_trimmed _ (ascii "Message") h2
    refine ⟨_, hv, by simp, ?_⟩
    intro f hf
    rw [List.mem_singleton] at hf
    subst hf
    exact ⟨rfl, hne, hlen⟩
  · exact ⟨[], rfl, by simp, by simp⟩
  · exact ⟨[], rfl, by simp, by simp⟩

theorem descriptionField_fields (alert : AlertManagerAlert) (description : GoString) :
    ∃ fs, descriptionField alert description = some fs ∧ fs.length ≤ 1 ∧
      ∀ f ∈ fs, f.Name = ascii "Description" ∧ TrimSpace f.Value ≠ [] ∧
        f.Value.length ≤ 800 := by
  unfold descriptionField
  simp only [Option.bind_eq_bind, Option.pure_def]
  split_ifs with h1 h2
  · obtain ⟨v, hv, hne, hlen⟩ := field_of_truncated_trimmed _ (ascii "Description") h2.1
    refine ⟨_, hv, by simp, ?_⟩
    intro f hf
    rw [List.mem_singleton] at hf
    subst hf
    exact ⟨rfl, hne, hlen⟩
  · exact ⟨[], rfl, by simp, by simp⟩
  · exact ⟨[], rfl, by simp, by simp⟩

/-- The output of `getFormattedLabels` is already trimmed. -/
theorem getFormattedLabels_trimmed (kv : KV) :
    TrimSpace (getFormattedLabels kv) = getFormattedLabels kv := by
  unfold getFormattedLabels
  dsimp only
  split_ifs
  · exact TrimSpace_nil
  · exact TrimSpace_idem _

theorem linesBlock_length_le (ls : List GoString) (bound : Nat)
    (h : ∀ l ∈ ls, l.length ≤ bound) :
    (linesBlock ls).length ≤ ls.length * (bound + 1) := by
  induction ls with
  | nil => simp [linesBlock]
  | cons l rest ih =>
    have h1 := h l (by simp)
    have h2 := ih (fun x hx => h x (List.mem_cons_of_mem _ hx))
    simp only [linesBlock, List.length_append, List.length_cons]
    rw [Nat.add_mul]
    omega

theorem linesBlock_append_lists (xs ys : List GoString) :
    linesBlock (xs ++ ys) = linesBlock xs ++ linesBlock ys := by
  induction xs with
  | nil => simp [linesBlock]
  | cons x rest ih => simp [linesBlock, ih]

theorem joinLines_length_le (ls : List GoString) :
    (joinLines ls).length ≤ (linesBlock ls).length := by
  by_cases h : ls = []
  · subst h; simp [joinLines, linesBlock]
  · rw [linesBlock_eq_joinLines ls h]; simp

theorem shownValue_length_le (p : Pair) : (shownValue p).length ≤ 25 := by
  unfold shownValue
  split_ifs with h
  · exact h
  · have h3 : (ascii "...").length = 3 := rfl
    rw [List.length_append, List.length_take, h3]
    omega

theorem pairLine_length_le (p : Pair) (n : Nat) (h : p.Name.length ≤ n) :
    (pairLine p).length ≤ n + 31 := by
  have h1 := shownValue_length_le p
  have h2 : bulletSpace.length = 4 := rfl
  have h3 : (ascii ": ").length = 2 := rfl
  unfold pairLine
  simp only [List.length_append, h2, h3]
  omega

/-- With label names of at most 300 bytes the output of `getFormattedLabels`
is at most 1012 long. -/
theorem getFormattedLabels_length_le (kv : KV) (hw : kv.WellFormed)
    (hn : ∀ e ∈ kv, e.1.length ≤ 300) : (getFormattedLabels kv).length ≤ 1012 := by
  rw [getFormattedLabels_eq]
  refine (joinLines_length_le _).trans ?_
  rw [linesBlock_append_lists, List.length_append]
  have hlines : (linesBlock ((shownPairs kv.SortedPairs).map pairLine)).length ≤
      ((shownPairs kv.SortedPairs).map pairLine).length * (331 + 1) := by
    apply linesBlock_length_le
    intro l hl
    obtain ⟨p, hp, rfl⟩ := List.mem_map.mp hl
    have hps : p ∈ kv.SortedPairs := (List.mem_filter.mp (List.mem_of_mem_take hp)).1
    have hkv := (mem_SortedPairs_iff kv hw p).mp hps
    exact pairLine_length_le p 300 (hn _ hkv)
  have hcount : ((shownPairs kv.SortedPairs).map pairLine).length ≤ 3 := by
    rw [List.length_map]
    unfold shownPairs
    rw [List.length_take]
    omega
  have hmarker : (linesBlock (if markerDue kv.SortedPairs 0 = true then [andMoreMarker]
      else [])).length ≤ 16 := by
    split_ifs
    · decide
    · decide
  have hmul : ((shownPairs kv.SortedPairs).map pairLine).length * (331 + 1) ≤ 3 * 332 :=
    Nat.mul_le_mul_right _ hcount
  omega

theorem detailsField_fields (alert : AlertManagerAlert) (hw : alert.Labels.WellFormed)
    (hn : ∀ e ∈ alert.Labels, e.1.length ≤ 300) :
    (detailsField alert).length ≤ 1 ∧
      ∀ f ∈ detailsField alert, f.Name = ascii "Details" ∧ TrimSpace f.Value ≠ [] ∧
        f.Value.length ≤ 1012 := by
  unfold detailsField
  dsimp only
  split_ifs with h
  · refine ⟨by simp, ?_⟩
    intro f hf
    rw [List.mem_singleton] at hf
    subst hf
    refine ⟨rfl, ?_, getFormattedLabels_length_le _ hw hn⟩
    show TrimSpace (getFormattedLabels alert.Labels) ≠ []
    rw [getFormattedLabels_trimmed]
    exact h
  · exact ⟨by simp, by simp⟩

theorem trimmedFieldsSize_le (fs : List DiscordEmbedField) (bound : Nat)
    (h : ∀ f ∈ fs, (TrimSpace f.Name).length + (TrimSpace f.Value).length ≤ bound) :
    trimmedFieldsSize fs ≤ fs.length * bound := by
  induction fs with
  | nil => simp [trimmedFieldsSize]
  | cons f rest ih =>
    have h1 := h f (by simp)
    have h2 := ih (fun x hx => h x (List.mem_cons_of_mem _ hx))
    have hs : trimmedFieldsSize (f :: rest) =
        (TrimSpace f.Name).length + (TrimSpace f.Value).length + trimmedFieldsSize rest := by
      simp [trimmedFieldsSize]
    rw [hs, List.length_cons, Nat.add_mul]
    omega

/-- Every embed assembled from an alert with label names of at most 300 bytes
makes a message that the validator accepts. -/
theorem assembled_embed_accepted (alert : AlertManagerAlert) (color : Nat)
    (hw : alert.Labels.WellFormed) (hn : ∀ e ∈ alert.Labels, e.1.length ≤ 300) :
    ∃ e, assembleEmbed alert color = some e ∧
      validateDiscordMessage
        { Content := [], Username := [], AvatarURL := [], Embeds := [e] } = true := by
  obtain ⟨t, d, f1, f2, ht, hd, hf1, hf2, he⟩ := assembleEmbed_spec alert color
  obtain ⟨t', ht', htrim, htlen⟩ := embedTitle_spec alert
  rw [ht] at ht'; cases ht'
  obtain ⟨d', hd', hdlen⟩ := embedDescription_spec alert
  rw [hd] at hd'; cases hd'
  obtain ⟨g1, hg1, hl1, hp1⟩ := messageField_fields alert
  rw [hf1] at hg1; cases hg1
  obtain ⟨g2, hg2, hl2, hp2⟩ := descriptionField_fields alert d
  rw [hf2] at hg2; cases hg2
  obtain ⟨hl3, hp3⟩ := detailsField_fields alert hw hn
  have htne : t ≠ [] := by
    intro h; apply htrim; rw [h]; exact TrimSpace_nil
  have hfield : ∀ f ∈ f1 ++ f2 ++ detailsField alert,
      TrimSpace f.Name ≠ [] ∧ TrimSpace f.Value ≠ [] ∧
      (TrimSpace f.Name).length ≤ 11 ∧ (TrimSpace f.Value).length ≤ 1012 := by
    intro f hf
    have hv := TrimSpace_length_le f.Value
    rcases List.mem_append.mp hf with h12 | h3
    · rcases List.mem_append.mp h12 with h | h
      · obtain ⟨hname, hval, hlen⟩ := hp1 f h
        rw [hname]
        exact ⟨by decide, hval, by decide, by omega⟩
      · obtain ⟨hname, hval, hlen⟩ := hp2 f h
        rw [hname]
        exact ⟨by decide, hval, by decide, by omega⟩
    · obtain ⟨hname, hval, hlen⟩ := hp3 f h3
      rw [hname]
      exact ⟨by decide, hval, by decide, by omega⟩
  have hcount : (f1 ++ f2 ++ detailsField alert).length ≤ 3 := by
    simp only [List.length_append]; omega
  have hsize : trimmedFieldsSize (f1 ++ f2 ++ detailsField alert) ≤ 3 * 1023 := by
    refine (trimmedFieldsSize_le _ 1023 ?_).trans (Nat.mul_le_mul_right _ hcount)
    intro f hf
    obtain ⟨_, _, h1, h2⟩ := hfield f hf
    omega
  refine ⟨_, he, ?_⟩
  rw [validateDiscordMessage_iff]
  refine ⟨Or.inr (by simp), by simp, ?_, ?_⟩
  · intro e' he'
    rw [List.mem_singleton] at he'
    subst he'
    refine ⟨Or.inl htne, ?_, ?_, ?_, ?_⟩
    · show t.length ≤ 256; omega
    · show d.length ≤ 4096; omega
    · show (f1 ++ f2 ++ detailsField alert).length ≤ 25; omega
    · intro f hf
      obtain ⟨h1, h2, h3, h4⟩ := hfield f hf
      exact ⟨h1, h2, by omega, by omega⟩
  · simp only [trimmedMessageSize, List.map_cons, List.map_nil, List.sum_cons,
      List.sum_nil, trimmedEmbedSize]
    omega

/-! ## Proofs: the dispatcher -/

theorem sendToWebhook_posts (outcome : Nat → PostOutcome) (webHook body : GoString)
    (box : Outbox) :
    (sendToWebhook outcome webHook body box).posts = box.posts ++ [(webHook, body)] := by
  unfold sendToWebhook
  cases outcome box.posts.length with
  | postError => rfl
  | readError c => rfl
  | answered c b =>
    dsimp only
    split <;> rfl

theorem sendToAdditional_posts (outcome : Nat → PostOutcome) (body : GoString)
    (urls : List GoString) (box : Outbox) :
    (sendToAdditional outcome body urls box).posts =
      box.posts ++ urls.map (fun u => (u, body)) := by
  induction urls generalizing box with
  | nil => simp [sendToAdditional]
  | cons u rest ih =>
    rw [sendToAdditional, ih, sendToWebhook_posts]
    simp

theorem dispatchedMessage_fields (cfg : Config) (embeds : List DiscordEmbed) :
    (dispatchedMessage cfg embeds).Content = [] ∧
    (dispatchedMessage cfg embeds).Embeds = embeds := by
  unfold dispatchedMessage addOverrideFields
  constructor
  · dsimp only
    split_ifs <;> rfl
  · rfl

theorem validate_dispatchedMessage (cfg : Config) (embeds : List DiscordEmbed) :
    validateDiscordMessage (dispatchedMessage cfg embeds) =
      validateDiscordMessage
        { Content := [], Username := [], AvatarURL := [], Embeds := embeds } := by
  obtain ⟨h1, h2⟩ := dispatchedMessage_fields cfg embeds
  unfold validateDiscordMessage
  rw [h1, h2]

/-! ## Proofs: the field check -/

theorem hitsInvalid_iff (name value : GoString) (l : List GoString) :
    hitsInvalid name value l = true ↔ name ∈ l ∨ value ∈ l := by
  induction l with
  | nil => simp [hitsInvalid]
  | cons t rest ih =>
    simp only [hitsInvalid, List.mem_cons]
    by_cases h : name = t ∨ value = t
    · rw [if_pos h]
      simp only [true_iff]
      rcases h with h | h
      · exact Or.inl (Or.inl h)
      · exact Or.inr (Or.inl h)
    · rw [if_neg h, ih]
      simp only [not_or] at h
      constructor
      · rintro (h' | h')
        · exact Or.inl (Or.inr h')
        · exact Or.inr (Or.inr h')
      · rintro (h' | h')
        · rcases h' with h' | h'
          · exact absurd h' h.1
          · exact Or.inl h'
        · rcases h' with h' | h'
          · exact absurd h' h.2
          · exact Or.inr h'

/-- The function `strings.Contains` decides whether `substr` occurs in `s` as
a contiguous block. -/
theorem Contains_iff (s substr : GoString) :
    Contains s substr = true ↔ substr <:+: s := by
  induction s with
  | nil =>
    simp only [Contains, List.isPrefixOf_iff_prefix, List.prefix_nil,
      List.infix_nil]
  | cons c r ih =>
    simp only [Contains, Bool.or_eq_true, List.isPrefixOf_iff_prefix, ih,
      List.infix_cons_iff]

/-- The last line of `isValidField`. -/
theorem final_check_eq_false (name value : GoString) (hn : name ≠ []) :
    (decide (name.length > 0) && decide (value.length > 0) &&
        !Contains value (ascii "undefined") && !Contains value (ascii "null")) = false ↔
      value = [] ∨ ascii "undefined" <:+: value ∨ ascii "null" <:+: value := by
  rw [← Contains_iff, ← Contains_iff]
  have hnl : decide (name.length > 0) = true := by
    simpa using List.length_pos.mpr hn
  rw [hnl]
  by_cases hv : value = []
  · subst hv; simp
  · have hvl : decide (value.length > 0) = true := by
      simpa using List.length_pos.mpr hv
    rw [hvl]
    cases Contains value (ascii "undefined") <;>
      cases Contains value (ascii "null") <;> simp [hv]

/-- The cleaning inside `isValidField` is `codeCleanedValue`: for a trimmed
name and value that are non-empty and not in `invalidContents`, the result is
the last test applied to the cleaned value. -/
theorem isValidField_cleaned (name value : GoString)
    (h1 : ¬ (TrimSpace name = [] ∨ TrimSpace value = []))
    (h2 : hitsInvalid (TrimSpace name) (TrimSpace value) invalidContents = false) :
    isValidField name value =
      (decide ((TrimSpace name).length > 0) &&
        decide ((codeCleanedValue value).length > 0) &&
        !Contains (codeCleanedValue value) (ascii "undefined") &&
        !Contains (codeCleanedValue value) (ascii "null")) := by
  unfold isValidField codeCleanedValue
  dsimp only
  rw [if_neg h1, h2]
  rfl

theorem removeScan_length_le (old : GoString) (skip : Nat) (s : GoString) :
    (removeScan old skip s).length ≤ s.length := by
  induction s using List.rec generalizing skip with
  | nil => cases skip <;> simp [removeScan]
  | cons c r ih =>
    cases skip with
    | zero =>
      simp only [removeScan]
      split
      · have := ih (old.length - 1)
        simp only [List.length_cons]; omega
      · have := ih 0
        simp only [List.length_cons]; omega
    | succ k =>
      simp only [removeScan, List.length_cons]
      have := ih k
      omega

/-- A call of `strings.ReplaceAll(s, old, "")` never lengthens the string. -/
theorem removeAll_length_le (s old : GoString) :
    (removeAll s old).length ≤ s.length := by
  unfold removeAll
  split
  · exact Nat.le_refl _
  · exact removeScan_length_le old 0 s

/-- A string in which `old` does not occur is returned unchanged by
`strings.ReplaceAll(s, old, "")`. -/
theorem removeAll_of_not_contains (s old : GoString)
    (h : Contains s old = false) : removeAll s old = s := by
  unfold removeAll
  split
  · rfl
  · induction s with
    | nil => rfl
    | cons c r ih =>
      simp only [Contains, Bool.or_eq_false_iff] at h
      simp only [removeScan, h.1, Bool.false_eq_true, if_false]
      rw [ih h.2]

/-- A string in which the non-empty `old` occurs is shortened by
`strings.ReplaceAll(s, old, "")`. -/
theorem removeAll_length_lt (s old : GoString) (ho : old ≠ [])
    (h : Contains s old = true) : (removeAll s old).length < s.length := by
  unfold removeAll
  rw [if_neg ho]
  induction s with
  | nil =>
    simp only [Contains, List.isPrefixOf_iff_prefix, List.prefix_nil] at h
    exact absurd h ho
  | cons c r ih =>
    simp only [removeScan]
    split
    · have := removeScan_length_le old (old.length - 1) r
      simp only [List.length_cons]; omega
    · rename_i hp
      simp only [Contains, Bool.or_eq_true] at h
      rcases h with h | h
      · exact absurd h hp
      · have := ih h
        simp only [List.length_cons]; omega

theorem removeScan_skip (old a r : GoString) :
    removeScan old a.length (a ++ r) = removeScan old 0 r := by
  induction a with
  | nil => rfl
  | cons x a ih => simpa [removeScan] using ih

/-- The call `strings.ReplaceAll(s, old, "")` at the first occurrence of a
non-empty `old`: when `old` occurs after `p` and not earlier, `p` is kept,
the occurrence is dropped and the scan goes on behind it.  Together with
`removeAll_of_not_contains` this determines the function. -/
theorem removeAll_first_occurrence (p old r : GoString) (ho : old ≠ [])
    (h : Contains (p ++ old.dropLast) old = false) :
    removeAll (p ++ old ++ r) old = p ++ removeAll r old := by
  unfold removeAll
  rw [if_neg ho, if_neg ho]
  induction p with
  | nil =>
    obtain ⟨c, o, rfl⟩ := List.exists_cons_of_ne_nil ho
    have hp : (c :: o).isPrefixOf (c :: (o ++ r)) = true := by
      rw [ List.isPrefixOf_iff_prefix]
      exact List.prefix_append (c :: o) r
    show removeScan (c :: o) 0 (c :: (o ++ r)) = removeScan (c :: o) 0 r
    simp only [removeScan, hp, if_true, List.length_cons, Nat.add_sub_cancel]
    exact removeScan_skip (c :: o) o r
  | cons x p ih =>
    simp only [List.cons_append, Contains, Bool.or_eq_false_iff] at h
    have hnp : old.isPrefixOf (x :: (p ++ old ++ r)) = false := by
      cases hq : old.isPrefixOf (x :: (p ++ old ++ r)) with
      | false => rfl
      | true =>
        rw [ List.isPrefixOf_iff_prefix] at hq
        have hsub : (x :: (p ++ old.dropLast)) <+: (x :: (p ++ old ++ r)) := by
          obtain ⟨t, ht⟩ := List.dropLast_prefix old
          refine ⟨t ++ r, ?_⟩
          simp only [List.cons_append, List.append_assoc]
          rw [← List.append_assoc old.dropLast t r, ht]
        have hlen : old.length ≤ (x :: (p ++ old.dropLast)).length := by
          simp only [List.length_cons, List.length_append, List.length_dropLast]
          have := List.length_pos.mpr ho
          omega
        have := List.prefix_of_prefix_length_le hq hsub hlen
        rw [← List.isPrefixOf_iff_prefix] at this
        exact absurd (this.symm.trans h.1) (by decide)
    show removeScan old 0 (x :: (p ++ old ++ r)) = x :: (p ++ removeScan old 0 r)
    simp only [removeScan, hnp, Bool.false_eq_true, if_false]
    rw [ih h.2]

/-- One round of the three removals shortens a string in which one of the
tokens occurs. -/
theorem removal_round_length_lt (s : GoString) (h : hasPlaceholderToken s = true) :
    (removeAll (removeAll (removeAll s (ascii "map[]")) (ascii "(instance )"))
      (ascii "(instance)")).length < s.length := by
  have ha := removeAll_length_le s (ascii "map[]")
  have hb := removeAll_length_le (removeAll s (ascii "map[]")) (ascii "(instance )")
  have hc := removeAll_length_le
    (removeAll (removeAll s (ascii "map[]")) (ascii "(instance )")) (ascii "(instance)")
  cases h1 : Contains s (ascii "map[]") with
  | true =>
    have := removeAll_length_lt s (ascii "map[]") (by decide) h1
    omega
  | false =>
    have e1 := removeAll_of_not_contains s _ h1
    rw [e1] at hb hc ⊢
    cases h2 : Contains s (ascii "(instance )") with
    | true =>
      have := removeAll_length_lt s (ascii "(instance )") (by decide) h2
      omega
    | false =>
      have e2 := removeAll_of_not_contains s _ h2
      rw [e2] at hc ⊢
      have h3 : Contains s (ascii "(instance)") = true := by
        simpa [hasPlaceholderToken, h1, h2] using h
      exact removeAll_length_lt s (ascii "(instance)") (by decide) h3

/-- With fuel of at least the length of the string, `removeEveryToken` ends in
a string in which none of the three tokens occurs. -/
theorem removeEveryToken_clean (fuel : Nat) (s : GoString) (h : s.length ≤ fuel) :
    hasPlaceholderToken (removeEveryToken fuel s) = false := by
  induction fuel generalizing s with
  | zero =>
    have hs : s = [] := List.length_eq_zero.mp (Nat.le_zero.mp h)
    subst hs
    decide
  | succ k ih =>
    simp only [removeEveryToken]
    split
    · rename_i ht
      apply ih
      have := removal_round_length_lt s ht
      omega
    · rename_i ht
      simpa using ht

/-- `removeEveryToken` leaves a string without tokens as it is. -/
theorem removeEveryToken_of_clean (fuel : Nat) (s : GoString)
    (h : hasPlaceholderToken s = false) : removeEveryToken fuel s = s := by
  cases fuel with
  | zero => rfl
  | succ k => simp [removeEveryToken, h]

/-! ## Proofs: the check of the webhook URL -/

theorem isPrefixOf_append_self (p r : GoString) : p.isPrefixOf (p ++ r) = true := by
  rw [ List.isPrefixOf_iff_prefix]
  exact List.prefix_append p r

theorem dropDigits_append (n : Nat) (ds r : GoString) (hl : ds.length = n)
    (hd : ∀ d ∈ ds, isDigitByte d = true) : dropDigits n (ds ++ r) = some r := by
  induction n generalizing ds with
  | zero =>
    have : ds = [] := List.length_eq_zero.mp hl
    subst this; rfl
  | succ k ih =>
    cases ds with
    | nil => simp at hl
    | cons d rest =>
      have h1 : isDigitByte d = true := hd d (by simp)
      rw [List.cons_append, dropDigits, if_pos h1]
      exact ih rest (by simpa using hl) (fun x hx => hd x (List.mem_cons_of_mem _ hx))

theorem matchSlashToken_of (token : GoString) (hne : token ≠ [])
    (ht : ∀ c ∈ token, isTokenByte c = true) :
    matchSlashToken (ascii "/" ++ token) = true := by
  cases token with
  | nil => exact absurd rfl hne
  | cons c r =>
    have : ascii "/" ++ c :: r = 0x2F :: c :: r := rfl
    rw [this, matchSlashToken]
    exact ht c (by simp)

theorem matchIdToken_of (id token : GoString) (hl : id.length = 18 ∨ id.length = 19)
    (hd : ∀ d ∈ id, isDigitByte d = true) (hne : token ≠ [])
    (ht : ∀ c ∈ token, isTokenByte c = true) :
    matchIdToken (id ++ (ascii "/" ++ token)) = true := by
  have hslash := matchSlashToken_of token hne ht
  unfold matchIdToken
  rcases hl with hl | hl
  · rw [dropDigits_append 18 id _ hl hd]
    simp [hslash]
  · have hsplit : id = id.take 18 ++ id.drop 18 := (List.take_append_drop 18 id).symm
    have hlen : (id.drop 18).length = 1 := by rw [List.length_drop]; omega
    obtain ⟨d, hd1⟩ := List.length_eq_one.mp hlen
    have hdd : isDigitByte d = true :=
      hd d (List.mem_of_mem_drop (by rw [hd1]; simp))
    have htake : dropDigits 18 (id.take 18 ++ (d :: (ascii "/" ++ token))) =
        some (d :: (ascii "/" ++ token)) :=
      dropDigits_append 18 _ _ (by rw [List.length_take]; omega)
        (fun x hx => hd x (List.mem_of_mem_take hx))
    have hid : id ++ (ascii "/" ++ token) =
        id.take 18 ++ (d :: (ascii "/" ++ token)) := by
      conv_lhs => rw [hsplit, hd1]
      simp
    rw [hid, htake]
    simp [hdd, hslash]

theorem matchDotCom_of (id token : GoString) (hl : id.length = 18 ∨ id.length = 19)
    (hd : ∀ d ∈ id, isDigitByte d = true) (hne : token ≠ [])
    (ht : ∀ c ∈ token, isTokenByte c = true) :
    matchDotCom (ascii ".com/api/webhooks/" ++ (id ++ (ascii "/" ++ token))) = true := by
  have h0 : ascii ".com/api/webhooks/" ++ (id ++ (ascii "/" ++ token)) =
      0x2E :: (ascii "com/api/webhooks/" ++ (id ++ (ascii "/" ++ token))) := rfl
  rw [h0]
  unfold matchDotCom
  have hw : runeWidth (0x2E :: (ascii "com/api/webhooks/" ++ (id ++ (ascii "/" ++ token)))) = 1 := by
    simp [runeWidth]
  simp only [hw, List.drop_succ_cons, List.drop_zero, isPrefixOf_append_self,
    List.drop_left, if_true]
  rw [if_neg (by decide)]
  exact matchIdToken_of id token hl hd hne ht

/-- The pattern matches every URL of the form with 18 or 19 digits. -/
theorem webhookPatternMatches_of (host id token : GoString)
    (hh : host = ascii "discord" ∨ host = ascii "discordapp")
    (hl : id.length = 18 ∨ id.length = 19)
    (hd : ∀ d ∈ id, isDigitByte d = true) (hne : token ≠ [])
    (ht : ∀ c ∈ token, isTokenByte c = true) :
    webhookPatternMatches (webhookUrlOf host id token) = true := by
  have hdot := matchDotCom_of id token hl hd hne ht
  have hhere : matchHere (webhookUrlOf host id token) = true := by
    rcases hh with hh | hh
    · subst hh
      have hu : webhookUrlOf (ascii "discord") id token =
          ascii "https://discord" ++
            (ascii ".com/api/webhooks/" ++ (id ++ (ascii "/" ++ token))) := by
        simp [webhookUrlOf, ascii]
      rw [hu]
      unfold matchHere
      simp only [isPrefixOf_append_self, List.drop_left, if_true, hdot, Bool.true_or]
    · subst hh
      have hu : webhookUrlOf (ascii "discordapp") id token =
          ascii "https://discord" ++ (ascii "app" ++
            (ascii ".com/api/webhooks/" ++ (id ++ (ascii "/" ++ token)))) := by
        simp [webhookUrlOf, ascii]
      rw [hu]
      unfold matchHere
      simp only [isPrefixOf_append_self, List.drop_left, if_true, hdot, Bool.and_self,
        Bool.or_true]
  have hcons : ∃ c r, webhookUrlOf host id token = c :: r := by
    refine ⟨0x68, ascii "ttps://" ++ host ++ ascii ".com/api/webhooks/" ++ id ++
      ascii "/" ++ token, ?_⟩
    simp [webhookUrlOf, ascii]
  obtain ⟨c, r, hcr⟩ := hcons
  rw [hcr] at hhere ⊢
  rw [webhookPatternMatches, hhere]
  rfl

/-! ## Proofs: the display name of an alert group -/

theorem firstLine_no_newline (s : GoString) : 0x0A ∉ firstLine s := by
  induction s with
  | nil => simp [firstLine]
  | cons c r ih =>
    rw [firstLine]
    by_cases h : c = 0x0A
    · rw [if_pos h]; simp
    · rw [if_neg h]
      intro hm
      rcases List.mem_cons.mp hm with h' | h'
      · exact h h'.symm
      · exact ih h'

/-! ## Claims about the validator -/

/-- C1: `validateDiscordMessage` returns true exactly when the message has
content or an embed, has at most 10 embeds, every embed has a title, a
description or a field, titles are at most 256 long and descriptions at most
4096, every embed has at most 25 fields, every field name and value is
non-empty after trimming with the trimmed name at most 256 long and the trimmed
value at most 1024, and the summed title, description and trimmed field
lengths are at most 5000. -/
theorem validateDiscordMessage_accepts_iff (m : DiscordMessage) :
    validateDiscordMessage m = true ↔
      (m.Content ≠ [] ∨ m.Embeds ≠ []) ∧
      m.Embeds.length ≤ 10 ∧
      (∀ e ∈ m.Embeds,
        (e.Title ≠ [] ∨ e.Description ≠ [] ∨ e.Fields ≠ []) ∧
        e.Title.length ≤ 256 ∧ e.Description.length ≤ 4096 ∧
        e.Fields.length ≤ 25 ∧
        ∀ f ∈ e.Fields,
          TrimSpace f.Name ≠ [] ∧ TrimSpace f.Value ≠ [] ∧
          (TrimSpace f.Name).length ≤ 256 ∧
          (TrimSpace f.Value).length ≤ 1024) ∧
      (m.Embeds.map fun e =>
        e.Title.length + e.Description.length +
          (e.Fields.map fun f =>
            (TrimSpace f.Name).length + (TrimSpace f.Value).length).sum).sum
        ≤ 5000 :=
  validateDiscordMessage_iff m

/-- C2, as stated, fails: the message whose only embed has a title of exactly
256 characters, 256 times the letter `é`, no description and no fields, is
rejected: the validator compares `len(embed.Title)`, the 512 bytes of this
title, with 256. -/
theorem accented_title_rejected :
    (accentedTitleMessage 256).Embeds = [accentedTitleEmbed 256] ∧
    (accentedTitleEmbed 256).Description = [] ∧
    (accentedTitleEmbed 256).Fields = [] ∧
    charCount (accentedTitleEmbed 256).Title = 256 ∧
    (accentedTitleEmbed 256).Title.length = 512 ∧
    validateDiscordMessage (accentedTitleMessage 256) = false := by
  refine ⟨rfl, rfl, rfl, accentedTitle_charCount 256, ?_, ?_⟩
  · show (accentedTitle 256).length = 512
    rw [accentedTitle_length]
  · apply title_too_long_rejected _ (accentedTitleEmbed 256) (List.mem_singleton.mpr rfl)
    show 256 < (accentedTitle 256).length
    rw [accentedTitle_length]
    decide

/-- C2, amended: a message whose only embed has a title, no description and no
fields is accepted when the title is exactly 256 bytes long, in particular
when it has exactly 256 characters that are all ASCII, and rejected when the
title is 257 bytes long; a message with any embed whose title is longer than
256 bytes, in particular longer than 256 characters, is rejected. -/
theorem validateDiscordMessage_title_limit :
    (∀ (m : DiscordMessage) (e : DiscordEmbed), m.Embeds = [e] →
      e.Description = [] → e.Fields = [] → e.Title.length = 256 →
      validateDiscordMessage m = true) ∧
    (∀ (m : DiscordMessage) (e : DiscordEmbed), m.Embeds = [e] →
      e.Description = [] → e.Fields = [] → (∀ c ∈ e.Title, c < 0x80) →
      charCount e.Title = 256 → validateDiscordMessage m = true) ∧
    (∀ (m : DiscordMessage) (e : DiscordEmbed), m.Embeds = [e] →
      e.Description = [] → e.Fields = [] → e.Title.length = 257 →
      validateDiscordMessage m = false) ∧
    (∀ (m : DiscordMessage) (e : DiscordEmbed), e ∈ m.Embeds →
      256 < e.Title.length → validateDiscordMessage m = false) ∧
    (∀ (m : DiscordMessage) (e : DiscordEmbed), e ∈ m.Embeds →
      256 < charCount e.Title → validateDiscordMessage m = false) := by
  have hacc : ∀ (m : DiscordMessage) (e : DiscordEmbed), m.Embeds = [e] →
      e.Description = [] → e.Fields = [] → e.Title.length = 256 →
      validateDiscordMessage m = true := by
    intro m e hm hd hf ht
    rw [validateDiscordMessage_iff]
    have hne : e.Title ≠ [] := by
      intro h; rw [h] at ht; simp at ht
    refine ⟨Or.inr (by simp [hm]), by simp [hm], ?_, ?_⟩
    · intro e' he'
      rw [hm, List.mem_singleton] at he'
      subst he'
      exact ⟨Or.inl hne, by omega, by simp [hd], by simp [hf], by simp [hf]⟩
    · simp [trimmedMessageSize, trimmedEmbedSize, trimmedFieldsSize, hm, hd, hf, ht]
  refine ⟨hacc, ?_, ?_, title_too_long_rejected, ?_⟩
  · intro m e hm hd hf hascii hc
    rw [charCount_of_ascii _ hascii] at hc
    exact hacc m e hm hd hf hc
  · intro m e hm _ _ ht
    exact title_too_long_rejected m e (by simp [hm]) (by omega)
  · intro m e he hc
    have := charCount_le_length e.Title
    exact title_too_long_rejected m e he (by omega)

/-- Witness for C2 (amended): the message whose only embed is a title of 256
letters `A` is accepted, by its bytes and by its ASCII characters; the ones
with 257 and 300 letters are rejected, and so is the one with 257 letters
`é`. -/
theorem validateDiscordMessage_title_limit_witness :
    validateDiscordMessage (titleOnlyMessage 256) = true ∧
    validateDiscordMessage (titleOnlyMessage 256) = true ∧
    validateDiscordMessage (titleOnlyMessage 257) = false ∧
    validateDiscordMessage (titleOnlyMessage 300) = false ∧
    validateDiscordMessage (accentedTitleMessage 257) = false :=
  have hascii : ∀ c ∈ (titleOnlyEmbed 256).Title, c < 0x80 := fun c hc => by
    rw [List.eq_of_mem_replicate hc]; decide
  ⟨validateDiscordMessage_title_limit.1 (titleOnlyMessage 256)
      (titleOnlyEmbed 256) rfl rfl rfl (titleOnlyEmbed_length 256),
   validateDiscordMessage_title_limit.2.1 (titleOnlyMessage 256)
      (titleOnlyEmbed 256) rfl rfl rfl hascii
      (by rw [charCount_of_ascii _ hascii]; exact titleOnlyEmbed_length 256),
   validateDiscordMessage_title_limit.2.2.1 (titleOnlyMessage 257)
      (titleOnlyEmbed 257) rfl rfl rfl (titleOnlyEmbed_length 257),
   validateDiscordMessage_title_limit.2.2.2.1 (titleOnlyMessage 300)
      (titleOnlyEmbed 300) (List.mem_singleton.mpr rfl)
      (by rw [titleOnlyEmbed_length]; decide),
   validateDiscordMessage_title_limit.2.2.2.2 (accentedTitleMessage 257)
      (accentedTitleEmbed 257) (List.mem_singleton.mpr rfl)
      (by show 256 < charCount (accentedTitle 257)
          rw [accentedTitle_charCount]; decide)⟩

/-- C3, as stated, fails: `paddedMessage 5000` stores a field value of 5001
bytes (the summed stored lengths are 5003), and the validator accepts it,
because it measures field names and values after trimming. -/
theorem stored_size_not_bounded :
    validateDiscordMessage (paddedMessage 5000) = true ∧
    5000 < storedMessageSize (paddedMessage 5000) := by
  constructor
  · exact paddedMessage_accepted 5000
  · rw [paddedMessage_storedSize]; decide

/-- C3, amended: a message whose summed title, description and trimmed field
name and value lengths exceed 5000 is rejected; so every accepted message has
such a sum of at most 5000, below the platform cap of 6000. -/
theorem validateDiscordMessage_trimmed_size_bound (m : DiscordMessage) :
    (5000 < trimmedMessageSize m → validateDiscordMessage m = false) ∧
    (validateDiscordMessage m = true →
      trimmedMessageSize m ≤ 5000 ∧ trimmedMessageSize m < 6000) := by
  have key : validateDiscordMessage m = true → trimmedMessageSize m ≤ 5000 :=
    fun h => ((validateDiscordMessage_iff m).mp h).2.2.2
  constructor
  · intro h
    cases hv : validateDiscordMessage m with
    | false => rfl
    | true => have := key hv; omega
  · intro h
    have := key h
    exact ⟨this, by omega⟩

/-- Witness for C3 (amended): two embeds with descriptions of 3000 bytes each
sum to 6000 and the message is rejected. -/
theorem validateDiscordMessage_trimmed_size_bound_witness :
    5000 < trimmedMessageSize (twoLongDescriptions 3000) ∧
    validateDiscordMessage (twoLongDescriptions 3000) = false :=
  have h : 5000 < trimmedMessageSize (twoLongDescriptions 3000) := by
    rw [twoLongDescriptions_trimmedSize]; decide
  ⟨h, (validateDiscordMessage_trimmed_size_bound (twoLongDescriptions 3000)).1 h⟩

/-! ## Claims about truncation -/

/-- C5: for `max ≥ 4`, `truncateString s max` returns a string of length at
most `max`; it is `s` itself when `len(s) ≤ max`, and otherwise the first
`max-3` positions of `s` followed by `"..."`, of length exactly `max`. -/
theorem truncateString_spec (s : GoString) (max : Int) (h : 4 ≤ max) :
    ∃ r, truncateString s max = some r ∧
      (r.length : Int) ≤ max ∧
      ((s.length : Int) ≤ max → r = s) ∧
      (max < (s.length : Int) →
        r = s.take (max - 3).toNat ++ ascii "..." ∧ (r.length : Int) = max) := by
  by_cases hle : (s.length : Int) ≤ max
  · exact ⟨s, by simp [truncateString, hle], hle, fun _ => rfl,
      fun hlt => absurd hle (by omega)⟩
  · have h3 : ¬ (max - 3 < 0) := by omega
    refine ⟨s.take (max - 3).toNat ++ ascii "...", ?_, ?_, ?_, ?_⟩
    · simp [truncateString, hle, h3, ellipsis]
    · have hl := truncated_length s max (by omega) (by omega)
      omega
    · intro h'; exact absurd h' hle
    · intro _
      exact ⟨rfl, truncated_length s max (by omega) (by omega)⟩

/-- Witness for C5 at the string `abcdefgh` and `max = 5`. -/
theorem truncateString_spec_witness :
    ∃ r, truncateString (ascii "abcdefgh") 5 = some r ∧
      (r.length : Int) ≤ 5 ∧
      (((ascii "abcdefgh").length : Int) ≤ 5 → r = ascii "abcdefgh") ∧
      ((5 : Int) < ((ascii "abcdefgh").length : Int) →
        r = (ascii "abcdefgh").take ((5 : Int) - 3).toNat ++ ascii "..." ∧
          (r.length : Int) = 5) :=
  truncateString_spec (ascii "abcdefgh") 5 (by decide)

/-- C6: `truncateString` is idempotent for `max ≥ 4`: the call returns a
string, and truncating that string again with the same `max` returns it
unchanged. -/
theorem truncateString_idempotent (s : GoString) (max : Int) (h : 4 ≤ max) :
    ∃ r, truncateString s max = some r ∧ truncateString r max = some r := by
  by_cases hle : (s.length : Int) ≤ max
  · exact ⟨s, by simp [truncateString, hle], by simp [truncateString, hle]⟩
  · have h3 : ¬ (max - 3 < 0) := by omega
    have hl := truncated_length s max (by omega) (by omega)
    refine ⟨s.take (max - 3).toNat ++ ascii "...", ?_, ?_⟩
    · simp [truncateString, hle, h3, ellipsis]
    · have : ((s.take (max - 3).toNat ++ ascii "...").length : Int) ≤ max := by
        omega
      simp only [truncateString, this, if_true]

/-- Witness for C6 at the string `abcdefgh` and `max = 5`. -/
theorem truncateString_idempotent_witness :
    ∃ r, truncateString (ascii "abcdefgh") 5 = some r ∧
      truncateString r 5 = some r :=
  truncateString_idempotent (ascii "abcdefgh") 5 (by decide)

/-! ## Claims about the sorted-pairs view -/

/-- C4: for a key/value map, `SortedPairs` contains each entry of the map
exactly once (each key once, paired with its value), the key `alertname`, when
present, is at position 0 and the other keys follow in strictly ascending
lexical order; the result is the same for every enumeration order of the
map's entries. -/
theorem SortedPairs_spec (kv : KV) (h : kv.WellFormed) :
    (kv.SortedPairs.map fun p => (p.Name, p.Value)).Perm kv ∧
    (kv.SortedPairs.map Pair.Name).Nodup ∧
    (∃ others, kv.SortedPairs.map Pair.Name =
        (if AlertNameLabel ∈ kv.map Prod.fst then [AlertNameLabel] else []) ++
          others ∧
      AlertNameLabel ∉ others ∧
      others.Pairwise (fun a b => strLess a b = true)) ∧
    (∀ kv' : KV, kv'.Perm kv → kv'.SortedPairs = kv.SortedPairs) := by
  refine ⟨SortedPairs_entries_perm kv h, ?_, ?_, ?_⟩
  · exact ((SortedPairs_names_perm kv h).nodup_iff).mpr h
  · refine ⟨sortStrings (otherKeys kv), SortedPairs_names kv h, ?_, ?_⟩
    · intro hc
      have := (sortStrings_perm (otherKeys kv)).mem_iff.mp hc
      simp [otherKeys] at this
    · exact sortStrings_strict _ (h.filter _)
  · intro kv' hp
    exact SortedPairs_perm_invariant kv kv' h hp

/-- Witness for C4 at the label set `severity, alertname, instance` and its
reverse enumeration. -/
theorem SortedPairs_spec_witness :
    exampleLabels.WellFormed ∧
    (exampleLabels.SortedPairs.map fun p => (p.Name, p.Value)).Perm exampleLabels ∧
    exampleLabels.SortedPairs.map Pair.Name =
      [ascii "alertname", ascii "instance", ascii "severity"] ∧
    KV.SortedPairs exampleLabels.reverse = exampleLabels.SortedPairs :=
  have hwf : exampleLabels.WellFormed := by unfold KV.WellFormed; decide
  ⟨hwf, (SortedPairs_spec exampleLabels hwf).1, by decide,
    (SortedPairs_spec exampleLabels hwf).2.2.2 exampleLabels.reverse
      (List.reverse_perm _)⟩

/-! ## Claims about the label formatter -/

/-- C7, as stated, fails: for the label set `k: "x\ny"` the output splits
into the two lines `• k: x` and `y`, and the second line neither begins with
the bullet nor is the marker. -/
theorem newline_value_breaks_lines :
    newlineLabels.WellFormed ∧
    outputLines (getFormattedLabels newlineLabels) =
      [bulletSpace ++ ascii "k: x", ascii "y"] ∧
    bulletSpace.isPrefixOf (ascii "y") = false ∧
    ascii "y" ≠ andMoreMarker := by
  refine ⟨?_, ?_, ?_, ?_⟩
  · unfold KV.WellFormed; decide
  · decide
  · decide
  · decide

/-- C7, amended: for a label set in which no label name and no trimmed label
value contains a newline, the lines of the output of `getFormattedLabels` are
at most 3 lines that each begin with `"• "` and render a renderable pair of
the sorted pairs, optionally followed by exactly one final `"• ...and more"`
line, and nothing else. -/
theorem getFormattedLabels_lines (kv : KV) (h : kv.WellFormed)
    (hnl : ∀ e ∈ kv, 0x0A ∉ e.1 ∧ 0x0A ∉ TrimSpace e.2) :
    ∃ (shown : List Pair) (markerLines : List GoString),
      outputLines (getFormattedLabels kv) = shown.map pairLine ++ markerLines ∧
      shown.length ≤ 3 ∧
      (∀ p ∈ shown, p ∈ kv.SortedPairs ∧ renderable p = true ∧
        bulletSpace.isPrefixOf (pairLine p) = true) ∧
      (markerLines = [] ∨ markerLines = [andMoreMarker]) := by
  refine ⟨shownPairs kv.SortedPairs,
    if markerDue kv.SortedPairs 0 = true then [andMoreMarker] else [], ?_, ?_, ?_, ?_⟩
  · rw [getFormattedLabels_eq]
    apply outputLines_joinLines
    intro l hl
    rcases List.mem_append.mp hl with hl | hl
    · obtain ⟨p, hp, rfl⟩ := List.mem_map.mp hl
      have hps : p ∈ kv.SortedPairs :=
        (List.mem_filter.mp (List.mem_of_mem_take hp)).1
      have hkv := (mem_SortedPairs_iff kv h p).mp hps
      exact ⟨pairLine_no_newline p (hnl _ hkv).1 (hnl _ hkv).2, pairLine_ne_nil p⟩
    · have hl' : l = andMoreMarker := by
        by_cases hm : markerDue kv.SortedPairs 0 = true
        · rw [if_pos hm] at hl; exact List.mem_singleton.mp hl
        · rw [if_neg hm] at hl; cases hl
      subst hl'
      exact ⟨by decide, by decide⟩
  · unfold shownPairs
    rw [List.length_take]
    omega
  · intro p hp
    refine ⟨(List.mem_filter.mp (List.mem_of_mem_take hp)).1,
      shownPairs_renderable _ p hp, ?_⟩
    rw [ List.isPrefixOf_iff_prefix]
    exact ⟨p.Name ++ ascii ": " ++ shownValue p, by simp [pairLine]⟩
  · by_cases hm : markerDue kv.SortedPairs 0 = true
    · right; rw [if_pos hm]
    · left; rw [if_neg hm]

/-- Witness for C7 (amended) at the label set `severity, alertname,
instance`. -/
theorem getFormattedLabels_lines_witness :
    ∃ (shown : List Pair) (markerLines : List GoString),
      outputLines (getFormattedLabels exampleLabels) =
        shown.map pairLine ++ markerLines ∧
      shown.length ≤ 3 ∧
      (∀ p ∈ shown, p ∈ exampleLabels.SortedPairs ∧ renderable p = true ∧
        bulletSpace.isPrefixOf (pairLine p) = true) ∧
      (markerLines = [] ∨ markerLines = [andMoreMarker]) :=
  getFormattedLabels_lines exampleLabels (by unfold KV.WellFormed; decide)
    (by decide)

/-- C8: `getFormattedLabels` returns the empty string exactly when every
label value, after trimming, is empty or one of `map[]`, `(instance)`,
`(instance )`, `undefined`, `null`; it returns the empty string for the empty
label set, and it never returns the bare marker `"• ...and more"`. -/
theorem getFormattedLabels_empty_iff (kv : KV) (h : kv.WellFormed) :
    (getFormattedLabels kv = [] ↔
      ∀ e ∈ kv, TrimSpace e.2 = [] ∨ TrimSpace e.2 = ascii "map[]" ∨
        TrimSpace e.2 = ascii "(instance)" ∨ TrimSpace e.2 = ascii "(instance )" ∨
        TrimSpace e.2 = ascii "undefined" ∨ TrimSpace e.2 = ascii "null") ∧
    getFormattedLabels [] = [] ∧
    getFormattedLabels kv ≠ andMoreMarker := by
  have hmk : (0x3A : Nat) ∉ andMoreMarker := by decide
  have hshown : shownPairs kv.SortedPairs = [] ↔
      ∀ e ∈ kv, IsPlaceholder (TrimSpace e.2) := by
    rw [shownPairs_eq_nil_iff]
    constructor
    · rintro hall ⟨k, v⟩ he
      have hp : (⟨k, v⟩ : Pair) ∈ kv.SortedPairs :=
        (mem_SortedPairs_iff kv h ⟨k, v⟩).mpr he
      have hr := hall _ hp
      by_contra hcon
      have := (renderable_iff ⟨k, v⟩).mpr hcon
      rw [hr] at this; cases this
    · intro hall p hp
      have he := (mem_SortedPairs_iff kv h p).mp hp
      cases hr : renderable p with
      | false => rfl
      | true => exact absurd (hall _ he) ((renderable_iff p).mp hr)
  refine ⟨?_, by decide, ?_⟩
  · change getFormattedLabels kv = [] ↔ ∀ e ∈ kv, IsPlaceholder (TrimSpace e.2)
    rw [← hshown]
    rcases getFormattedLabels_cases kv with ⟨hs, ho⟩ | ⟨hs, ho⟩
    · exact ⟨fun _ => hs, fun _ => ho⟩
    · constructor
      · intro hnil; rw [hnil] at ho; cases ho
      · intro hnil; exact absurd hnil hs
  · rcases getFormattedLabels_cases kv with ⟨_, ho⟩ | ⟨_, ho⟩
    · rw [ho]; decide
    · intro heq; rw [heq] at ho; exact hmk ho

/-- Witness for C8 at the all-placeholder label set `a: " null ", b: "map[]"`. -/
theorem getFormattedLabels_empty_iff_witness :
    getFormattedLabels [(ascii "a", ascii " null "), (ascii "b", ascii "map[]")] = [] :=
  (getFormattedLabels_empty_iff
      [(ascii "a", ascii " null "), (ascii "b", ascii "map[]")]
      (by unfold KV.WellFormed; decide)).1.mpr (by decide)

/-- C9, as stated, fails: the label set `a: 1, b: 2, c: 3, d: ""` has exactly
three renderable pairs, and the output ends with the marker line. -/
theorem marker_without_fourth_renderable :
    threeAndEmptyLabels.WellFormed ∧
    (outputLines (getFormattedLabels threeAndEmptyLabels)).getLast? =
      some andMoreMarker ∧
    (threeAndEmptyLabels.SortedPairs.filter renderable).length = 3 := by
  refine ⟨?_, ?_, ?_⟩
  · unfold KV.WellFormed; decide
  · decide
  · decide

/-- C9, amended: the output of `getFormattedLabels` is the pair lines followed
by the final marker line `"• ...and more"` if and only if, in sorted-pairs
order, some pair (renderable or not) comes after three renderable pairs;
otherwise the output is the pair lines alone. -/
theorem getFormattedLabels_marker_iff (kv : KV) :
    (getFormattedLabels kv =
        joinLines ((shownPairs kv.SortedPairs).map pairLine ++ [andMoreMarker]) ↔
      ∃ pre p rest, kv.SortedPairs = pre ++ p :: rest ∧
        3 ≤ (pre.filter renderable).length) ∧
    ((¬ ∃ pre p rest, kv.SortedPairs = pre ++ p :: rest ∧
        3 ≤ (pre.filter renderable).length) →
      getFormattedLabels kv = joinLines ((shownPairs kv.SortedPairs).map pairLine)) := by
  have hiff := markerDue_zero_iff kv.SortedPairs
  unfold PairsRemain at hiff
  rw [← hiff, getFormattedLabels_eq]
  constructor
  · constructor
    · intro heq
      by_contra hm
      rw [if_neg hm, List.append_nil, joinLines_append_singleton] at heq
      have hlen := congrArg List.length heq
      have hmlen : andMoreMarker.length = 15 := by decide
      rw [List.length_append, hmlen] at hlen
      by_cases hnil : (shownPairs kv.SortedPairs).map pairLine = []
      · rw [hnil] at hlen
        simp [joinLines, linesBlock] at hlen
      · rw [linesBlock_eq_joinLines _ hnil, List.length_append] at hlen
        simp at hlen
        omega
    · intro hm
      rw [if_pos hm]
  · intro hm
    rw [if_neg hm, List.append_nil]

/-- Witness for C9 (amended): in the label set `a: 1, b: 2, c: 3, d: ""` the
pair `d` comes after three renderable pairs, and the output is the three pair
lines followed by the marker line. -/
theorem getFormattedLabels_marker_iff_witness :
    getFormattedLabels threeAndEmptyLabels =
      joinLines ((shownPairs threeAndEmptyLabels.SortedPairs).map pairLine ++
        [andMoreMarker]) :=
  (getFormattedLabels_marker_iff threeAndEmptyLabels).1.mpr
    ⟨threeAndEmptyLabels.SortedPairs.take 3, ⟨ascii "d", []⟩, [],
      by decide, by decide⟩

/-- C10: the output of `getFormattedLabels` is, in order, one line for each of
the first `min(3, r)` renderable pairs of `SortedPairs`, each line being
`"• " + name + ": " + v` with `v` the trimmed value when it is at most 25 long
and otherwise its first 22 positions followed by `"..."`, then possibly the
marker line; the lines are separated by single newlines and there is no
trailing newline. -/
theorem getFormattedLabels_pair_lines (kv : KV) :
    ∃ markerLines : List GoString,
      (markerLines = [] ∨ markerLines = [andMoreMarker]) ∧
      getFormattedLabels kv =
        joinLines
          (((kv.SortedPairs.filter renderable).take 3).map (fun p =>
              bulletSpace ++ p.Name ++ ascii ": " ++
                (if (TrimSpace p.Value).length ≤ 25 then TrimSpace p.Value
                 else (TrimSpace p.Value).take 22 ++ ascii "...")) ++
            markerLines) ∧
      ((kv.SortedPairs.filter renderable).take 3).length =
        min 3 (kv.SortedPairs.filter renderable).length := by
  refine ⟨if markerDue kv.SortedPairs 0 = true then [andMoreMarker] else [],
    ?_, ?_, List.length_take _ _⟩
  · by_cases hm : markerDue kv.SortedPairs 0 = true
    · right; rw [if_pos hm]
    · left; rw [if_neg hm]
  · exact getFormattedLabels_eq kv

/-! ## Claims about titles and the message assembler -/

/-- C11: for the firing alert with annotations `summary: Disk full, severity:
critical` and labels `alertname: DiskSpace, instance: host1, severity:
critical` (in any enumeration order of the two maps), the embed assembled by
`sendWebhook` has title `Disk full [critical]`, colour `ColorRed`
(`0xd00000`), description `Disk full` and exactly one field, `Details`, with
the three label lines, `alertname` first, and no marker; it passes the test
for meaningful content, is handed to `postMessageToDiscord` and is accepted
by the validator. -/
theorem sendWebhook_disk_alert (annotations labels : KV)
    (ha : annotations.Perm diskAnnotations) (hl : labels.Perm exampleLabels)
    (enumerate : List (GoString × List AlertManagerAlert) →
      List (GoString × List AlertManagerAlert))
    (he : ∀ l, (enumerate l).Perm l) (cfg : Config) :
    assembleEmbed (firingAlert annotations labels) (findColor (ascii "firing")) =
      some { Title := ascii "Disk full [critical]", Description := ascii "Disk full",
             URL := [], Color := 0xd00000,
             Fields := [{ Name := ascii "Details",
                          Value := bulletSpace ++ ascii "alertname: DiskSpace\n" ++
                            bulletSpace ++ ascii "instance: host1\n" ++
                            bulletSpace ++ ascii "severity: critical",
                          Inline := false }] } ∧
    findColor (ascii "firing") = ColorRed ∧
    hasMeaningfulContent diskEmbed = true ∧
    sendWebhook (notificationOf [firingAlert annotations labels]) enumerate =
      some [{ status := ascii "firing", color := ColorRed, embeds := [diskEmbed] }] ∧
    validateDiscordMessage (dispatchedMessage cfg [diskEmbed]) = true := by
  have hwa : diskAnnotations.WellFormed := by unfold KV.WellFormed; decide
  have hwl : exampleLabels.WellFormed := by unfold KV.WellFormed; decide
  have hcongr : assembleEmbed (firingAlert annotations labels) (findColor (ascii "firing")) =
      assembleEmbed diskAlert (findColor (ascii "firing")) :=
    assembleEmbed_congr _ _ _
      (fun k => KV.get_perm diskAnnotations annotations hwa ha k)
      (fun k => KV.get_perm exampleLabels labels hwl hl k)
      (SortedPairs_perm_invariant exampleLabels labels hwl hl)
  have heval : assembleEmbed diskAlert (findColor (ascii "firing")) = some diskEmbed := by
    decide
  have hgate : hasMeaningfulContent diskEmbed = true := by decide
  have hemb : assembleEmbed (firingAlert annotations labels) (findColor (ascii "firing")) =
      some diskEmbed := hcongr.trans heval
  refine ⟨hemb, by decide, hgate, ?_, ?_⟩
  · have hgroups : groupAlerts [firingAlert annotations labels] =
        [(ascii "firing", [firingAlert annotations labels])] := rfl
    have henum := List.perm_singleton.mp (he [(ascii "firing", [firingAlert annotations labels])])
    unfold sendWebhook
    rw [show (notificationOf [firingAlert annotations labels]).Alerts =
      [firingAlert annotations labels] from rfl, hgroups, henum]
    rw [sendGroups_eq _ (by
      intro g hg a hga
      simp only [List.mem_singleton] at hg
      subst hg
      simp only [List.mem_singleton] at hga
      subst hga; rfl)]
    have hcalls : callsFor (firingAlert annotations labels) =
        [{ status := ascii "firing", color := ColorRed, embeds := [diskEmbed] }] := by
      unfold callsFor
      rw [show (firingAlert annotations labels).Status = ascii "firing" from rfl, hemb]
      dsimp only
      rw [if_pos ((hasMeaningfulContent_iff diskEmbed).mp hgate)]
      rfl
    simp [hcalls]
  · rw [validate_dispatchedMessage]
    decide

/-- Witness for C11 with the two maps enumerated in reverse order. -/
theorem sendWebhook_disk_alert_witness :
    sendWebhook (notificationOf [firingAlert diskAnnotations.reverse exampleLabels.reverse])
        List.reverse =
      some [{ status := ascii "firing", color := ColorRed, embeds := [diskEmbed] }] :=
  (sendWebhook_disk_alert diskAnnotations.reverse exampleLabels.reverse
    (List.reverse_perm _) (List.reverse_perm _) List.reverse
    (fun l => List.reverse_perm l) twoUrlConfig).2.2.2.1

/-- C12, as stated, fails: for the summary `Disk full` and a severity label
that is a single space, `getAlertTitle` returns `Disk full` without a suffix,
while the stated title has the suffix ` [ ]`; and for the summary `Disk full`
with a trailing space and the severity `critical`, `getAlertTitle` returns
`Disk full [critical]`, while the stated concatenation keeps both spaces. -/
theorem title_trims_its_parts :
    getAlertTitle blankSeverityAlert = ascii "Disk full" ∧
    statedTitle blankSeverityAlert = ascii "Disk full [ ]" ∧
    getAlertTitle trailingSpaceAlert = ascii "Disk full [critical]" ∧
    statedTitle trailingSpaceAlert = ascii "Disk full  [critical]" := by
  decide

/-- C12, amended: `getAlertTitle` returns the trimmed concatenation of a base
and a suffix, where the base is the trimmed summary annotation if that
annotation is non-empty, otherwise the trimmed `alertname` label if that label
is non-empty, otherwise the literal `Alert Notification`, and the suffix is
`" [" + severity + "]"` with the trimmed severity label whenever that label is
non-empty after trimming (and empty otherwise); if the concatenation is empty
the result is `Alert Notification`. -/
theorem getAlertTitle_spec (alert : AlertManagerAlert) :
    getAlertTitle alert =
      (let base :=
        if alert.Annotations.get (ascii "summary") ≠ [] then
          TrimSpace (alert.Annotations.get (ascii "summary"))
        else if alert.Labels.get (ascii "alertname") ≠ [] then
          TrimSpace (alert.Labels.get (ascii "alertname"))
        else ascii "Alert Notification"
      let suffix :=
        if TrimSpace (alert.Labels.get (ascii "severity")) ≠ [] then
          ascii " [" ++ TrimSpace (alert.Labels.get (ascii "severity")) ++ ascii "]"
        else []
      if TrimSpace (base ++ suffix) = [] then ascii "Alert Notification"
      else TrimSpace (base ++ suffix)) := by
  unfold getAlertTitle
  have hsev : (if alert.Labels.get (ascii "severity") ≠ [] then
        if TrimSpace (alert.Labels.get (ascii "severity")) ≠ [] then
          ascii " [" ++ TrimSpace (alert.Labels.get (ascii "severity")) ++ ascii "]"
        else []
      else ([] : GoString)) =
      if TrimSpace (alert.Labels.get (ascii "severity")) ≠ [] then
        ascii " [" ++ TrimSpace (alert.Labels.get (ascii "severity")) ++ ascii "]"
      else [] := by
    by_cases h : alert.Labels.get (ascii "severity") = []
    · simp [h, TrimSpace_nil]
    · simp [h]
  dsimp only
  rw [← hsev]
  by_cases hs : alert.Annotations.get (ascii "summary") = [] <;>
  by_cases hn : alert.Labels.get (ascii "alertname") = [] <;>
  by_cases hv : alert.Labels.get (ascii "severity") = [] <;>
  by_cases hs' : TrimSpace (alert.Annotations.get (ascii "summary")) = [] <;>
  by_cases hn' : TrimSpace (alert.Labels.get (ascii "alertname")) = [] <;>
  by_cases hv' : TrimSpace (alert.Labels.get (ascii "severity")) = [] <;>
  simp [hs, hn, hv, hs', hn', hv']

/-- C13: for every alert the embed is assembled, its title is not empty and
not blank and is at most 250 long, hence below the validator's limit of 256,
and its description (empty when unset) is at most 1000 long. -/
theorem assembleEmbed_title_description_bounds (alert : AlertManagerAlert)
    (color : Nat) :
    ∃ e, assembleEmbed alert color = some e ∧
      e.Title ≠ [] ∧ TrimSpace e.Title ≠ [] ∧
      e.Title.length ≤ 250 ∧ e.Title.length < 256 ∧
      e.Description.length ≤ 1000 := by
  obtain ⟨t, ht, htrim, hlen⟩ := embedTitle_spec alert
  obtain ⟨d, hd, hdlen⟩ := embedDescription_spec alert
  obtain ⟨t', d', f1, f2, ht', hd', _, _, he⟩ := assembleEmbed_spec alert color
  rw [ht] at ht'; rw [hd] at hd'
  cases ht'; cases hd'
  have hlt : t.length < 256 := by omega
  refine ⟨_, he, ?_, htrim, hlen, hlt, hdlen⟩
  intro hnil
  have hnil' : t = [] := hnil
  apply htrim
  rw [hnil']; exact TrimSpace_nil

/-- C14 fails on the code: for the summary `(instance(instance) )` the embed
assembled by `sendWebhook` has the title `(instance )`, which contains the
token `(instance )`; the embed passes the test for meaningful content and is
handed to `postMessageToDiscord`. -/
theorem nested_token_survives :
    assembleEmbed nestedTokenAlert (findColor nestedTokenAlert.Status) =
      some { Title := ascii "(instance )", Description := ascii "(instance )",
             URL := [], Color := ColorRed, Fields := [] } ∧
    Contains (ascii "(instance )") (ascii "(instance )") = true ∧
    callsFor nestedTokenAlert =
      [{ status := ascii "firing", color := ColorRed,
         embeds := [{ Title := ascii "(instance )", Description := ascii "(instance )",
                      URL := [], Color := ColorRed, Fields := [] }] }] := by
  decide

/-- C15: `sendWebhook` hands to `postMessageToDiscord`, for every enumeration
order of the status groups, exactly one call for each alert whose embed has a
trimmed title longer than 3 and a trimmed description longer than 3 or at
least one field, that call carrying exactly that one embed, and nothing for
any other alert; a notification without alerts produces no call. -/
theorem sendWebhook_one_call_per_alert (data : AlertManagerData)
    (enumerate : List (GoString × List AlertManagerAlert) →
      List (GoString × List AlertManagerAlert))
    (h : ∀ l, (enumerate l).Perm l) :
    ∃ calls, sendWebhook data enumerate = some calls ∧
      calls.Perm (data.Alerts.flatMap callsFor) ∧
      (∀ a ∈ data.Alerts, ∃ e, assembleEmbed a (findColor a.Status) = some e ∧
        callsFor a =
          if (TrimSpace e.Title).length > 3 ∧
              ((TrimSpace e.Description).length > 3 ∨ e.Fields.length > 0) then
            [{ status := a.Status, color := findColor a.Status, embeds := [e] }]
          else []) ∧
      (data.Alerts = [] → calls = []) := by
  obtain ⟨calls, hc, hp⟩ := sendWebhook_calls data enumerate h
  refine ⟨calls, hc, hp, ?_, ?_⟩
  · intro a _
    obtain ⟨e, he, _, hcalls⟩ := callsFor_eq a
    exact ⟨e, he, hcalls⟩
  · intro hnil
    rw [hnil] at hp
    exact List.perm_nil.mp hp

/-- Witness for C15: the notification without alerts produces no call, and the
notification with the one alert `diskAlert` produces one call. -/
theorem sendWebhook_one_call_per_alert_witness :
    sendWebhook (notificationOf []) List.reverse = some [] ∧
    ∃ calls, sendWebhook (notificationOf [diskAlert]) List.reverse = some calls ∧
      calls.Perm ((notificationOf [diskAlert]).Alerts.flatMap callsFor) :=
  ⟨by decide,
    (sendWebhook_one_call_per_alert (notificationOf [diskAlert]) List.reverse
      (fun l => List.reverse_perm l)).imp fun _ hc => ⟨hc.1, hc.2.1⟩⟩

/-- C16 fails on the code: for the alert whose summary and message
annotations are the same string, `Disk full` with a trailing space, the embed
assembled by `sendWebhook` has the description `Disk full` and a field
`Message` with the same value `Disk full`, and it is handed to
`postMessageToDiscord`.  The guard of the `Message` block compares the trimmed
message with the summary as it is stored; the same happens for the stored
message `Disk full` (`repeatedMessageAlert`).  On the analogous description
annotation, `Disk usage is high` with a trailing space, the `Description`
block, which compares with the description of the embed, adds no field. -/
theorem message_repeats_description :
    sameMessageAlert.Annotations.get (ascii "summary") ≠ [] ∧
    sameMessageAlert.Annotations.get (ascii "message") =
      sameMessageAlert.Annotations.get (ascii "summary") ∧
    assembleEmbed sameMessageAlert (findColor sameMessageAlert.Status) =
      some { Title := ascii "Disk full", Description := ascii "Disk full",
             URL := [], Color := ColorRed,
             Fields := [{ Name := ascii "Message", Value := ascii "Disk full",
                          Inline := false }] } ∧
    (callsFor sameMessageAlert).length = 1 ∧
    assembleEmbed repeatedMessageAlert (findColor repeatedMessageAlert.Status) =
      some { Title := ascii "Disk full", Description := ascii "Disk full",
             URL := [], Color := ColorRed,
             Fields := [{ Name := ascii "Message", Value := ascii "Disk full",
                          Inline := false }] } ∧
    (assembleEmbed trailingDescriptionAlert ColorRed).map (fun e => e.Description) =
      some (ascii "Disk usage is high") ∧
    (assembleEmbed trailingDescriptionAlert ColorRed).map (fun e => e.Fields) =
      some [] := by
  decide

/-- What the guard of the `Message` block does ensure: for every alert whose
summary annotation is non-empty, if the embed contains a field named
`Message`, then that field's value is non-empty and the trimmed message
annotation is different from the summary annotation as it is stored. -/
theorem message_field_differs_from_summary (alert : AlertManagerAlert) (color : Nat)
    (e : DiscordEmbed) (f : DiscordEmbedField)
    (_hs : alert.Annotations.get (ascii "summary") ≠ [])
    (he : assembleEmbed alert color = some e) (hf : f ∈ e.Fields)
    (hn : f.Name = ascii "Message") :
    f.Value ≠ [] ∧
    TrimSpace (alert.Annotations.get (ascii "message")) ≠
      alert.Annotations.get (ascii "summary") := by
  obtain ⟨t, d, f1, f2, _, _, hf1, hf2, he'⟩ := assembleEmbed_spec alert color
  rw [he] at he'
  cases he'
  obtain ⟨g1, hg1, hm⟩ := messageField_spec alert
  rw [hf1] at hg1; cases hg1
  obtain ⟨g2, hg2, hdsc⟩ := descriptionField_spec alert d
  rw [hf2] at hg2; cases hg2
  have hf' : f ∈ f1 ++ f2 ++ detailsField alert := hf
  rcases List.mem_append.mp hf' with h12 | h3
  · rcases List.mem_append.mp h12 with h1 | h2
    · rcases hm with hm | ⟨v, hv, hne, _, hdiff⟩
      · rw [hm] at h1; cases h1
      · rw [hv, List.mem_singleton] at h1
        subst h1
        exact ⟨hne, hdiff⟩
    · rcases hdsc with hd | ⟨v, hv, _, _⟩
      · rw [hd] at h2; cases h2
      · rw [hv, List.mem_singleton] at h2
        subst h2
        exact absurd (show ascii "Description" = ascii "Message" from hn) (by decide)
  · unfold detailsField at h3
    dsimp only at h3
    split at h3
    · rw [List.mem_singleton] at h3
      subst h3
      exact absurd (show ascii "Details" = ascii "Message" from hn) (by decide)
    · cases h3

/-- The guard of the `Message` block at the alert with summary `Disk full` and
message `Root volume at 95%`. -/
theorem message_field_differs_from_summary_witness :
    ascii "Root volume at 95%" ≠ [] ∧
    TrimSpace (messageAlert.Annotations.get (ascii "message")) ≠
      messageAlert.Annotations.get (ascii "summary") :=
  message_field_differs_from_summary messageAlert ColorRed
    { Title := ascii "Disk full", Description := ascii "Disk full", URL := [],
      Color := ColorRed,
      Fields := [{ Name := ascii "Message", Value := ascii "Root volume at 95%",
                   Inline := false }] }
    { Name := ascii "Message", Value := ascii "Root volume at 95%", Inline := false }
    (by decide) (by decide) (List.mem_singleton.mpr rfl) rfl

/-- C17 fails on the code: for the summary `Disk full` and the message
`undefined` the embed assembled by `sendWebhook` has the field `Message` with
the value `undefined`, a value that `isValidField` rejects; the embed is handed
to `postMessageToDiscord` and accepted by the validator. -/
theorem placeholder_field_dispatched :
    assembleEmbed undefinedMessageAlert (findColor undefinedMessageAlert.Status) =
      some { Title := ascii "Disk full", Description := ascii "Disk full",
             URL := [], Color := ColorRed,
             Fields := [{ Name := ascii "Message", Value := ascii "undefined",
                          Inline := false }] } ∧
    isValidField (ascii "Message") (ascii "undefined") = false ∧
    (callsFor undefinedMessageAlert).length = 1 ∧
    validateDiscordMessage (dispatchedMessage twoUrlConfig
      [{ Title := ascii "Disk full", Description := ascii "Disk full",
         URL := [], Color := ColorRed,
         Fields := [{ Name := ascii "Message", Value := ascii "undefined",
                      Inline := false }] }]) = true := by
  decide

/-- C18: `findColor` returns `ColorRed` (`0xd00000`) exactly for the status
`firing`, `ColorGreen` (`0x36A64F`) exactly for `resolved` and `ColorGrey`
(`0x95A5A6`) for every other status, among them the empty string and
`FIRING`; every embed that `sendWebhook` hands over carries `findColor` of
the status of the alert it was assembled from. -/
theorem findColor_spec :
    (∀ status : GoString,
      (findColor status = ColorRed ↔ status = ascii "firing") ∧
      (findColor status = ColorGreen ↔ status = ascii "resolved") ∧
      (findColor status = ColorGrey ↔
        status ≠ ascii "firing" ∧ status ≠ ascii "resolved")) ∧
    ColorRed = 0xd00000 ∧ ColorGreen = 0x36A64F ∧ ColorGrey = 0x95A5A6 ∧
    findColor [] = ColorGrey ∧ findColor (ascii "FIRING") = ColorGrey ∧
    (∀ (data : AlertManagerData)
        (enumerate : List (GoString × List AlertManagerAlert) →
          List (GoString × List AlertManagerAlert)),
      (∀ l, (enumerate l).Perm l) →
      ∃ calls, sendWebhook data enumerate = some calls ∧
        ∀ c ∈ calls, ∃ a ∈ data.Alerts, ∃ e,
          assembleEmbed a (findColor a.Status) = some e ∧
          c.embeds = [e] ∧ e.Color = findColor a.Status) := by
  refine ⟨?_, rfl, rfl, rfl, by decide, by decide, ?_⟩
  · intro status
    unfold findColor
    by_cases h1 : status = ascii "firing"
    · subst h1
      refine ⟨by simp, ?_, ?_⟩
      · constructor
        · intro h; revert h; decide
        · intro h; revert h; decide
      · constructor
        · intro h; revert h; decide
        · intro h; exact absurd rfl h.1
    · by_cases h2 : status = ascii "resolved"
      · subst h2
        refine ⟨?_, ?_, ?_⟩
        · constructor
          · intro h; revert h; decide
          · intro h; revert h; decide
        · simp [h1]
        · constructor
          · intro h; revert h; decide
          · intro h; exact absurd rfl h.2
      · rw [if_neg h1, if_neg h2]
        refine ⟨?_, ?_, ?_⟩
        · constructor
          · intro h; exact absurd h (by decide)
          · intro h; exact absurd h h1
        · constructor
          · intro h; exact absurd h (by decide)
          · intro h; exact absurd h h2
        · exact ⟨fun _ => ⟨h1, h2⟩, fun _ => rfl⟩
  · intro data enumerate h
    obtain ⟨calls, hc, hp⟩ := sendWebhook_calls data enumerate h
    refine ⟨calls, hc, ?_⟩
    intro c hcm
    obtain ⟨a, ha, hca⟩ := List.mem_flatMap.mp (hp.mem_iff.mp hcm)
    obtain ⟨e, he, hcol, hcalls⟩ := callsFor_eq a
    refine ⟨a, ha, e, he, ?_, hcol⟩
    rw [hcalls] at hca
    split at hca
    · rw [List.mem_singleton] at hca
      rw [hca]
    · cases hca

/-- Witness for C18 at the notification with the one alert `diskAlert`. -/
theorem findColor_spec_witness :
    ∃ calls, sendWebhook (notificationOf [diskAlert]) List.reverse = some calls ∧
      ∀ c ∈ calls, ∃ a ∈ (notificationOf [diskAlert]).Alerts, ∃ e,
        assembleEmbed a (findColor a.Status) = some e ∧
        c.embeds = [e] ∧ e.Color = findColor a.Status :=
  findColor_spec.2.2.2.2.2.2 (notificationOf [diskAlert]) List.reverse
    (fun l => List.reverse_perm l)

/-! ## Claims about the dispatcher -/

/-- C19: whatever the outcomes of the requests, for embeds whose message the
validator accepts (and `json.Marshal` serializes to `body`),
`postMessageToDiscord` makes exactly one request to the primary URL followed
by exactly one request to each additional URL in their configured order, all
with the same body, and returns; for a message the validator rejects it makes
no request. -/
theorem postMessageToDiscord_posts (cfg : Config)
    (marshal : DiscordMessage → Option GoString) (outcome : Nat → PostOutcome)
    (embeds : List DiscordEmbed) (box : Outbox) :
    (validateDiscordMessage (dispatchedMessage cfg embeds) = true →
      ∀ body, marshal (dispatchedMessage cfg embeds) = some body →
        (postMessageToDiscord cfg marshal outcome embeds box).posts =
          box.posts ++ (cfg.webhookURL, body) ::
            cfg.additionalWebhookURLs.map (fun u => (u, body))) ∧
    (validateDiscordMessage (dispatchedMessage cfg embeds) = false →
      postMessageToDiscord cfg marshal outcome embeds box = box) ∧
    (marshal (dispatchedMessage cfg embeds) = none →
      postMessageToDiscord cfg marshal outcome embeds box = box) := by
  refine ⟨?_, ?_, ?_⟩
  · intro hv body hb
    unfold postMessageToDiscord
    simp only [hv, hb, Bool.not_true, Bool.false_eq_true, if_false]
    rw [sendToAdditional_posts, sendToWebhook_posts]
    simp
  · intro hv
    unfold postMessageToDiscord
    simp only [hv, Bool.not_false, if_true]
  · intro hm
    unfold postMessageToDiscord
    simp only [hm]
    split <;> rfl

/-- Witness for C19: with two URLs, the first answering 500 and the second
200, both requests are made, in order, with the same body. -/
theorem postMessageToDiscord_posts_witness :
    (postMessageToDiscord twoUrlConfig (fun _ => some (ascii "{}")) firstFails
        [diskEmbed] { posts := [], log := [] }).posts =
      [(ascii "https://discord.com/api/webhooks/1/a", ascii "{}"),
       (ascii "https://discord.com/api/webhooks/2/b", ascii "{}")] :=
  (postMessageToDiscord_posts twoUrlConfig (fun _ => some (ascii "{}")) firstFails
    [diskEmbed] { posts := [], log := [] }).1 (by decide) (ascii "{}") rfl

/-! ## Claims about the field check -/

/-- What `isValidField` computes: `isValidField(name, value)` returns false
exactly when, after trimming, the name or the value is empty or equals one of `-`, `...`,
`No details available`, `map[]`, `(instance )`, `(instance)`, `undefined`,
`null`, or when the trimmed value, after removing every occurrence of `map[]`,
then of `(instance )`, then of `(instance)`, trimming after each removal, is
empty or contains `undefined` or `null`; in every other case it returns
true.  The cleaning is the one of the code, a single `ReplaceAll` for each
token in turn, which can leave a token behind. -/
theorem isValidField_eq_false_iff (name value : GoString) :
    isValidField name value = false ↔
      TrimSpace name = [] ∨ TrimSpace value = [] ∨
      TrimSpace name ∈ [ascii "-", ascii "...", ascii "No details available",
        ascii "map[]", ascii "(instance )", ascii "(instance)", ascii "undefined",
        ascii "null"] ∨
      TrimSpace value ∈ [ascii "-", ascii "...", ascii "No details available",
        ascii "map[]", ascii "(instance )", ascii "(instance)", ascii "undefined",
        ascii "null"] ∨
      TrimSpace (removeAll (TrimSpace (removeAll (TrimSpace (removeAll
        (TrimSpace value) (ascii "map[]"))) (ascii "(instance )")))
        (ascii "(instance)")) = [] ∨
      ascii "undefined" <:+: TrimSpace (removeAll (TrimSpace (removeAll (TrimSpace
        (removeAll (TrimSpace value) (ascii "map[]"))) (ascii "(instance )")))
        (ascii "(instance)")) ∨
      ascii "null" <:+: TrimSpace (removeAll (TrimSpace (removeAll (TrimSpace
        (removeAll (TrimSpace value) (ascii "map[]"))) (ascii "(instance )")))
        (ascii "(instance)")) := by
  have hinv := hitsInvalid_iff (TrimSpace name) (TrimSpace value) invalidContents
  unfold invalidContents at hinv
  unfold isValidField
  dsimp only
  by_cases h1 : TrimSpace name = [] ∨ TrimSpace value = []
  · rw [if_pos h1]
    simp only [true_iff]
    rcases h1 with h1 | h1
    · exact Or.inl h1
    · exact Or.inr (Or.inl h1)
  · rw [if_neg h1]
    simp only [not_or] at h1
    by_cases h2 : hitsInvalid (TrimSpace name) (TrimSpace value) invalidContents = true
    · rw [if_pos h2]
      simp only [true_iff]
      rcases hinv.mp h2 with h | h
      · exact Or.inr (Or.inr (Or.inl h))
      · exact Or.inr (Or.inr (Or.inr (Or.inl h)))
    · rw [if_neg h2]
      have h2' : ¬ (TrimSpace name ∈ _ ∨ TrimSpace value ∈ _) := fun h => h2 (hinv.mpr h)
      simp only [not_or] at h2'
      rw [final_check_eq_false _ _ h1.1]
      constructor
      · intro h
        exact Or.inr (Or.inr (Or.inr (Or.inr h)))
      · rintro (h | h | h | h | h)
        · exact absurd h h1.1
        · exact absurd h h1.2
        · exact absurd h h2'.1
        · exact absurd h h2'.2
        · exact h

/-- C20 fails on the code: for the value `(instance(instance) )`, the token
`(instance)` inside the pieces of the token `(instance )`, `isValidField`
returns true.  Removing every occurrence of the three tokens leaves the empty
string, for which the function is to return false; the cleaning of the code,
one `ReplaceAll` for each token in turn, removes `(instance)` last and leaves
`(instance )`, a value in which a token still occurs and which the function
itself rejects as meaningless.  On `map[] (instance)`, where no removal joins
a new token, the function returns false. -/
theorem joined_placeholder_passes_field_check :
    isValidField (ascii "Message") (ascii "(instance(instance) )") = true ∧
    specCleanedValue (ascii "(instance(instance) )") = [] ∧
    hasPlaceholderToken (specCleanedValue (ascii "(instance(instance) )")) = false ∧
    codeCleanedValue (ascii "(instance(instance) )") = ascii "(instance )" ∧
    hasPlaceholderToken (codeCleanedValue (ascii "(instance(instance) )")) = true ∧
    ascii "(instance )" ∈ invalidContents ∧
    isValidField (ascii "Message") (ascii "(instance )") = false ∧
    isValidField (ascii "Message") (ascii "map[] (instance)") = false := by
  decide

/-! ## Claims about the check of the webhook URL -/

/-- C21, as stated, fails: the URL
`https://discord.com/api/webhooks/12345678901234567/abc` has an id of 17
decimal digits and `checkWebhookURL` returns false for it. -/
theorem seventeen_digits_rejected :
    (ascii "12345678901234567").length = 17 ∧
    (ascii "12345678901234567").all isDigitByte = true ∧
    webhookPatternMatches seventeenDigitUrl = false ∧
    checkWebhookURL (fun _ => true) seventeenDigitUrl = some false := by
  decide

/-- C21, amended: `checkWebhookURL` returns true for every URL of the form
`https://discord.com/api/webhooks/<id>/<token>` or
`https://discordapp.com/api/webhooks/<id>/<token>` (a URL that `url.Parse`
accepts) in which `<id>` is a run of 18 or 19 decimal digits and `<token>` is
a non-empty string of letters, digits, `_` and `-`. -/
theorem checkWebhookURL_accepts (urlParses : GoString → Bool) (host id token : GoString)
    (hh : host = ascii "discord" ∨ host = ascii "discordapp")
    (hl : id.length = 18 ∨ id.length = 19)
    (hd : ∀ d ∈ id, 0x30 ≤ d ∧ d ≤ 0x39)
    (hne : token ≠ [])
    (ht : ∀ c ∈ token, (0x61 ≤ c ∧ c ≤ 0x7A) ∨ (0x41 ≤ c ∧ c ≤ 0x5A) ∨
      (0x30 ≤ c ∧ c ≤ 0x39) ∨ c = 0x5F ∨ c = 0x2D)
    (hp : urlParses (webhookUrlOf host id token) = true) :
    checkWebhookURL urlParses (webhookUrlOf host id token) = some true := by
  have hd' : ∀ d ∈ id, isDigitByte d = true := by
    intro d hdm
    have := hd d hdm
    simp [isDigitByte, this.1, this.2]
  have ht' : ∀ c ∈ token, isTokenByte c = true := by
    intro c hcm
    have := ht c hcm
    simp only [isTokenByte, isDigitByte, Bool.or_eq_true, Bool.and_eq_true,
      decide_eq_true_eq, beq_iff_eq]
    tauto
  have hm := webhookPatternMatches_of host id token hh hl hd' hne ht'
  have hnil : webhookUrlOf host id token ≠ [] := by
    intro h
    have := congrArg List.length h
    simp [webhookUrlOf, ascii] at this
  unfold checkWebhookURL
  rw [if_neg hnil]
  simp [hp, hm]

/-- Witness for C21 (amended) at
`https://discordapp.com/api/webhooks/123456789012345678/aB_-9`. -/
theorem checkWebhookURL_accepts_witness :
    checkWebhookURL (fun _ => true) eighteenDigitUrl = some true :=
  checkWebhookURL_accepts (fun _ => true) (ascii "discordapp")
    (ascii "123456789012345678") (ascii "aB_-9") (Or.inr rfl) (Or.inl rfl)
    (by decide) (by decide) (by decide) rfl

/-! ## Claims about the display name of an alert group -/

/-- C22, as stated, fails: for a firing group (no severity) whose description
is the two lines `a` and `b`, `getAlertName` returns the icon followed by the
whole description, newline included, not by its first line. -/
theorem short_description_keeps_newline :
    shortTwoLineGroup.CommonAnnotations.get (ascii "summary") = [] ∧
    shortTwoLineGroup.CommonAnnotations.get (ascii "message") = [] ∧
    getAlertName shortTwoLineGroup = iconInfo ++ ascii "a\nb" ∧
    firstLine (ascii "a\nb") = ascii "a" ∧
    0x0A ∈ ascii "a\nb" := by
  decide

/-- C22, amended: when the group-level summary and message annotations are
empty and the description is not, `getAlertName` returns the status icon
(`🔥 ` for firing and critical, `⚠️ ` for firing and warning, `ℹ️ ` for firing
with any other severity, `💚 ` for any other status) followed by the
description itself when it is at most 50 long, and otherwise by its first
line, cut to the first 47 positions plus `...` when that line is longer than
50; the part after the icon is at most 50 long, and it contains no newline
when the description is longer than 50. -/
theorem getAlertName_description (data : AlertManagerData)
    (hs : data.CommonAnnotations.get (ascii "summary") = [])
    (hm : data.CommonAnnotations.get (ascii "message") = [])
    (hd : data.CommonAnnotations.get (ascii "description") ≠ []) :
    ∃ icon shown, getAlertName data = icon ++ shown ∧
      (data.Status = ascii "firing" →
        data.CommonLabels.get (ascii "severity") = ascii "critical" → icon = iconFire) ∧
      (data.Status = ascii "firing" →
        data.CommonLabels.get (ascii "severity") = ascii "warning" → icon = iconWarning) ∧
      (data.Status = ascii "firing" →
        data.CommonLabels.get (ascii "severity") ≠ ascii "critical" →
        data.CommonLabels.get (ascii "severity") ≠ ascii "warning" → icon = iconInfo) ∧
      (data.Status ≠ ascii "firing" → icon = iconGreen) ∧
      shown.length ≤ 50 ∧
      ((data.CommonAnnotations.get (ascii "description")).length ≤ 50 →
        shown = data.CommonAnnotations.get (ascii "description")) ∧
      (50 < (data.CommonAnnotations.get (ascii "description")).length →
        0x0A ∉ shown ∧
        ((firstLine (data.CommonAnnotations.get (ascii "description"))).length ≤ 50 →
          shown = firstLine (data.CommonAnnotations.get (ascii "description"))) ∧
        (50 < (firstLine (data.CommonAnnotations.get (ascii "description"))).length →
          shown = (firstLine (data.CommonAnnotations.get (ascii "description"))).take 47 ++
            ascii "...")) := by
  have hicon : (data.Status = ascii "firing" →
        data.CommonLabels.get (ascii "severity") = ascii "critical" →
        statusIcon data = iconFire) ∧
      (data.Status = ascii "firing" →
        data.CommonLabels.get (ascii "severity") = ascii "warning" →
        statusIcon data = iconWarning) ∧
      (data.Status = ascii "firing" →
        data.CommonLabels.get (ascii "severity") ≠ ascii "critical" →
        data.CommonLabels.get (ascii "severity") ≠ ascii "warning" →
        statusIcon data = iconInfo) ∧
      (data.Status ≠ ascii "firing" → statusIcon data = iconGreen) := by
    unfold statusIcon
    refine ⟨?_, ?_, ?_, ?_⟩
    · intro h1 h2; rw [if_pos h1, if_pos h2]
    · intro h1 h2
      have h3 : data.CommonLabels.get (ascii "severity") ≠ ascii "critical" := by
        rw [h2]; decide
      rw [if_pos h1, if_neg h3, if_pos h2]
    · intro h1 h2 h3; rw [if_pos h1, if_neg h2, if_neg h3]
    · intro h1; rw [if_neg h1]
  have hname : getAlertName data = statusIcon data ++
      (if (data.CommonAnnotations.get (ascii "description")).length > 50 then
        if (firstLine (data.CommonAnnotations.get (ascii "description"))).length > 50 then
          (firstLine (data.CommonAnnotations.get (ascii "description"))).take 47 ++
            ascii "..."
        else firstLine (data.CommonAnnotations.get (ascii "description"))
      else data.CommonAnnotations.get (ascii "description")) := by
    unfold getAlertName
    simp only [hs, hm, ne_eq, not_true_eq_false, if_false]
    rw [if_pos hd]
  refine ⟨statusIcon data, _, hname, hicon.1, hicon.2.1, hicon.2.2.1, hicon.2.2.2, ?_, ?_, ?_⟩
  · split_ifs with h1 h2
    · have h3 : (ascii "...").length = 3 := rfl
      rw [List.length_append, List.length_take, h3]
      omega
    · omega
    · omega
  · intro hle
    rw [if_neg (by omega)]
  · intro hgt
    rw [if_pos hgt]
    refine ⟨?_, ?_, ?_⟩
    · have hfl := firstLine_no_newline (data.CommonAnnotations.get (ascii "description"))
      have hdots : (0x0A : Nat) ∉ ascii "..." := by decide
      split_ifs
      · intro hmem
        rcases List.mem_append.mp hmem with h | h
        · exact hfl (List.mem_of_mem_take h)
        · exact hdots h
      · exact hfl
    · intro hle
      rw [if_neg (by omega)]
    · intro hlt
      rw [if_pos hlt]

/-- Witness for C22 (amended) at a resolved group whose description has a
first line of 61 bytes: the name is the green icon, the first 47 bytes of that
line and `...`. -/
theorem getAlertName_description_witness :
    ∃ icon shown, getAlertName longTwoLineGroup = icon ++ shown ∧
      icon = iconGreen ∧ shown.length ≤ 50 ∧ 0x0A ∉ shown :=
  (getAlertName_description longTwoLineGroup (by decide) (by decide) (by decide)).imp
    fun _ h => h.imp fun _ h' =>
      ⟨h'.1, h'.2.2.2.2.1 (by decide), h'.2.2.2.2.2.1, (h'.2.2.2.2.2.2.2 (by decide)).1⟩

/-! ## Claims about the assembler and the validator together -/

/-- C23: for every alert whose label names are each at most 300 bytes long,
whatever its annotation values and label values, the embed is assembled, and
if the test for meaningful content keeps it, the message with this single
embed is accepted by `validateDiscordMessage`; so every call that
`sendWebhook` makes for the alert carries a message that the validator
accepts, and `postMessageToDiscord` posts it to the primary URL and to every
additional URL. -/
theorem dispatched_embed_accepted (alert : AlertManagerAlert) (cfg : Config)
    (hw : alert.Labels.WellFormed) (hn : ∀ e ∈ alert.Labels, e.1.length ≤ 300) :
    ∃ e, assembleEmbed alert (findColor alert.Status) = some e ∧
      ((TrimSpace e.Title).length > 3 ∧
          ((TrimSpace e.Description).length > 3 ∨ e.Fields.length > 0) →
        validateDiscordMessage (dispatchedMessage cfg [e]) = true) ∧
      (∀ c ∈ callsFor alert, c.embeds = [e] ∧
        validateDiscordMessage (dispatchedMessage cfg c.embeds) = true ∧
        ∀ (marshal : DiscordMessage → Option GoString) (outcome : Nat → PostOutcome)
          (box : Outbox) (body : GoString),
          marshal (dispatchedMessage cfg c.embeds) = some body →
          (postMessageToDiscord cfg marshal outcome c.embeds box).posts =
            box.posts ++ (cfg.webhookURL, body) ::
              cfg.additionalWebhookURLs.map (fun u => (u, body))) := by
  obtain ⟨e, he, hv⟩ := assembled_embed_accepted alert (findColor alert.Status) hw hn
  have hv' : validateDiscordMessage (dispatchedMessage cfg [e]) = true := by
    rw [validate_dispatchedMessage]; exact hv
  refine ⟨e, he, fun _ => hv', ?_⟩
  intro c hc
  obtain ⟨e', he', _, hcalls⟩ := callsFor_eq alert
  rw [he] at he'; cases he'
  rw [hcalls] at hc
  split at hc
  · rw [List.mem_singleton] at hc
    subst hc
    refine ⟨rfl, hv', ?_⟩
    intro marshal outcome box body hb
    unfold postMessageToDiscord
    simp only [hv', hb, Bool.not_true, Bool.false_eq_true, if_false]
    rw [sendToAdditional_posts, sendToWebhook_posts]
    simp
  · cases hc

/-- Witness for C23 at the alert `diskAlert`, whose label names are
`severity`, `alertname` and `instance`. -/
theorem dispatched_embed_accepted_witness :
    ∃ e, assembleEmbed diskAlert (findColor diskAlert.Status) = some e ∧
      ((TrimSpace e.Title).length > 3 ∧
          ((TrimSpace e.Description).length > 3 ∨ e.Fields.length > 0) →
        validateDiscordMessage (dispatchedMessage twoUrlConfig [e]) = true) :=
  (dispatched_embed_accepted diskAlert twoUrlConfig (by unfold KV.WellFormed; decide)
    (by decide)).imp fun _ h => ⟨h.1, h.2.1⟩

end Discord
